import Mathlib

/-!
# Verification of the on-disk B-tree core (`b_tree_disk.hpp`)

Shallow embedding of the disk-resident B-tree of
`src/associative_container/search_tree/indexing_tree/b_tree_disk/include/b_tree_disk.hpp`.

Modelling choices:
* The template is instantiated at `tkey = tvalue = Nat` with the default
  comparator `std::less` (so `compare_keys lhs rhs = lhs < rhs`); the minimum
  degree `t` stays a parameter, exactly as in the template.
* The tree file is a map from slot index to the serialized slot contents
  (`Store : Nat → Slot`); `disk_write` serializes a node into its slot and
  `disk_read` deserializes a slot, mirroring `btree_disk_node::serialize` /
  `deserialize`.  The data-file indirection (payload offsets) is folded into
  the slot: entry `i` of the payload is the `(key, value)` pair whose offset
  the C++ code stores in offset slot `i`.
* The two header words of the tree file (`node_count` at byte offset 0,
  `root_pos` at byte offset `sizeof(size_t)`) are the fields `header_count`
  and `header_root` of `TreeState`; the in-memory `_count_of_node` and
  `_position_root` are `count_of_node` and `position_root`.
* `size_t(-1)` (the empty-root sentinel) is `NONE_POSITION = 2^64 - 1`.
* Loops whose bound is not structural (the root-to-leaf descents) take a
  fuel argument and return `Option`; `none` models divergence and is never
  produced on well-formed trees.  Reads past the end of a `std::vector`
  (undefined behaviour in C++) are modelled by `List.getD` with a default,
  and `top()` on an empty `std::stack` by an explicit `none`.
* Iterator state is its `_path` stack, modelled as a list whose head is the
  top of the stack (the `_index` member of `btree_disk_const_iterator` is
  never read by `operator*`/`operator++`/`operator==`, so it is dropped).
-/

namespace BTreeDisk

/-- `minimum_keys_in_node = t - 1` (b_tree_disk.hpp line 188). -/
def minimum_keys_in_node (t : Nat) : Nat := t - 1

/-- `maximum_keys_in_node = 2 * t - 1` (b_tree_disk.hpp line 189). -/
def maximum_keys_in_node (t : Nat) : Nat := 2 * t - 1

/-- `compare_keys` instantiated at `std::less<Nat>` (lines 1088-1091). -/
def compare_keys (lhs rhs : Nat) : Bool := decide (lhs < rhs)

/-- The `size_t(-1)` sentinel used for "no root". -/
def NONE_POSITION : Nat := 2 ^ 64 - 1

/-- In-memory node: `btree_disk_node` (lines 200-214).  `keys` holds the
`(key, value)` pairs, `pointers` the child slot indices. -/
structure Node where
  size : Nat
  is_leaf : Bool
  position_in_disk : Nat
  keys : List (Nat × Nat)
  pointers : List Nat
  deriving Repr, DecidableEq

/-- One serialized node slot of the tree file, with the payload offsets
resolved into the `(key, value)` pairs they address in the data file.
`pointers` is the fixed-width child table (`maximum_keys_in_node + 2`
words) exactly as written; `payload` holds the pairs written for the
offset slots that were within `keys.size()` at `serialize` time. -/
structure Slot where
  size : Nat
  is_leaf : Bool
  position_in_disk : Nat
  pointers : List Nat
  payload : List (Nat × Nat)
  deriving Repr, DecidableEq

/-- A freshly created file region reads back as zero bytes: node header all
zero (`size = 0`, leaf byte 0 so `is_leaf = false`), zero tables. -/
def emptySlot : Slot := ⟨0, false, 0, [], []⟩

/-- `std::vector<size_t>::resize(n, 0)`: truncate or pad with zeros. -/
def vec_resize (l : List Nat) (n : Nat) : List Nat :=
  l.take n ++ List.replicate (n - l.length) 0

/-- `btree_disk_node::serialize` (lines 974-1004): the header, then exactly
`maximum_keys_in_node + 2` child words (missing entries written as zero),
then one payload entry per offset slot `i < keys.size()` among the
`maximum_keys_in_node + 1` offset slots. -/
def serialize (t : Nat) (nd : Node) : Slot :=
  { size := nd.size
    is_leaf := nd.is_leaf
    position_in_disk := nd.position_in_disk
    pointers := (List.range (maximum_keys_in_node t + 2)).map
      (fun i => nd.pointers.getD i 0)
    payload := nd.keys.take (maximum_keys_in_node t + 1) }

/-- `btree_disk_node::deserialize` (lines 1024-1053): read the header, read
the full child table (`resize(maximum_keys_in_node + 2)` then one word per
entry), then walk the `maximum_keys_in_node + 1` offset slots pushing pairs
while `keys.size() < size`.  A pull past the recorded payload follows a
stale zero offset; the pair read there is unspecified and modelled `(0,0)`.
Note the child table is **not** truncated to `size + 1`. -/
def deserialize (t : Nat) (sl : Slot) : Node :=
  { size := sl.size
    is_leaf := sl.is_leaf
    position_in_disk := sl.position_in_disk
    pointers := (List.range (maximum_keys_in_node t + 2)).map
      (fun i => sl.pointers.getD i 0)
    keys := (List.range (min sl.size (maximum_keys_in_node t + 1))).map
      (fun i => sl.payload.getD i (0, 0)) }

/-- The tree-file contents, addressed by slot index. -/
def Store : Type := Nat → Slot

/-- Whole persistent state of one `B_tree_disk` object. -/
structure TreeState where
  store : Store
  position_root : Nat
  count_of_node : Nat
  header_count : Nat
  header_root : Nat

/-- `disk_read` (lines 1055-1068): seek to the slot and deserialize. -/
def disk_read (t : Nat) (s : TreeState) (position : Nat) : Node :=
  deserialize t (s.store position)

/-- `disk_write` (lines 1007-1022): seek to `node.position_in_disk` and
serialize the node there. -/
def disk_write (t : Nat) (s : TreeState) (node : Node) : TreeState :=
  { s with store := fun q =>
      if q = node.position_in_disk then serialize t node else s.store q }

/-- `print_root_position` (lines 540-549): seek to byte offset
`sizeof(size_t)` of the tree file and write `_position_root` there; the
`node_count` word at offset 0 is untouched. -/
def print_root_position (s : TreeState) : TreeState :=
  { s with header_root := s.position_root }

/-- `btree_disk_node(bool is_leaf)` (lines 1071-1075). -/
def newNode (t : Nat) (is_leaf : Bool) : Node :=
  { size := 0
    is_leaf := is_leaf
    position_in_disk := 0
    keys := []
    pointers := List.replicate (maximum_keys_in_node t + 2) 0 }

/-- The fresh-creation branch of the constructor (lines 1106-1144): truncate
both files, set `_count_of_node = 0`, allocate slot 0 as an empty leaf root,
write it, then write both header words. -/
def B_tree_disk_new (t : Nat) : TreeState :=
  let s0 : TreeState :=
    { store := fun _ => emptySlot
      position_root := 0
      count_of_node := 0
      header_count := 0
      header_root := 0 }
  let root_node := { newNode t true with position_in_disk := s0.count_of_node }
  let s1 := { s0 with count_of_node := s0.count_of_node + 1
                      position_root := root_node.position_in_disk }
  let s2 := disk_write t s1 root_node
  { s2 with header_count := s2.count_of_node, header_root := s2.position_root }

/-- `find_index` (lines 954-971): linear scan to the first key not strictly
less than `key`; found iff that key is not strictly greater either. -/
def find_index (key : Nat) (node : Node) : Nat × Bool :=
  let i := node.keys.findIdx (fun kv => ! compare_keys kv.fst key)
  (i, decide (i < node.keys.length) &&
      ! compare_keys key (node.keys.getD i (0, 0)).fst)

/-- The root-to-leaf loop of `find_path` (lines 934-950).  The accumulator
is the `std::stack` with its top at the head.  Fuel bounds the descent. -/
def find_path_from (t : Nat) (s : TreeState) (key : Nat) :
    Nat → Nat → List (Nat × Nat) → Option (List (Nat × Nat) × Nat × Bool)
  | 0, _, _ => none
  | fuel + 1, pos, path =>
    let node := disk_read t s pos
    let r := find_index key node
    if r.snd then some ((pos, r.fst) :: path, r.fst, true)
    else if node.is_leaf then some ((pos, r.fst) :: path, r.fst, false)
    else find_path_from t s key fuel (node.pointers.getD r.fst 0)
      ((pos, r.fst) :: path)

/-- `find_path` (lines 915-951): empty stack immediately for an empty tree,
else descend from the root. -/
def find_path (t : Nat) (s : TreeState) (key : Nat) :
    Option (List (Nat × Nat) × Nat × Bool) :=
  if s.position_root = NONE_POSITION then some ([], 0, false)
  else find_path_from t s key (s.count_of_node + 1) s.position_root []

/-- The node-splitting core of `split_node` (lines 827-872): read the
overflowing node, pad its child table, allocate the right sibling slot via
`_count_of_node++`, split the keys around the median `keys[keys.size()/2]`
(keys `[mid+1, end)` to the right, `[0, mid)` retained, the median
promoted), split the child table the same way for internal nodes, and write
both halves.  Returns the new state, the promoted median pair, and the
right sibling's slot. -/
def split_core (t : Nat) (s : TreeState) (current_pos : Nat) :
    TreeState × (Nat × Nat) × Nat :=
  let current := disk_read t s current_pos
  let current :=
    { current with pointers := vec_resize current.pointers (maximum_keys_in_node t + 2) }
  let right_pos := s.count_of_node
  let s := { s with count_of_node := s.count_of_node + 1 }
  let mid := current.keys.length / 2
  let middle_key := current.keys.getD mid (0, 0)
  let right_keys := current.keys.drop (mid + 1)
  let current_keys := current.keys.take mid
  let right_pointers :=
    if !current.is_leaf then
      vec_resize (current.pointers.drop (mid + 1)) (maximum_keys_in_node t + 2)
    else vec_resize [] (maximum_keys_in_node t + 2)
  let current_pointers :=
    if !current.is_leaf then
      vec_resize (current.pointers.take (mid + 1)) (maximum_keys_in_node t + 2)
    else current.pointers
  let current := { current with keys := current_keys, pointers := current_pointers,
                                size := current_keys.length }
  let right : Node := { size := right_keys.length, is_leaf := current.is_leaf,
                        position_in_disk := right_pos,
                        keys := right_keys, pointers := right_pointers }
  let s := disk_write t s current
  let s := disk_write t s right
  (s, middle_key, right_pos)

/-- The left (retained) half written by `split_core`: keys `[0, mid)` and,
for internal nodes, children `[0, mid]` padded back to fixed width. -/
def split_left (t : Nat) (n : Node) : Node :=
  Node.mk (n.keys.take (n.keys.length / 2)).length n.is_leaf n.position_in_disk
    (n.keys.take (n.keys.length / 2))
    (if !n.is_leaf then
       vec_resize (n.pointers.take (n.keys.length / 2 + 1)) (maximum_keys_in_node t + 2)
     else n.pointers)

/-- The right sibling written by `split_core` into slot `rp`: keys
`[mid + 1, end)` and, for internal nodes, children `[mid + 1, end)`. -/
def split_right (t : Nat) (n : Node) (rp : Nat) : Node :=
  Node.mk (n.keys.drop (n.keys.length / 2 + 1)).length n.is_leaf rp
    (n.keys.drop (n.keys.length / 2 + 1))
    (if !n.is_leaf then
       vec_resize (n.pointers.drop (n.keys.length / 2 + 1)) (maximum_keys_in_node t + 2)
     else vec_resize [] (maximum_keys_in_node t + 2))

/-- The new-root branch of `split_node` (lines 875-887): allocate an
internal root holding only the promoted median, children `[0] = left`,
`[1] = right`, update `_position_root` and persist it. -/
def split_root_case (t : Nat) (s : TreeState) (current_pos right_pos : Nat)
    (middle_key : Nat × Nat) : TreeState :=
  let root : Node :=
    { size := 1, is_leaf := false, position_in_disk := s.count_of_node,
      keys := [middle_key],
      pointers := vec_resize
        (((List.replicate (maximum_keys_in_node t + 2) 0).set 0 current_pos).set 1
          right_pos)
        (maximum_keys_in_node t + 2) }
  let s := { s with count_of_node := s.count_of_node + 1,
                    position_root := root.position_in_disk }
  let s := disk_write t s root
  print_root_position s

/-- The parent-insertion step of `split_node` (lines 889-898): insert the
median at key slot `parent_idx` and the right sibling at child slot
`parent_idx + 1`, bump the size, pad the table back to fixed width, and
write the parent.  Returns the state and the updated parent. -/
def split_parent_insert (t : Nat) (s : TreeState) (parent_pos parent_idx : Nat)
    (middle_key : Nat × Nat) (right_pos : Nat) : TreeState × Node :=
  let parent := disk_read t s parent_pos
  let parent := { parent with
    keys := parent.keys.insertIdx parent_idx middle_key,
    pointers := parent.pointers.insertIdx (parent_idx + 1) right_pos,
    size := parent.size + 1 }
  let parent :=
    { parent with pointers := vec_resize parent.pointers (maximum_keys_in_node t + 2) }
  (disk_write t s parent, parent)

/-- `split_node` (lines 821-901), structurally recursive on the path stack:
pop the overflowing node, split it (`split_core`), then either grow a new
root or insert the median into the parent frame and recurse when the parent
overflowed. -/
def split_node (t : Nat) (s : TreeState) :
    List (Nat × Nat) → TreeState
  | [] => s
  | (current_pos, _) :: path =>
    let r := split_core t s current_pos
    match path with
    | [] => split_root_case t r.fst current_pos r.snd.snd r.snd.fst
    | (parent_pos, parent_idx) :: _ =>
      let pr := split_parent_insert t r.fst parent_pos parent_idx r.snd.fst r.snd.snd
      if pr.snd.size > maximum_keys_in_node t then split_node t pr.fst path else pr.fst

/-- `insert` (lines 779-818): find the path, fail on found, insert into the
leaf frame, write it, and split when it overflowed.  `none` models the
undefined `path.top()` on an empty stack (empty tree, see C10). -/
def insert (t : Nat) (s : TreeState) (data : Nat × Nat) :
    Option (TreeState × Bool) :=
  match find_path t s data.fst with
  | none => none
  | some (path, index, found) =>
    if found then some (s, false)
    else
      match path with
      | [] => none
      | (current_position, _) :: path =>
        let current_node := disk_read t s current_position
        let current_node := { current_node with
          keys := current_node.keys.insertIdx index data,
          size := current_node.size + 1 }
        let current_node := { current_node with
          pointers := vec_resize current_node.pointers (maximum_keys_in_node t + 2) }
        let s := disk_write t s current_node
        if current_node.size > maximum_keys_in_node t then
          some (split_node t s ((current_position, index) :: path), true)
        else some (s, true)

/-- `update` (lines 762-776): replace the value in place and rewrite the
node. -/
def update (t : Nat) (s : TreeState) (data : Nat × Nat) :
    Option (TreeState × Bool) :=
  match find_path t s data.fst with
  | none => none
  | some (path, index, found) =>
    if !found then some (s, false)
    else
      match path with
      | [] => none
      | (node_pos, _) :: _ =>
        let node := disk_read t s node_pos
        let node := { node with
          keys := node.keys.set index ((node.keys.getD index (0, 0)).fst, data.snd) }
        some (disk_write t s node, true)

/-- `at` (lines 1380-1393): point lookup. -/
def at_op (t : Nat) (s : TreeState) (key : Nat) : Option Nat :=
  match find_path t s key with
  | none => none
  | some (path, index, found) =>
    if !found then none
    else
      match path with
      | [] => none
      | (current_position, _) :: _ =>
        some ((disk_read t s current_position).keys.getD index (0, 0)).snd

/-- The child-locating scan of `rebalance_node` (lines 570-573):
`while (node_idx <= parent.size && parent.pointers[node_idx] != node.position_in_disk) node_idx++;`
yields the first such index, or `parent.size + 1` when none matches. -/
def find_child_idx (pointers : List Nat) (parent_size : Nat) (node_pos : Nat) : Nat :=
  (List.range (parent_size + 1)).findIdx (fun i => pointers.getD i 0 == node_pos)

/-- The borrow-from-left-sibling branch of `rebalance_node`
(lines 576-605): prepend the separator `parent.keys[node_idx-1]` to the
node, replace that separator by the left sibling's last key, move the left
sibling's last child over for internal nodes (note the source pops the
**vector's** last entry, which is table padding, not the moved child), drop
the donated key, and write all three nodes. -/
def borrow_left_branch (t : Nat) (s : TreeState) (parent node left_sibling : Node)
    (node_idx : Nat) : TreeState :=
  let node := { node with keys := parent.keys.getD (node_idx - 1) (0, 0) :: node.keys,
                          size := node.size + 1 }
  let parent := { parent with
    keys := parent.keys.set (node_idx - 1)
      (left_sibling.keys.getD (left_sibling.size - 1) (0, 0)) }
  let node :=
    if !node.is_leaf then
      { node with pointers := left_sibling.pointers.getD left_sibling.size 0 :: node.pointers }
    else node
  let left_sibling :=
    if !node.is_leaf then
      { left_sibling with pointers := left_sibling.pointers.dropLast }
    else left_sibling
  let left_sibling := { left_sibling with keys := left_sibling.keys.dropLast,
                                          size := left_sibling.size - 1 }
  let s := disk_write t s left_sibling
  let s := disk_write t s parent
  disk_write t s node

/-- The borrow-from-right-sibling branch of `rebalance_node`
(lines 608-637): append the separator `parent.keys[node_idx]` to the node,
replace it by the right sibling's first key, move the right sibling's first
child over for internal nodes, drop the donated key, write all three. -/
def borrow_right_branch (t : Nat) (s : TreeState) (parent node right_sibling : Node)
    (node_idx : Nat) : TreeState :=
  let node := { node with keys := node.keys ++ [parent.keys.getD node_idx (0, 0)],
                          size := node.size + 1 }
  let parent := { parent with
    keys := parent.keys.set node_idx (right_sibling.keys.getD 0 (0, 0)) }
  let node :=
    if !node.is_leaf then
      { node with pointers := node.pointers ++ [right_sibling.pointers.getD 0 0] }
    else node
  let right_sibling :=
    if !node.is_leaf then
      { right_sibling with pointers := right_sibling.pointers.eraseIdx 0 }
    else right_sibling
  let right_sibling := { right_sibling with keys := right_sibling.keys.eraseIdx 0,
                                            size := right_sibling.size - 1 }
  let s := disk_write t s right_sibling
  let s := disk_write t s parent
  disk_write t s node

/-- The merge-into-left-sibling data step of `rebalance_node`
(lines 643-670): push the separator and all of the node's keys onto the
left sibling, append the node's children for internal nodes (after the
sibling's fixed-width padding, so they are dropped again by `serialize`),
write the sibling, remove the separator and the node's child slot from the
parent, and write the parent.  Returns the state and the updated parent. -/
def merge_left_branch (t : Nat) (s : TreeState) (parent node left_sibling : Node)
    (node_idx : Nat) : TreeState × Node :=
  let left_sibling := { left_sibling with
    keys := left_sibling.keys ++ [parent.keys.getD (node_idx - 1) (0, 0)],
    size := left_sibling.size + 1 }
  let left_sibling := { left_sibling with
    keys := left_sibling.keys ++
      (List.range node.size).map (fun i => node.keys.getD i (0, 0)),
    size := left_sibling.size + node.size }
  let left_sibling :=
    if !node.is_leaf then
      { left_sibling with
          pointers := left_sibling.pointers ++
            ((List.range (node.size + 1)).map (fun i => node.pointers.getD i 0)) }
    else left_sibling
  let s := disk_write t s left_sibling
  let parent := { parent with keys := parent.keys.eraseIdx (node_idx - 1),
                              pointers := parent.pointers.eraseIdx node_idx,
                              size := parent.size - 1 }
  (disk_write t s parent, parent)

/-- The merge-right-sibling-into-node data step of `rebalance_node`
(lines 687-714): push the separator and all of the right sibling's keys
onto the node, append the sibling's children for internal nodes (again
past the fixed-width padding), write the node, remove the separator and
the sibling's child slot from the parent, and write the parent. -/
def merge_right_branch (t : Nat) (s : TreeState) (parent node right_sibling : Node)
    (node_idx : Nat) : TreeState × Node :=
  let node := { node with keys := node.keys ++ [parent.keys.getD node_idx (0, 0)],
                          size := node.size + 1 }
  let node := { node with
    keys := node.keys ++
      (List.range right_sibling.size).map (fun i => right_sibling.keys.getD i (0, 0)),
    size := node.size + right_sibling.size }
  let node :=
    if !node.is_leaf then
      { node with
          pointers := node.pointers ++
            ((List.range (right_sibling.size + 1)).map
              (fun i => right_sibling.pointers.getD i 0)) }
    else node
  let s := disk_write t s node
  let parent := { parent with keys := parent.keys.eraseIdx node_idx,
                              pointers := parent.pointers.eraseIdx (node_idx + 1),
                              size := parent.size - 1 }
  (disk_write t s parent, parent)

/-- `rebalance_node` (lines 551-726), structurally recursive on the path
stack: return at once on an empty path or a full-enough node; otherwise
locate the node among the parent's children and borrow from the left
sibling, else from the right, else merge into the left sibling, else merge
the right sibling in; after a merge update the root when the parent became
an empty root or recurse when it underflowed. -/
def rebalance_node (t : Nat) (s : TreeState) :
    List (Nat × Nat) → Node → Nat → TreeState
  | [], _, _ => s
  | (parent_pos, parent_idx) :: path, node, _ =>
    if node.size ≥ minimum_keys_in_node t then s
    else
      let parent := disk_read t s parent_pos
      let node_idx := find_child_idx parent.pointers parent.size node.position_in_disk
      let left_sibling_pos := parent.pointers.getD (node_idx - 1) 0
      let left_sibling := disk_read t s left_sibling_pos
      if node_idx > 0 && left_sibling.size > minimum_keys_in_node t then
        borrow_left_branch t s parent node left_sibling node_idx
      else
        let right_sibling_pos := parent.pointers.getD (node_idx + 1) 0
        let right_sibling := disk_read t s right_sibling_pos
        if node_idx < parent.size && right_sibling.size > minimum_keys_in_node t then
          borrow_right_branch t s parent node right_sibling node_idx
        else if node_idx > 0 then
          let pr := merge_left_branch t s parent node left_sibling node_idx
          let s := pr.fst
          let parent := pr.snd
          if parent_pos = s.position_root && parent.size = 0 then
            print_root_position { s with position_root := left_sibling_pos }
          else if parent.size < minimum_keys_in_node t && parent_pos ≠ s.position_root then
            rebalance_node t s path parent parent_idx
          else s
        else if node_idx ≤ parent.size then
          let pr := merge_right_branch t s parent node right_sibling node_idx
          let s := pr.fst
          let merged := pr.snd
          if parent_pos = s.position_root && merged.size = 0 then
            print_root_position { s with position_root := node.position_in_disk }
          else if merged.size < minimum_keys_in_node t && parent_pos ≠ s.position_root then
            rebalance_node t s path merged parent_idx
          else s
        else s

/-- The rightmost-spine descent of erase case 2.1 (lines 440-444): push
`(pos, node.size)` frames while internal, follow `pointers[size]`. -/
def descend_rightmost (t : Nat) (s : TreeState) :
    Nat → Nat → Node → List (Nat × Nat) → Option (List (Nat × Nat) × Nat × Node)
  | 0, _, _, _ => none
  | fuel + 1, pos, node, path =>
    if !node.is_leaf then
      let next := node.pointers.getD node.size 0
      descend_rightmost t s fuel next (disk_read t s next) ((pos, node.size) :: path)
    else some (path, pos, node)

/-- The leftmost-spine descent of erase case 2.2 (lines 477-481): push
`(pos, 0)` frames while internal, follow `pointers[0]`. -/
def descend_leftmost_spine (t : Nat) (s : TreeState) :
    Nat → Nat → Node → List (Nat × Nat) → Option (List (Nat × Nat) × Nat × Node)
  | 0, _, _, _ => none
  | fuel + 1, pos, node, path =>
    if !node.is_leaf then
      let next := node.pointers.getD 0 0
      descend_leftmost_spine t s fuel next (disk_read t s next) ((pos, 0) :: path)
    else some (path, pos, node)

/-- Erase case 1 (lines 407-422): remove the key from the leaf, write it,
rebalance when a non-root leaf underflowed, or clear `_position_root` when
the root leaf became empty. -/
def erase_leaf_case (t : Nat) (s : TreeState) (path : List (Nat × Nat))
    (current : Node) (index : Nat) (current_pos : Nat) : TreeState :=
  let current := { current with keys := current.keys.eraseIdx index,
                                size := current.size - 1 }
  let s := disk_write t s current
  if current.size < minimum_keys_in_node t && current_pos ≠ s.position_root then
    rebalance_node t s path current index
  else if current_pos = s.position_root && current.size = 0 then
    print_root_position { s with position_root := NONE_POSITION }
  else s

/-- Erase case 2.1 (lines 431-461): walk the rightmost spine of the left
child to its leaf, replace the erased key by that leaf's last key, remove
it from the leaf, and rebalance along the spine path when the leaf
underflowed. -/
def erase_pred_case (t : Nat) (s : TreeState) (current : Node) (index : Nat)
    (current_pos left_child_pos : Nat) (left_child : Node) : Option TreeState :=
  match descend_rightmost t s (s.count_of_node + 1) left_child_pos left_child
      [(current_pos, index)] with
  | none => none
  | some (pred_path, pred_pos, pred_node) =>
    let current := { current with
      keys := current.keys.set index (pred_node.keys.getD (pred_node.size - 1) (0, 0)) }
    let s := disk_write t s current
    let pred_node := { pred_node with
      keys := pred_node.keys.eraseIdx (pred_node.size - 1),
      size := pred_node.size - 1 }
    let s := disk_write t s pred_node
    if pred_node.size < minimum_keys_in_node t ∧ pred_pos ≠ s.position_root then
      some (rebalance_node t s pred_path pred_node pred_node.size)
    else some s

/-- Erase case 2.2 (lines 468-498): walk the leftmost spine of the right
child to its leaf, replace the erased key by that leaf's first key, remove
it, and rebalance along the spine path when the leaf underflowed. -/
def erase_succ_case (t : Nat) (s : TreeState) (current : Node) (index : Nat)
    (current_pos right_child_pos : Nat) (right_child : Node) : Option TreeState :=
  match descend_leftmost_spine t s (s.count_of_node + 1) right_child_pos
      right_child [(current_pos, index + 1)] with
  | none => none
  | some (succ_path, succ_pos, succ_node) =>
    let current := { current with
      keys := current.keys.set index (succ_node.keys.getD 0 (0, 0)) }
    let s := disk_write t s current
    let succ_node := { succ_node with
      keys := succ_node.keys.eraseIdx 0,
      size := succ_node.size - 1 }
    let s := disk_write t s succ_node
    if succ_node.size < minimum_keys_in_node t ∧ succ_pos ≠ s.position_root then
      some (rebalance_node t s succ_path succ_node 0)
    else some s

/-- Erase case 2.3 (lines 500-536): append all of the right child's keys to
the left child — the separator `N.keys[i]` is the erased key itself and is
**not** pulled down — append the right child's children for internal nodes
(after the left child's fixed-width padding, where `serialize` will drop
them), write the left child, remove `keys[index]` and `pointers[index+1]`
from the node, write it, then update the root or rebalance as needed. -/
def erase_merge_case (t : Nat) (s : TreeState) (path : List (Nat × Nat))
    (current : Node) (index : Nat) (current_pos left_child_pos : Nat)
    (left_child right_child : Node) : TreeState :=
  let left_child := { left_child with
    keys := left_child.keys ++
      (List.range right_child.size).map (fun i => right_child.keys.getD i (0, 0)),
    size := left_child.size + right_child.size }
  let left_child :=
    if !left_child.is_leaf then
      { left_child with
          pointers := left_child.pointers ++
            ((List.range (right_child.size + 1)).map
              (fun i => right_child.pointers.getD i 0)) }
    else left_child
  let s := disk_write t s left_child
  let current := { current with
    keys := current.keys.eraseIdx index,
    pointers := current.pointers.eraseIdx (index + 1),
    size := current.size - 1 }
  let s := disk_write t s current
  if current_pos = s.position_root && current.size = 0 then
    print_root_position { s with position_root := left_child_pos }
  else if current.size < minimum_keys_in_node t ∧ current_pos ≠ s.position_root then
    rebalance_node t s path current index
  else s

/-- `erase` (lines 385-536): `false` on an empty tree or a missing key;
otherwise dispatch on whether the key sits in a leaf (case 1) or an
internal node, where the predecessor (2.1), successor (2.2) or merge (2.3)
case applies depending on the child sizes. -/
def erase (t : Nat) (s : TreeState) (key : Nat) : Option (TreeState × Bool) :=
  if s.position_root = NONE_POSITION then some (s, false)
  else
    match find_path t s key with
    | none => none
    | some (path, index, found) =>
      if !found then some (s, false)
      else
        match path with
        | [] => none
        | (current_pos, _) :: path =>
          let current := disk_read t s current_pos
          if current.is_leaf then
            some (erase_leaf_case t s path current index current_pos, true)
          else
            let left_child_pos := current.pointers.getD index 0
            let left_child := disk_read t s left_child_pos
            if left_child.size > minimum_keys_in_node t then
              match erase_pred_case t s current index current_pos left_child_pos left_child with
              | none => none
              | some s => some (s, true)
            else
              let right_child_pos := current.pointers.getD (index + 1) 0
              let right_child := disk_read t s right_child_pos
              if right_child.size > minimum_keys_in_node t then
                match erase_succ_case t s current index current_pos right_child_pos right_child with
                | none => none
                | some s => some (s, true)
              else
                some (erase_merge_case t s path current index current_pos left_child_pos
                  left_child right_child, true)

/-- The descend-to-leftmost-leaf loop shared by `begin` (lines 1229-1235)
and both descents of `operator++` (lines 1269-1277, 1314-1321): push
`(pos, 0)` while internal, finish by pushing the leaf frame. -/
def descend_leftmost (t : Nat) (s : TreeState) :
    Nat → Nat → List (Nat × Nat) → Option (List (Nat × Nat))
  | 0, _, _ => none
  | fuel + 1, pos, acc =>
    let node := disk_read t s pos
    if !node.is_leaf then
      descend_leftmost t s fuel (node.pointers.getD 0 0) ((pos, 0) :: acc)
    else some ((pos, 0) :: acc)

/-- `begin` (lines 1217-1237): `end()` for an empty tree, else the path to
the leftmost leaf with every frame index 0. -/
def begin (t : Nat) (s : TreeState) : Option (List (Nat × Nat)) :=
  if s.position_root = NONE_POSITION then some []
  else descend_leftmost t s (s.count_of_node + 1) s.position_root []

/-- `end` (lines 1241-1245): the empty path stack. -/
def end_iter : List (Nat × Nat) := []

/-- The ascent loop of `operator++` (lines 1290-1327), structurally
recursive on the stack below the popped leaf.  Note the source's step 4
returns as soon as `parent_idx >= parent.keys.size()` after popping one
frame, which makes its step 4.2 (descend into `pointers[parent_idx + 1]`)
and step 4.3 unreachable; both are kept here verbatim after that return. -/
def iter_ascend (t : Nat) (s : TreeState) (fuel : Nat) :
    List (Nat × Nat) → Option (List (Nat × Nat))
  | [] => some []
  | (parent_pos, parent_idx) :: rest =>
    let parent := disk_read t s parent_pos
    if parent_idx < parent.keys.length then some ((parent_pos, parent_idx) :: rest)
    else if parent_idx ≥ parent.keys.length then some rest
    else if parent_idx + 1 < parent.pointers.length then
      descend_leftmost t s fuel (parent.pointers.getD (parent_idx + 1) 0)
        ((parent_pos, parent_idx + 1) :: rest)
    else iter_ascend t s fuel rest

/-- `operator++` (lines 1248-1331): no-op on `end()`; from an internal
frame bump the index and descend to the leftmost leaf of the next child;
from a leaf bump the index if a key remains, else pop and ascend. -/
def iter_next (t : Nat) (s : TreeState) (fuel : Nat) (it : List (Nat × Nat)) :
    Option (List (Nat × Nat)) :=
  match it with
  | [] => some []
  | (pos, idx) :: rest =>
    let node := disk_read t s pos
    if !node.is_leaf then
      descend_leftmost t s fuel (node.pointers.getD (idx + 1) 0) ((pos, idx + 1) :: rest)
    else if idx + 1 < node.keys.length then some ((pos, idx + 1) :: rest)
    else iter_ascend t s fuel rest

/-- `operator*` (lines 1369-1377): `keys[index]` of the top frame's node;
`none` models both the throw on `end()` and the out-of-bounds
`keys[idx]` access of a stuck iterator. -/
def iter_deref (t : Nat) (s : TreeState) (it : List (Nat × Nat)) : Option (Nat × Nat) :=
  match it with
  | [] => none
  | (pos, idx) :: _ =>
    let node := disk_read t s pos
    if idx < node.keys.length then some (node.keys.getD idx (0, 0)) else none

/-- `find_range` (lines 1396-1425): run `find_path` for each bound; the
returned iterators are the resulting path stacks, advanced by one when the
bound was found and the corresponding inclusion flag is **false** (both
bounds use `!include_*` in the source). -/
def find_range (t : Nat) (s : TreeState) (lower upper : Nat)
    (include_lower include_upper : Bool) :
    Option (List (Nat × Nat) × List (Nat × Nat)) := do
  let (lower_path, li, lower_found) ← find_path t s lower
  let _ := li
  let it_lo ← if lower_path ≠ [] then
      (if lower_found && !include_lower then
        iter_next t s (s.count_of_node + 1) lower_path
      else pure lower_path)
    else pure end_iter
  let (upper_path, ui, upper_found) ← find_path t s upper
  let _ := ui
  let it_hi ← if upper_path ≠ [] then
      (if upper_found && !include_upper then
        iter_next t s (s.count_of_node + 1) upper_path
      else pure upper_path)
    else pure end_iter
  pure (it_lo, it_hi)

/-- The in-node key order scan of `check_tree` (lines 1180-1184): fails iff
some adjacent pair is out of order. -/
def check_keys_order (keys : List (Nat × Nat)) : Bool :=
  (List.range keys.length).all fun i =>
    i = 0 || ! compare_keys (keys.getD i (0, 0)).fst (keys.getD (i - 1) (0, 0)).fst

/-- `check_tree` (lines 1168-1207) as a boolean: `false` wherever the C++
code throws `std::logic_error`.  Fuel bounds the recursion depth (`false`
on exhaustion, never reached on trees of depth below the fuel). -/
def check_tree (t : Nat) (s : TreeState) :
    Nat → Nat → Nat → Bool
  | 0, _, _ => false
  | fuel + 1, pos, depth =>
    if pos = NONE_POSITION then true
    else
      let node := disk_read t s pos
      if pos ≠ s.position_root &&
          (node.size < minimum_keys_in_node t || node.size > maximum_keys_in_node t) then
        false
      else if ! check_keys_order node.keys then false
      else if !node.is_leaf then
        if node.pointers.length ≠ node.size + 1 then false
        else
          (List.range node.pointers.length).all fun i =>
            let child := disk_read t s (node.pointers.getD i 0)
            (i = 0 ||
              compare_keys (child.keys.headD (0, 0)).fst
                (node.keys.getD (i - 1) (0, 0)).fst) &&
            (decide (i ≥ node.keys.length) ||
              compare_keys (node.keys.getD i (0, 0)).fst
                (child.keys.getLastD (0, 0)).fst) &&
            check_tree t s fuel (node.pointers.getD i 0) (depth + 1)
      else true

/-- What the constructor (lines 1093-1165) does to the two files, as a
function of which of them already exist: it computes
`files_exist = exists(tree) && exists(data)` and, when that is false —
including when exactly one file exists — creates/truncates **both** files
and initializes a fresh tree; only when both exist does it open them. -/
inductive ConstructorOutcome where
  | freshInit
  | openExisting
  | constructionError
  deriving DecidableEq, Repr

/-- The branch taken by the constructor on the existence flags of
`file_path + ".tree"` and `file_path + ".data"` (lines 1102-1145). -/
def constructorOutcome (tree_exists data_exists : Bool) : ConstructorOutcome :=
  if tree_exists && data_exists then ConstructorOutcome.openExisting
  else ConstructorOutcome.freshInit

/-- Fold `insert` over a list of pairs (test scaffolding for concrete
scenarios). -/
def insert_list (t : Nat) (s : TreeState) : List (Nat × Nat) → Option TreeState
  | [] => some s
  | d :: ds =>
    match insert t s d with
    | none => none
    | some (s', _) => insert_list t s' ds

/-- Advance an iterator `n` times with `operator++`. -/
def iter_next_n (t : Nat) (s : TreeState) (fuel : Nat) :
    Nat → List (Nat × Nat) → Option (List (Nat × Nat))
  | 0, it => some it
  | n + 1, it =>
    match iter_next t s fuel it with
    | none => none
    | some it' => iter_next_n t s fuel n it'

/-- The first `n` dereferenced elements of a forward iteration, together
with the iterator left after `n` increments. -/
def iter_collect (t : Nat) (s : TreeState) (fuel : Nat) :
    Nat → List (Nat × Nat) → Option (List (Option (Nat × Nat)) × List (Nat × Nat))
  | 0, it => some ([], it)
  | n + 1, it =>
    match iter_next t s fuel it with
    | none => none
    | some it' =>
      match iter_collect t s fuel n it' with
      | none => none
      | some (vs, itf) => some (iter_deref t s it :: vs, itf)

/-! ## Concrete scenario states (all reachable by public mutations) -/

/-- `(k, 10k)` pairs for a list of keys. -/
def times_ten (l : List Nat) : List (Nat × Nat) := l.map (fun k => (k, k * 10))

/-- Fold `erase` over a list of keys. -/
def erase_list (t : Nat) (s : TreeState) : List Nat → Option TreeState
  | [] => some s
  | k :: ks =>
    match erase t s k with
    | none => none
    | some (s', _) => erase_list t s' ks

/-- A fresh `t = 2` tree. -/
def fresh2 : TreeState := B_tree_disk_new 2

/-- Keys 1..3 inserted: a single leaf root of three keys. -/
def scenario3 : TreeState := (insert_list 2 fresh2 (times_ten [1, 2, 3])).getD fresh2

/-- Keys 1..4 inserted: the first split has made the root internal. -/
def scenario4 : TreeState := (insert_list 2 fresh2 (times_ten [1, 2, 3, 4])).getD fresh2

/-- Keys 1..13 inserted in order: a tree of depth 3 (root 7 `[9]`, internal
children 2 `[3,6]` and 6 `[12]`, leaves below). -/
def scenario13 : TreeState :=
  (insert_list 2 fresh2 (times_ten [1, 2, 3, 4, 5, 6, 7, 8, 9, 10, 11, 12, 13])).getD fresh2

/-- `scenario13` after erasing 1, 2, 3: the root `[9]` has two internal
children, node 2 `[6]` (children 0, 3) and node 6 `[12]` (children 4, 5),
each holding exactly `minimum_keys_in_node 2 = 1` key. -/
def scenarioA : TreeState := (erase_list 2 scenario13 [1, 2, 3]).getD fresh2

/-- Insert one key into a fresh tree and erase it again: erase's root-empty
branch sets `position_root` to the `NONE` sentinel. -/
def scenarioE : TreeState :=
  (erase_list 2 ((insert_list 2 fresh2 (times_ten [5])).getD fresh2) [5]).getD fresh2

/-! ## Well-formedness of a stored tree

The search-tree invariant that reachable trees satisfy, used as the
hypothesis of the insert/get law (C4).  `WFsubM t s h p lo hi m` checks the
subtree of height `h` stored at slot `p`: every node reads back at its own
slot, sizes agree with the key count, keys are strictly sorted and lie
strictly inside the window `(lo, hi)`, the node at the top holds at most
`m` keys and every deeper node at most `maximum_keys_in_node t`, internal
nodes hold at least one key, and all slots are below `_count_of_node`. -/

/-- `true` when `k` is strictly above the (optional) lower bound. -/
def window_lo : Option Nat → Nat → Bool
  | none, _ => true
  | some a, k => decide (a < k)

/-- `true` when `k` is strictly below the (optional) upper bound. -/
def window_hi : Option Nat → Nat → Bool
  | none, _ => true
  | some b, k => decide (k < b)

/-- Strict membership in an optional-bounds window. -/
def in_window (lo hi : Option Nat) (k : Nat) : Bool :=
  window_lo lo k && window_hi hi k

/-- Keys strictly increasing. -/
def sorted_keys : List (Nat × Nat) → Bool
  | [] => true
  | [_] => true
  | a :: b :: l => decide (a.fst < b.fst) && sorted_keys (b :: l)

/-- Lower bound of the window of child `i` of node `n` whose own window has
lower bound `lo`. -/
def child_lo (n : Node) (lo : Option Nat) (i : Nat) : Option Nat :=
  if i = 0 then lo else some (n.keys.getD (i - 1) (0, 0)).fst

/-- Upper bound of the window of child `i` of node `n` whose own window has
upper bound `hi`. -/
def child_hi (n : Node) (hi : Option Nat) (i : Nat) : Option Nat :=
  if i < n.size then some (n.keys.getD i (0, 0)).fst else hi

/-- Well-formedness of the stored subtree of height `h` at slot `p` within
window `(lo, hi)`, allowing up to `m` keys in the top node. -/
def WFsubM (t : Nat) (s : TreeState) :
    Nat → Nat → Option Nat → Option Nat → Nat → Bool
  | 0, p, lo, hi, m =>
    let n := disk_read t s p
    n.is_leaf && decide (n.position_in_disk = p) && decide (p < s.count_of_node) &&
    decide (n.size = n.keys.length) && decide (n.size ≤ m) &&
    n.keys.all (fun kv => in_window lo hi kv.fst) && sorted_keys n.keys
  | h + 1, p, lo, hi, m =>
    let n := disk_read t s p
    !n.is_leaf && decide (n.position_in_disk = p) && decide (p < s.count_of_node) &&
    decide (n.size = n.keys.length) && decide (1 ≤ n.size) && decide (n.size ≤ m) &&
    n.keys.all (fun kv => in_window lo hi kv.fst) && sorted_keys n.keys &&
    (List.range (n.size + 1)).all (fun i =>
      WFsubM t s h (n.pointers.getD i 0) (child_lo n lo i) (child_hi n hi i)
        (maximum_keys_in_node t))

/-- Well-formedness with the normal `maximum_keys_in_node` bound
everywhere. -/
def WFsub (t : Nat) (s : TreeState) (h p : Nat) (lo hi : Option Nat) : Bool :=
  WFsubM t s h p lo hi (maximum_keys_in_node t)

/-- All slots of the subtree of height `h` at `p`, root first. -/
def positions (t : Nat) (s : TreeState) : Nat → Nat → List Nat
  | 0, p => [p]
  | h + 1, p =>
    let n := disk_read t s p
    p :: (List.range (n.size + 1)).flatMap
      (fun i => positions t s h (n.pointers.getD i 0))

/-- Global well-formedness of a tree of height `h`: a live root, a
well-formed subtree under it, no slot shared between two places in the
tree, slot allocation consistent with `_count_of_node`, and enough headroom
below the `NONE` sentinel for the slots an insertion can allocate. -/
def WF (t : Nat) (s : TreeState) (h : Nat) : Bool :=
  decide (2 ≤ t) &&
  decide (s.position_root ≠ NONE_POSITION) &&
  WFsub t s h s.position_root none none &&
  decide (positions t s h s.position_root).Nodup &&
  decide (h < s.count_of_node) &&
  decide (s.count_of_node + 2 * (h + 2) < NONE_POSITION)

/-- The `(k, v)` pair is stored somewhere in the subtree of height `h` at
`p`. -/
def ContainsPair (t : Nat) (s : TreeState) (k v : Nat) :
    Nat → Nat → Prop
  | 0, p =>
    ∃ i, i < (disk_read t s p).keys.length ∧
      (disk_read t s p).keys.getD i (0, 0) = (k, v)
  | h + 1, p =>
    (∃ i, i < (disk_read t s p).keys.length ∧
      (disk_read t s p).keys.getD i (0, 0) = (k, v)) ∨
    ∃ i, i ≤ (disk_read t s p).size ∧
      ContainsPair t s k v h ((disk_read t s p).pointers.getD i 0)

/-- The ancestors recorded on a `find_path` stack above a hole, anchored at
the node `top` (of height `htop`, window `(tlo, thi)`) where the descent
started: frame `(P, idx)` reads back as an internal node whose keys are
sorted in its own window, whose `find_index` for `k` chooses child `idx`
without finding `k`, whose child slot `idx` holds the previous link of the
chain, and whose other children are well-formed subtrees in their
windows. -/
def SpineChain (t k : Nat) (s : TreeState) (top htop : Nat)
    (tlo thi : Option Nat) :
    List (Nat × Nat) → Nat → Nat → Option Nat → Option Nat → Prop
  | [], p, h, lo, hi => p = top ∧ h = htop ∧ lo = tlo ∧ hi = thi
  | (P, idx) :: rest, p, h, lo, hi => ∃ LO HI,
    (disk_read t s P).is_leaf = false ∧
    (disk_read t s P).position_in_disk = P ∧
    P < s.count_of_node ∧
    (disk_read t s P).size = (disk_read t s P).keys.length ∧
    1 ≤ (disk_read t s P).size ∧
    (disk_read t s P).size ≤ maximum_keys_in_node t ∧
    sorted_keys (disk_read t s P).keys = true ∧
    (∀ kv ∈ (disk_read t s P).keys, in_window LO HI kv.fst = true) ∧
    find_index k (disk_read t s P) = (idx, false) ∧
    (disk_read t s P).pointers.getD idx 0 = p ∧
    lo = child_lo (disk_read t s P) LO idx ∧
    hi = child_hi (disk_read t s P) HI idx ∧
    (∀ j, j ≤ (disk_read t s P).size → j ≠ idx →
      WFsub t s h ((disk_read t s P).pointers.getD j 0)
        (child_lo (disk_read t s P) LO j) (child_hi (disk_read t s P) HI j) = true) ∧
    SpineChain t k s top htop tlo thi rest P (h + 1) LO HI

/-- The slots covered by the ancestors of a hole whose subtree has height
`h`: each ancestor's own slot and the subtrees of its other children. -/
def hole_positions (t : Nat) (s : TreeState) :
    List (Nat × Nat) → Nat → List Nat
  | [], _ => []
  | (P, idx) :: rest, h =>
    P :: ((List.range ((disk_read t s P).size + 1)).filter (fun j => j ≠ idx)).flatMap
        (fun j => positions t s h ((disk_read t s P).pointers.getD j 0)) ++
      hole_positions t s rest (h + 1)

/-! ## Frame lemmas for the file header -/

@[simp] theorem disk_write_header_count (t : Nat) (s : TreeState) (n : Node) :
    (disk_write t s n).header_count = s.header_count := rfl

@[simp] theorem disk_write_position_root (t : Nat) (s : TreeState) (n : Node) :
    (disk_write t s n).position_root = s.position_root := rfl

@[simp] theorem print_root_position_header_count (s : TreeState) :
    (print_root_position s).header_count = s.header_count := rfl

@[simp] theorem split_core_header_count (t : Nat) (s : TreeState) (p : Nat) :
    (split_core t s p).fst.header_count = s.header_count := rfl

@[simp] theorem split_root_case_header_count (t : Nat) (s : TreeState)
    (cp rp : Nat) (mk : Nat × Nat) :
    (split_root_case t s cp rp mk).header_count = s.header_count := rfl

@[simp] theorem split_parent_insert_header_count (t : Nat) (s : TreeState)
    (pp pi : Nat) (mk : Nat × Nat) (rp : Nat) :
    (split_parent_insert t s pp pi mk rp).fst.header_count = s.header_count := rfl

theorem split_node_header_count (t : Nat) :
    ∀ (path : List (Nat × Nat)) (s : TreeState),
    (split_node t s path).header_count = s.header_count := by
  intro path
  induction path with
  | nil => intro s; rfl
  | cons frame path ih =>
    intro s
    obtain ⟨current_pos, fidx⟩ := frame
    cases path with
    | nil => simp [split_node]
    | cons parent_frame rest =>
      obtain ⟨parent_pos, parent_idx⟩ := parent_frame
      have heq : split_node t s ((current_pos, fidx) :: (parent_pos, parent_idx) :: rest) =
          (if (split_parent_insert t (split_core t s current_pos).fst parent_pos parent_idx
                (split_core t s current_pos).snd.fst (split_core t s current_pos).snd.snd).snd.size >
              maximum_keys_in_node t then
            split_node t (split_parent_insert t (split_core t s current_pos).fst parent_pos
                parent_idx (split_core t s current_pos).snd.fst
                (split_core t s current_pos).snd.snd).fst
              ((parent_pos, parent_idx) :: rest)
          else (split_parent_insert t (split_core t s current_pos).fst parent_pos parent_idx
                (split_core t s current_pos).snd.fst
                (split_core t s current_pos).snd.snd).fst) := rfl
      rw [heq]
      split
      · rw [ih]; simp
      · simp

@[simp] theorem borrow_left_branch_header_count (t : Nat) (s : TreeState)
    (p n ls : Node) (i : Nat) :
    (borrow_left_branch t s p n ls i).header_count = s.header_count := by
  simp only [borrow_left_branch]
  split_ifs <;> rfl

@[simp] theorem borrow_right_branch_header_count (t : Nat) (s : TreeState)
    (p n rs : Node) (i : Nat) :
    (borrow_right_branch t s p n rs i).header_count = s.header_count := by
  simp only [borrow_right_branch]
  split_ifs <;> rfl

@[simp] theorem merge_left_branch_header_count (t : Nat) (s : TreeState)
    (p n ls : Node) (i : Nat) :
    (merge_left_branch t s p n ls i).fst.header_count = s.header_count := by
  simp only [merge_left_branch]
  split_ifs <;> rfl

@[simp] theorem merge_right_branch_header_count (t : Nat) (s : TreeState)
    (p n rs : Node) (i : Nat) :
    (merge_right_branch t s p n rs i).fst.header_count = s.header_count := by
  simp only [merge_right_branch]
  split_ifs <;> rfl

theorem rebalance_node_header_count (t : Nat) :
    ∀ (path : List (Nat × Nat)) (s : TreeState) (node : Node) (index : Nat),
    (rebalance_node t s path node index).header_count = s.header_count := by
  intro path
  induction path with
  | nil => intro s node index; rfl
  | cons frame path ih =>
    intro s node index
    obtain ⟨parent_pos, parent_idx⟩ := frame
    simp only [rebalance_node, print_root_position]
    split_ifs <;> simp [ih]

@[simp] theorem erase_leaf_case_header_count (t : Nat) (s : TreeState)
    (path : List (Nat × Nat)) (current : Node) (index current_pos : Nat) :
    (erase_leaf_case t s path current index current_pos).header_count = s.header_count := by
  simp only [erase_leaf_case, print_root_position]
  split_ifs <;> simp [rebalance_node_header_count]

theorem erase_pred_case_header_count (t : Nat) (s : TreeState) (current : Node)
    (index current_pos lcp : Nat) (left_child : Node) (s' : TreeState)
    (h : erase_pred_case t s current index current_pos lcp left_child = some s') :
    s'.header_count = s.header_count := by
  unfold erase_pred_case at h
  split at h
  · cases h
  · dsimp only at h
    split at h <;> cases h <;> simp [rebalance_node_header_count]

theorem erase_succ_case_header_count (t : Nat) (s : TreeState) (current : Node)
    (index current_pos rcp : Nat) (right_child : Node) (s' : TreeState)
    (h : erase_succ_case t s current index current_pos rcp right_child = some s') :
    s'.header_count = s.header_count := by
  unfold erase_succ_case at h
  split at h
  · cases h
  · dsimp only at h
    split at h <;> cases h <;> simp [rebalance_node_header_count]

@[simp] theorem erase_merge_case_header_count (t : Nat) (s : TreeState)
    (path : List (Nat × Nat)) (current : Node) (index current_pos lcp : Nat)
    (left_child right_child : Node) :
    (erase_merge_case t s path current index current_pos lcp
        left_child right_child).header_count = s.header_count := by
  simp only [erase_merge_case, print_root_position]
  split_ifs <;> simp [rebalance_node_header_count]

theorem erase_header_count (t : Nat) (s : TreeState) (k : Nat) (r : TreeState × Bool)
    (h : erase t s k = some r) : r.fst.header_count = s.header_count := by
  unfold erase at h
  split at h
  · cases h; rfl
  · split at h
    · cases h
    · rename_i path index found heq
      cases found with
      | false =>
        simp only [Bool.not_false, if_true] at h
        cases h; rfl
      | true =>
        simp only [Bool.not_true, Bool.false_eq_true, if_false] at h
        match path, h with
        | [], h => cases h
        | (current_pos, fi) :: rest, h =>
          dsimp only at h
          split at h
          · cases h; simp
          · split at h
            · split at h
              · cases h
              · rename_i s1 hpred
                cases h
                exact erase_pred_case_header_count _ _ _ _ _ _ _ _ hpred
            · split at h
              · split at h
                · cases h
                · rename_i s1 hsucc
                  cases h
                  exact erase_succ_case_header_count _ _ _ _ _ _ _ _ hsucc
              · cases h; simp

theorem insert_header_count (t : Nat) (s : TreeState) (d : Nat × Nat)
    (r : TreeState × Bool) (h : insert t s d = some r) :
    r.fst.header_count = s.header_count := by
  unfold insert at h
  split at h
  · cases h
  · rename_i path index found heq
    split at h
    · cases h; rfl
    · split at h
      · cases h
      · dsimp only at h
        split at h
        · cases h; simp [split_node_header_count]
        · cases h; rfl

theorem update_header_count (t : Nat) (s : TreeState) (d : Nat × Nat)
    (r : TreeState × Bool) (h : update t s d = some r) :
    r.fst.header_count = s.header_count := by
  unfold update at h
  split at h
  · cases h
  · rename_i path index found heq
    split at h
    · cases h; rfl
    · split at h
      · cases h
      · cases h; rfl

/-! ## Read/write and list basics -/

@[simp] theorem disk_write_count (t : Nat) (s : TreeState) (n : Node) :
    (disk_write t s n).count_of_node = s.count_of_node := rfl

@[simp] theorem disk_write_store_other (t : Nat) (s : TreeState) (n : Node)
    (q : Nat) (hq : q ≠ n.position_in_disk) :
    (disk_write t s n).store q = s.store q := by
  simp [disk_write, hq]

theorem disk_read_congr (t : Nat) (s s' : TreeState) (p : Nat)
    (h : s'.store p = s.store p) : disk_read t s' p = disk_read t s p := by
  simp [disk_read, h]

theorem disk_read_of_write_other (t : Nat) (s : TreeState) (n : Node) (q : Nat)
    (hq : q ≠ n.position_in_disk) :
    disk_read t (disk_write t s n) q = disk_read t s q := by
  simp [disk_read, disk_write, hq]

theorem getD_range_map (f : Nat → Nat) (n i d : Nat) (h : i < n) :
    (((List.range n).map f).getD i 0 = f i) := by
  rw [List.getD_eq_getElem _ _ (by simpa using h)]
  simp

theorem range_map_getD {α : Type} (l : List α) (d : α) :
    (List.range l.length).map (fun i => l.getD i d) = l := by
  apply List.ext_getElem
  · simp
  · intro i h1 h2
    simp only [List.getElem_map, List.getElem_range]
    rw [List.getD_eq_getElem _ _ h2]

/-- Reading back a written node: the keys survive whenever the node's
`size` agrees with its key count and fits the payload table; the child
table is padded/truncated to the fixed width. -/
theorem disk_read_write_same (t : Nat) (s : TreeState) (n : Node)
    (hsz : n.size = n.keys.length) (hle : n.size ≤ maximum_keys_in_node t + 1) :
    disk_read t (disk_write t s n) n.position_in_disk =
      Node.mk n.size n.is_leaf n.position_in_disk n.keys
        ((List.range (maximum_keys_in_node t + 2)).map (fun i => n.pointers.getD i 0)) := by
  have hstore : (disk_write t s n).store n.position_in_disk = serialize t n := by
    simp [disk_write]
  have hrd : disk_read t (disk_write t s n) n.position_in_disk
      = deserialize t (serialize t n) := by
    rw [disk_read, hstore]
  rw [hrd]
  simp only [deserialize, serialize, Node.mk.injEq]
  refine ⟨trivial, trivial, trivial, ?_, ?_⟩
  · have hmin : min n.size (maximum_keys_in_node t + 1) = n.size := Nat.min_eq_left hle
    rw [hmin]
    have hcg : ∀ i ∈ List.range n.size,
        (n.keys.take (maximum_keys_in_node t + 1)).getD i (0, 0) = n.keys.getD i (0, 0) := by
      intro i hi
      have hi' : i < n.keys.length := by
        have := List.mem_range.mp hi
        omega
      have hit : i < (n.keys.take (maximum_keys_in_node t + 1)).length := by
        simp only [List.length_take]
        have := List.mem_range.mp hi
        omega
      rw [List.getD_eq_getElem _ _ hit, List.getD_eq_getElem _ _ hi']
      simp [List.getElem_take]
    rw [List.map_congr_left hcg, hsz]
    exact range_map_getD n.keys (0, 0)
  · apply List.map_congr_left
    intro i hi
    exact getD_range_map _ _ _ 0 (List.mem_range.mp hi)

theorem disk_read_pointers_length (t : Nat) (s : TreeState) (p : Nat) :
    (disk_read t s p).pointers.length = maximum_keys_in_node t + 2 := by
  simp [disk_read, deserialize]

/-! ## Sorted keys and `find_index` characterization -/

theorem sorted_keys_iff_chain (l : List (Nat × Nat)) :
    sorted_keys l = true ↔ List.Chain' (fun x y => x.fst < y.fst) l := by
  induction l with
  | nil => simp [sorted_keys]
  | cons a l ih =>
    cases l with
    | nil => simp [sorted_keys]
    | cons b m =>
      rw [sorted_keys, List.chain'_cons, Bool.and_eq_true, decide_eq_true_eq, ih]

theorem sorted_keys_pairwise (l : List (Nat × Nat)) (hs : sorted_keys l = true) :
    List.Pairwise (fun x y => x.fst < y.fst) l := by
  haveI : IsTrans (Nat × Nat) (fun x y => x.fst < y.fst) := ⟨fun a b c => Nat.lt_trans⟩
  exact List.chain'_iff_pairwise.mp ((sorted_keys_iff_chain l).mp hs)

theorem sorted_getD_lt (l : List (Nat × Nat)) (d : Nat × Nat)
    (hs : sorted_keys l = true) (i j : Nat) (hij : i < j) (hj : j < l.length) :
    (l.getD i d).fst < (l.getD j d).fst := by
  have hp := sorted_keys_pairwise l hs
  rw [List.pairwise_iff_getElem] at hp
  have hi : i < l.length := lt_trans hij hj
  rw [List.getD_eq_getElem _ _ hi, List.getD_eq_getElem _ _ hj]
  exact hp i j hi hj hij

theorem find_index_fst (k : Nat) (n : Node) :
    (find_index k n).fst = n.keys.findIdx (fun kv => ! compare_keys kv.fst k) := rfl

theorem find_index_snd (k : Nat) (n : Node) :
    (find_index k n).snd =
      (decide ((find_index k n).fst < n.keys.length) &&
        ! compare_keys k (n.keys.getD (find_index k n).fst (0, 0)).fst) := rfl

theorem find_index_fst_le (k : Nat) (n : Node) :
    (find_index k n).fst ≤ n.keys.length := by
  rw [find_index_fst]
  exact List.findIdx_le_length _

theorem find_index_lt_of_lt (k : Nat) (n : Node) (m : Nat)
    (hm : m < (find_index k n).fst) : (n.keys.getD m (0, 0)).fst < k := by
  have hlen : m < n.keys.length := lt_of_lt_of_le hm (find_index_fst_le k n)
  rw [find_index_fst] at hm
  have hfalse := List.not_of_lt_findIdx hm
  rw [List.getD_eq_getElem _ _ hlen]
  simpa [compare_keys] using hfalse

theorem find_index_le_at (k : Nat) (n : Node)
    (hlt : (find_index k n).fst < n.keys.length) :
    k ≤ (n.keys.getD (find_index k n).fst (0, 0)).fst := by
  have hlt' := hlt
  rw [find_index_fst] at hlt'
  have htrue := List.findIdx_getElem (w := hlt')
  rw [← List.getD_eq_getElem n.keys (0, 0) hlt'] at htrue
  rw [← find_index_fst] at htrue
  simpa [compare_keys] using htrue

theorem find_index_found_iff (k : Nat) (n : Node) :
    (find_index k n).snd = true ↔
      (find_index k n).fst < n.keys.length ∧
        (n.keys.getD (find_index k n).fst (0, 0)).fst = k := by
  rw [find_index_snd, Bool.and_eq_true, decide_eq_true_eq, Bool.not_eq_true']
  constructor
  · rintro ⟨h1, h2⟩
    refine ⟨h1, ?_⟩
    have hle := find_index_le_at k n h1
    have hnot : ¬ k < (n.keys.getD (find_index k n).fst (0, 0)).fst := by
      simpa [compare_keys] using h2
    omega
  · rintro ⟨h1, h2⟩
    refine ⟨h1, ?_⟩
    rw [h2, compare_keys]
    simp

theorem find_index_ge_of_below (k : Nat) (n : Node) (i0 : Nat)
    (hlow : ∀ m, m < i0 → m < n.keys.length → (n.keys.getD m (0, 0)).fst < k)
    (hi0 : i0 ≤ n.keys.length) :
    i0 ≤ (find_index k n).fst := by
  by_contra hcon
  push_neg at hcon
  have hlt : (find_index k n).fst < n.keys.length := lt_of_lt_of_le hcon hi0
  have h1 := find_index_le_at k n hlt
  have h2 := hlow (find_index k n).fst hcon hlt
  omega

theorem find_index_le_of_at (k : Nat) (n : Node) (i0 : Nat)
    (hi0 : i0 < n.keys.length)
    (hat : k ≤ (n.keys.getD i0 (0, 0)).fst) :
    (find_index k n).fst ≤ i0 := by
  by_contra hcon
  push_neg at hcon
  have := find_index_lt_of_lt k n i0 hcon
  omega

theorem find_index_of_mem (k v : Nat) (n : Node) (hs : sorted_keys n.keys = true)
    (i0 : Nat) (hi0 : i0 < n.keys.length) (hk : n.keys.getD i0 (0, 0) = (k, v)) :
    find_index k n = (i0, true) := by
  have hkf : (n.keys.getD i0 (0, 0)).fst = k := by rw [hk]
  have hfst : (find_index k n).fst = i0 := by
    have h1 : i0 ≤ (find_index k n).fst := by
      apply find_index_ge_of_below k n i0 _ (le_of_lt hi0)
      intro m hm hmlen
      have hlt := sorted_getD_lt n.keys (0, 0) hs m i0 hm hi0
      omega
    have h2 : (find_index k n).fst ≤ i0 :=
      find_index_le_of_at k n i0 hi0 (le_of_eq hkf.symm)
    omega
  have hsnd : (find_index k n).snd = true := by
    rw [find_index_found_iff, hfst]
    exact ⟨hi0, hkf⟩
  exact Prod.ext hfst hsnd

theorem find_index_of_window (k : Nat) (n : Node) (i0 : Nat)
    (hlow : ∀ m, m < i0 → m < n.keys.length → (n.keys.getD m (0, 0)).fst < k)
    (hhigh : i0 = n.keys.length ∨ k < (n.keys.getD i0 (0, 0)).fst)
    (hi0 : i0 ≤ n.keys.length) :
    find_index k n = (i0, false) := by
  have hfst : (find_index k n).fst = i0 := by
    have h1 : i0 ≤ (find_index k n).fst := find_index_ge_of_below k n i0 hlow hi0
    have h2 : (find_index k n).fst ≤ i0 := by
      rcases Nat.lt_or_ge i0 n.keys.length with hlt | hge
      · rcases hhigh with h | h
        · omega
        · exact find_index_le_of_at k n i0 hlt (le_of_lt h)
      · have := find_index_fst_le k n
        omega
    omega
  have hsnd : (find_index k n).snd = false := by
    rw [Bool.eq_false_iff]
    intro hcon
    rw [find_index_found_iff, hfst] at hcon
    obtain ⟨hlen, hkey⟩ := hcon
    rcases hhigh with h | h
    · omega
    · rw [hkey] at h; omega
  exact Prod.ext hfst hsnd

/-! ## Unfolding and congruence for well-formedness -/

theorem WFsubM_zero (t : Nat) (s : TreeState) (p : Nat) (lo hi : Option Nat) (m : Nat) :
    WFsubM t s 0 p lo hi m = true ↔
      (disk_read t s p).is_leaf = true ∧
      (disk_read t s p).position_in_disk = p ∧
      p < s.count_of_node ∧
      (disk_read t s p).size = (disk_read t s p).keys.length ∧
      (disk_read t s p).size ≤ m ∧
      (∀ kv ∈ (disk_read t s p).keys, in_window lo hi kv.fst = true) ∧
      sorted_keys (disk_read t s p).keys = true := by
  simp [WFsubM, Bool.and_eq_true, List.all_eq_true, and_assoc]

theorem WFsubM_succ (t : Nat) (s : TreeState) (h p : Nat) (lo hi : Option Nat) (m : Nat) :
    WFsubM t s (h + 1) p lo hi m = true ↔
      (disk_read t s p).is_leaf = false ∧
      (disk_read t s p).position_in_disk = p ∧
      p < s.count_of_node ∧
      (disk_read t s p).size = (disk_read t s p).keys.length ∧
      1 ≤ (disk_read t s p).size ∧
      (disk_read t s p).size ≤ m ∧
      (∀ kv ∈ (disk_read t s p).keys, in_window lo hi kv.fst = true) ∧
      sorted_keys (disk_read t s p).keys = true ∧
      (∀ i, i ≤ (disk_read t s p).size →
        WFsubM t s h ((disk_read t s p).pointers.getD i 0)
          (child_lo (disk_read t s p) lo i) (child_hi (disk_read t s p) hi i)
          (maximum_keys_in_node t) = true) := by
  simp [WFsubM, Bool.and_eq_true, List.all_eq_true, and_assoc, Bool.not_eq_true',
    Nat.lt_succ_iff]

theorem mem_positions_self (t : Nat) (s : TreeState) (h p : Nat) :
    p ∈ positions t s h p := by
  cases h <;> simp [positions]

theorem mem_positions_child (t : Nat) (s : TreeState) (h p i q : Nat)
    (hi : i ≤ (disk_read t s p).size)
    (hq : q ∈ positions t s h ((disk_read t s p).pointers.getD i 0)) :
    q ∈ positions t s (h + 1) p := by
  simp only [positions, List.mem_cons, List.mem_flatMap]
  right
  exact ⟨i, by simp [List.mem_range]; omega, hq⟩

theorem positions_congr (t : Nat) (s s' : TreeState) :
    ∀ (h p : Nat), (∀ q ∈ positions t s h p, s'.store q = s.store q) →
      positions t s' h p = positions t s h p := by
  intro h
  induction h with
  | zero => intro p _; rfl
  | succ h ih =>
    intro p hag
    have hp : s'.store p = s.store p := hag p (mem_positions_self t s (h + 1) p)
    have hrd : disk_read t s' p = disk_read t s p := disk_read_congr t s s' p hp
    simp only [positions, hrd]
    congr 1
    apply List.flatMap_congr
    intro i hi
    apply ih
    intro q hq
    apply hag
    exact mem_positions_child t s h p i q
      (by simpa [Nat.lt_succ_iff] using List.mem_range.mp hi) hq

theorem WFsubM_congr (t : Nat) (s s' : TreeState)
    (hc : s.count_of_node ≤ s'.count_of_node) :
    ∀ (h p : Nat) (lo hi : Option Nat) (m : Nat),
      (∀ q ∈ positions t s h p, s'.store q = s.store q) →
      WFsubM t s h p lo hi m = true → WFsubM t s' h p lo hi m = true := by
  intro h
  induction h with
  | zero =>
    intro p lo hi m hag hwf
    have hrd : disk_read t s' p = disk_read t s p :=
      disk_read_congr t s s' p (hag p (mem_positions_self t s 0 p))
    rw [WFsubM_zero] at hwf ⊢
    rw [hrd]
    obtain ⟨h1, h2, h3, h4⟩ := hwf
    exact ⟨h1, h2, by omega, h4⟩
  | succ h ih =>
    intro p lo hi m hag hwf
    have hrd : disk_read t s' p = disk_read t s p :=
      disk_read_congr t s s' p (hag p (mem_positions_self t s (h + 1) p))
    rw [WFsubM_succ] at hwf ⊢
    rw [hrd]
    obtain ⟨h1, h2, h3, h4, h5, h6, h7, h8, h9⟩ := hwf
    refine ⟨h1, h2, by omega, h4, h5, h6, h7, h8, ?_⟩
    intro i hi
    apply ih
    · intro q hq
      exact hag q (mem_positions_child t s h p i q hi hq)
    · exact h9 i hi

theorem ContainsPair_congr (t : Nat) (s s' : TreeState) (k v : Nat) :
    ∀ (h p : Nat),
      (∀ q ∈ positions t s h p, s'.store q = s.store q) →
      ContainsPair t s k v h p → ContainsPair t s' k v h p := by
  intro h
  induction h with
  | zero =>
    intro p hag hcp
    have hrd : disk_read t s' p = disk_read t s p :=
      disk_read_congr t s s' p (hag p (mem_positions_self t s 0 p))
    rw [ContainsPair, hrd]
    exact hcp
  | succ h ih =>
    intro p hag hcp
    have hrd : disk_read t s' p = disk_read t s p :=
      disk_read_congr t s s' p (mem_positions_self t s (h + 1) p |> hag p)
    rw [ContainsPair, hrd]
    rcases hcp with hat | ⟨i, hi, hsub⟩
    · exact Or.inl hat
    · refine Or.inr ⟨i, hi, ?_⟩
      apply ih
      · intro q hq
        exact hag q (mem_positions_child t s h p i q hi hq)
      · exact hsub

/-! ## Windows and search correctness -/

theorem in_window_split (lo hi : Option Nat) (k : Nat) :
    in_window lo hi k = true ↔ window_lo lo k = true ∧ window_hi hi k = true := by
  simp [in_window, Bool.and_eq_true]

theorem window_lo_trans (lo : Option Nat) (a k : Nat)
    (h1 : window_lo lo a = true) (h2 : a < k) : window_lo lo k = true := by
  cases lo with
  | none => rfl
  | some x =>
    simp only [window_lo, decide_eq_true_eq] at h1 ⊢
    omega

theorem window_hi_trans (hi : Option Nat) (b k : Nat)
    (h1 : window_hi hi b = true) (h2 : k < b) : window_hi hi k = true := by
  cases hi with
  | none => rfl
  | some x =>
    simp only [window_hi, decide_eq_true_eq] at h1 ⊢
    omega

theorem in_window_of_child (n : Node) (lo hi : Option Nat) (i k : Nat)
    (hsz : n.size = n.keys.length)
    (hwin : ∀ kv ∈ n.keys, in_window lo hi kv.fst = true)
    (hile : i ≤ n.size)
    (hk : in_window (child_lo n lo i) (child_hi n hi i) k = true) :
    in_window lo hi k = true := by
  rw [in_window_split] at hk ⊢
  obtain ⟨hklo, hkhi⟩ := hk
  constructor
  · by_cases h0 : i = 0
    · rw [child_lo, if_pos h0] at hklo
      exact hklo
    · rw [child_lo, if_neg h0] at hklo
      simp only [window_lo, decide_eq_true_eq] at hklo
      have hmem : n.keys.getD (i - 1) (0, 0) ∈ n.keys := by
        have hlt : i - 1 < n.keys.length := by omega
        rw [List.getD_eq_getElem _ _ hlt]
        exact List.getElem_mem _
      have := (in_window_split lo hi _).mp (hwin _ hmem)
      exact window_lo_trans lo _ k this.1 hklo
  · by_cases hlt : i < n.size
    · rw [child_hi, if_pos hlt] at hkhi
      simp only [window_hi, decide_eq_true_eq] at hkhi
      have hmem : n.keys.getD i (0, 0) ∈ n.keys := by
        have hl : i < n.keys.length := by omega
        rw [List.getD_eq_getElem _ _ hl]
        exact List.getElem_mem _
      have := (in_window_split lo hi _).mp (hwin _ hmem)
      exact window_hi_trans hi _ k this.2 hkhi
    · rw [child_hi, if_neg hlt] at hkhi
      exact hkhi

theorem contains_in_window (t : Nat) (s : TreeState) (k v : Nat) :
    ∀ (h p : Nat) (lo hi : Option Nat) (m : Nat),
      WFsubM t s h p lo hi m = true → ContainsPair t s k v h p →
      in_window lo hi k = true := by
  intro h
  induction h with
  | zero =>
    intro p lo hi m hwf hcp
    obtain ⟨i0, hi0, hk⟩ := hcp
    rw [WFsubM_zero] at hwf
    have hmem : (k, v) ∈ (disk_read t s p).keys := by
      rw [← hk, List.getD_eq_getElem _ _ hi0]
      exact List.getElem_mem _
    exact hwf.2.2.2.2.2.1 _ hmem
  | succ h ih =>
    intro p lo hi m hwf hcp
    rw [WFsubM_succ] at hwf
    obtain ⟨_, _, _, hsz, _, _, hwin, _, hch⟩ := hwf
    rcases hcp with ⟨i0, hi0, hk⟩ | ⟨i0, hi0, hsub⟩
    · have hmem : (k, v) ∈ (disk_read t s p).keys := by
        rw [← hk, List.getD_eq_getElem _ _ hi0]
        exact List.getElem_mem _
      exact hwin _ hmem
    · exact in_window_of_child (disk_read t s p) lo hi i0 k hsz hwin hi0
        (ih _ _ _ _ (hch i0 hi0) hsub)

/-- In a well-formed subtree containing `(k, v)`, the `find_path` descent
finds `k`, with `(k, v)` stored at the top frame of the returned stack. -/
theorem search_finds (t : Nat) (s : TreeState) (k v : Nat) :
    ∀ (h : Nat) (p : Nat) (lo hi : Option Nat) (m fuel : Nat) (acc : List (Nat × Nat)),
      WFsubM t s h p lo hi m = true →
      ContainsPair t s k v h p →
      h + 1 ≤ fuel →
      ∃ (path : List (Nat × Nat)) (q i : Nat),
        find_path_from t s k fuel p acc = some ((q, i) :: path, i, true) ∧
        (disk_read t s q).keys.getD i (0, 0) = (k, v) := by
  intro h
  induction h with
  | zero =>
    intro p lo hi m fuel acc hwf hcp hfuel
    obtain ⟨i0, hi0, hk⟩ := hcp
    rw [WFsubM_zero] at hwf
    have hfi := find_index_of_mem k v (disk_read t s p) hwf.2.2.2.2.2.2 i0 hi0 hk
    obtain ⟨fuel, rfl⟩ : ∃ f, fuel = f + 1 := ⟨fuel - 1, by omega⟩
    refine ⟨acc, p, i0, ?_, hk⟩
    unfold find_path_from
    simp [hfi]
  | succ h ih =>
    intro p lo hi m fuel acc hwf hcp hfuel
    rw [WFsubM_succ] at hwf
    obtain ⟨hleaf, hpos, hcnt, hsz, hmin1, hszle, hwin, hsort, hch⟩ := hwf
    obtain ⟨fuel, rfl⟩ : ∃ f, fuel = f + 1 := ⟨fuel - 1, by omega⟩
    rcases hcp with ⟨i0, hi0, hk⟩ | ⟨i0, hi0, hsub⟩
    · have hfi := find_index_of_mem k v (disk_read t s p) hsort i0 hi0 hk
      refine ⟨acc, p, i0, ?_, hk⟩
      unfold find_path_from
      simp [hfi]
    · have hwfc := hch i0 hi0
      have hkwin := contains_in_window t s k v h _ _ _ _ hwfc hsub
      rw [in_window_split] at hkwin
      have hfi : find_index k (disk_read t s p) = (i0, false) := by
        apply find_index_of_window
        · intro m1 hm1 hm1len
          have h0 : i0 ≠ 0 := by omega
          have hko := hkwin.1
          rw [child_lo, if_neg h0] at hko
          simp only [window_lo, decide_eq_true_eq] at hko
          rcases Nat.lt_or_ge m1 (i0 - 1) with hm | hm
          · have hi1 : i0 - 1 < (disk_read t s p).keys.length := by omega
            have := sorted_getD_lt (disk_read t s p).keys (0, 0) hsort m1 (i0 - 1) hm hi1
            omega
          · have hm1e : m1 = i0 - 1 := by omega
            rw [hm1e]
            exact hko
        · rcases Nat.lt_or_ge i0 (disk_read t s p).size with hlt | hge
          · right
            have hkh := hkwin.2
            rw [child_hi, if_pos hlt] at hkh
            simp only [window_hi, decide_eq_true_eq] at hkh
            exact hkh
          · left
            omega
        · omega
      unfold find_path_from
      simp only [hfi, hleaf, Bool.false_eq_true, if_false]
      exact ih ((disk_read t s p).pointers.getD i0 0) _ _ _ fuel
        ((p, i0) :: acc) hwfc hsub (by omega)

/-! ## Spine chains: construction, absorption, search -/

theorem SpineChain_base (t k : Nat) (s : TreeState) (top htop : Nat)
    (tlo thi : Option Nat) :
    SpineChain t k s top htop tlo thi [] top htop tlo thi :=
  ⟨rfl, rfl, rfl, rfl⟩

theorem SpineChain_snoc (t k : Nat) (s : TreeState) (c hc : Nat)
    (clo chi : Option Nat) (p i : Nat) (lo hi : Option Nat)
    (hpl : (disk_read t s p).is_leaf = false)
    (hpp : (disk_read t s p).position_in_disk = p)
    (hpc : p < s.count_of_node)
    (hpsz : (disk_read t s p).size = (disk_read t s p).keys.length)
    (hp1 : 1 ≤ (disk_read t s p).size)
    (hpm : (disk_read t s p).size ≤ maximum_keys_in_node t)
    (hpsort : sorted_keys (disk_read t s p).keys = true)
    (hpwin : ∀ kv ∈ (disk_read t s p).keys, in_window lo hi kv.fst = true)
    (hpfi : find_index k (disk_read t s p) = (i, false))
    (hlink : (disk_read t s p).pointers.getD i 0 = c)
    (hclo : clo = child_lo (disk_read t s p) lo i)
    (hchi : chi = child_hi (disk_read t s p) hi i)
    (hsib : ∀ j, j ≤ (disk_read t s p).size → j ≠ i →
      WFsub t s hc ((disk_read t s p).pointers.getD j 0)
        (child_lo (disk_read t s p) lo j) (child_hi (disk_read t s p) hi j) = true) :
    ∀ (rest : List (Nat × Nat)) (ℓ hℓ : Nat) (llo lhi : Option Nat),
      SpineChain t k s c hc clo chi rest ℓ hℓ llo lhi →
      SpineChain t k s p (hc + 1) lo hi (rest ++ [(p, i)]) ℓ hℓ llo lhi := by
  intro rest
  induction rest with
  | nil =>
    intro ℓ hℓ llo lhi hch
    obtain ⟨rfl, rfl, rfl, rfl⟩ := hch
    refine ⟨lo, hi, hpl, hpp, hpc, hpsz, hp1, hpm, hpsort, hpwin, hpfi, hlink,
      hclo, hchi, hsib, rfl, rfl, rfl, rfl⟩
  | cons frame rest ih =>
    intro ℓ hℓ llo lhi hch
    obtain ⟨P, idx⟩ := frame
    obtain ⟨LO, HI, f1, f2, f3, f4, f5, f6, f7, f8, f9, f10, f11, f12, f13, f14⟩ := hch
    exact ⟨LO, HI, f1, f2, f3, f4, f5, f6, f7, f8, f9, f10, f11, f12, f13,
      ih P (hℓ + 1) LO HI f14⟩

/-- Folding the nearest ancestor of a hole into the subtree: the parent
becomes the root of a well-formed subtree one level higher that still
contains the pair. -/
theorem spine_absorb (t k v : Nat) (s : TreeState) (top htop : Nat)
    (tlo thi : Option Nat) (P idx : Nat) (rest : List (Nat × Nat))
    (p h : Nat) (lo hi : Option Nat)
    (hch : SpineChain t k s top htop tlo thi ((P, idx) :: rest) p h lo hi)
    (hwf : WFsubM t s h p lo hi (maximum_keys_in_node t) = true)
    (hcp : ContainsPair t s k v h p) :
    ∃ LO HI,
      SpineChain t k s top htop tlo thi rest P (h + 1) LO HI ∧
      WFsubM t s (h + 1) P LO HI (maximum_keys_in_node t) = true ∧
      ContainsPair t s k v (h + 1) P := by
  obtain ⟨LO, HI, f1, f2, f3, f4, f5, f6, f7, f8, f9, f10, f11, f12, f13, f14⟩ := hch
  refine ⟨LO, HI, f14, ?_, ?_⟩
  · rw [WFsubM_succ]
    refine ⟨f1, f2, f3, f4, f5, f6, f8, f7, ?_⟩
    intro j hj
    by_cases hje : j = idx
    · subst hje
      rw [f10, ← f11, ← f12]
      exact hwf
    · exact f13 j hj hje
  · right
    refine ⟨idx, ?_, ?_⟩
    · have := find_index_fst_le k (disk_read t s P)
      rw [f9] at this
      omega
    · rw [f10]
      exact hcp

/-- Running the search from the anchor of a spine chain whose hole holds a
well-formed subtree containing `(k, v)` finds the pair. -/
theorem spine_search (t k v : Nat) (s : TreeState) (top htop : Nat) :
    ∀ (rest : List (Nat × Nat)) (p h : Nat) (lo hi : Option Nat)
      (fuel : Nat) (acc : List (Nat × Nat)),
      SpineChain t k s top htop none none rest p h lo hi →
      WFsubM t s h p lo hi (maximum_keys_in_node t) = true →
      ContainsPair t s k v h p →
      htop + 1 ≤ fuel →
      ∃ (path : List (Nat × Nat)) (q i : Nat),
        find_path_from t s k fuel top acc = some ((q, i) :: path, i, true) ∧
        (disk_read t s q).keys.getD i (0, 0) = (k, v) := by
  intro rest
  induction rest with
  | nil =>
    intro p h lo hi fuel acc hch hwf hcp hfuel
    obtain ⟨rfl, rfl, rfl, rfl⟩ := hch
    exact search_finds t s k v h p none none _ fuel acc hwf hcp hfuel
  | cons frame rest ih =>
    intro p h lo hi fuel acc hch hwf hcp hfuel
    obtain ⟨P, idx⟩ := frame
    obtain ⟨LO, HI, hch', hwf', hcp'⟩ :=
      spine_absorb t k v s top htop none none P idx rest p h lo hi hch hwf hcp
    exact ih P (h + 1) LO HI fuel acc hch' hwf' hcp' hfuel
/-- Characterization of the `find_path` descent on a well-formed subtree:
either the key is found, or the walk ends at a leaf and the stack below the
leaf frame is a spine chain anchored at the starting node. -/
theorem find_path_spine (t k : Nat) (s : TreeState) :
    ∀ (h p : Nat) (lo hi : Option Nat) (fuel : Nat) (acc : List (Nat × Nat)),
      WFsub t s h p lo hi = true →
      in_window lo hi k = true →
      h + 1 ≤ fuel →
      (∃ (path : List (Nat × Nat)) (q i : Nat),
        find_path_from t s k fuel p acc = some ((q, i) :: path, i, true)) ∨
      (∃ (ℓ i : Nat) (rest : List (Nat × Nat)) (llo lhi : Option Nat),
        find_path_from t s k fuel p acc = some (((ℓ, i) :: rest) ++ acc, i, false) ∧
        (disk_read t s ℓ).is_leaf = true ∧
        WFsub t s 0 ℓ llo lhi = true ∧
        in_window llo lhi k = true ∧
        find_index k (disk_read t s ℓ) = (i, false) ∧
        SpineChain t k s p h lo hi rest ℓ 0 llo lhi) := by
  intro h
  induction h with
  | zero =>
    intro p lo hi fuel acc hwf hwin hfuel
    obtain ⟨fuel, rfl⟩ : ∃ f, fuel = f + 1 := ⟨fuel - 1, by omega⟩
    rcases hfind : find_index k (disk_read t s p) with ⟨i, fnd⟩
    cases fnd with
    | true =>
      left
      refine ⟨acc, p, i, ?_⟩
      unfold find_path_from
      simp [hfind]
    | false =>
      right
      have hleaf : (disk_read t s p).is_leaf = true := by
        rw [WFsub, WFsubM_zero] at hwf
        exact hwf.1
      refine ⟨p, i, [], lo, hi, ?_, hleaf, hwf, hwin, hfind,
        SpineChain_base t k s p 0 lo hi⟩
      unfold find_path_from
      simp [hfind, hleaf]
  | succ h ih =>
    intro p lo hi fuel acc hwf hwin hfuel
    obtain ⟨fuel, rfl⟩ : ∃ f, fuel = f + 1 := ⟨fuel - 1, by omega⟩
    rcases hfind : find_index k (disk_read t s p) with ⟨i, fnd⟩
    cases fnd with
    | true =>
      left
      refine ⟨acc, p, i, ?_⟩
      unfold find_path_from
      simp [hfind]
    | false =>
      have hwf' := hwf
      rw [WFsub, WFsubM_succ] at hwf'
      obtain ⟨hleaf, hpp, hpc, hpsz, hp1, hpm, hpwin, hpsort, hch⟩ := hwf'
      have hile : i ≤ (disk_read t s p).size := by
        have := find_index_fst_le k (disk_read t s p)
        rw [hfind] at this
        omega
      have hlow : ∀ m, m < i → ((disk_read t s p).keys.getD m (0, 0)).fst < k := by
        intro m hm
        have := find_index_lt_of_lt k (disk_read t s p) m (by rw [hfind]; exact hm)
        exact this
      have hhigh : i = (disk_read t s p).keys.length ∨
          k < ((disk_read t s p).keys.getD i (0, 0)).fst := by
        rcases Nat.lt_or_ge i (disk_read t s p).keys.length with hlt | hge
        · right
          have hle : k ≤ ((disk_read t s p).keys.getD i (0, 0)).fst := by
            have h0 := find_index_le_at k (disk_read t s p) (by rw [hfind]; exact hlt)
            rw [hfind] at h0
            simpa using h0
          have hne : ((disk_read t s p).keys.getD i (0, 0)).fst ≠ k := by
            intro hcon
            have h1 := (find_index_found_iff k (disk_read t s p)).mpr
              (by rw [hfind]; exact ⟨hlt, hcon⟩)
            rw [hfind] at h1
            simpa using h1
          omega
        · left
          have := find_index_fst_le k (disk_read t s p)
          rw [hfind] at this
          simp only at this
          omega
      have hcwin : in_window (child_lo (disk_read t s p) lo i)
          (child_hi (disk_read t s p) hi i) k = true := by
        rw [in_window_split]
        constructor
        · rw [child_lo]
          by_cases h0 : i = 0
          · rw [if_pos h0]
            exact ((in_window_split lo hi k).mp hwin).1
          · rw [if_neg h0]
            simp only [window_lo, decide_eq_true_eq]
            exact hlow (i - 1) (by omega)
        · rw [child_hi]
          by_cases hlt : i < (disk_read t s p).size
          · rw [if_pos hlt]
            simp only [window_hi, decide_eq_true_eq]
            rcases hhigh with hh | hh
            · omega
            · exact hh
          · rw [if_neg hlt]
            exact ((in_window_split lo hi k).mp hwin).2
      have hstep : find_path_from t s k (fuel + 1) p acc =
          find_path_from t s k fuel ((disk_read t s p).pointers.getD i 0)
            ((p, i) :: acc) := by
        conv_lhs => unfold find_path_from
        simp [hfind, hleaf]
      rcases ih ((disk_read t s p).pointers.getD i 0)
          (child_lo (disk_read t s p) lo i) (child_hi (disk_read t s p) hi i)
          fuel ((p, i) :: acc) (hch i hile) hcwin (by omega) with
        ⟨path, q, i', hres⟩ | ⟨ℓ, i', rest', llo, lhi, hres, hl1, hl2, hl3, hl4, hl5⟩
      · left
        exact ⟨path, q, i', by rw [hstep]; exact hres⟩
      · right
        refine ⟨ℓ, i', rest' ++ [(p, i)], llo, lhi, ?_, hl1, hl2, hl3, hl4, ?_⟩
        · rw [hstep, hres]
          simp
        · exact SpineChain_snoc t k s ((disk_read t s p).pointers.getD i 0) h
            (child_lo (disk_read t s p) lo i) (child_hi (disk_read t s p) hi i)
            p i lo hi hleaf hpp hpc hpsz hp1 hpm hpsort hpwin hfind rfl rfl rfl
            (fun j hj hje => hch j hj) rest' ℓ 0 llo lhi hl5

/-! ## List support: resize, take/drop, sortedness -/

theorem sorted_keys_iff_pairwise (l : List (Nat × Nat)) :
    sorted_keys l = true ↔ List.Pairwise (fun x y => x.fst < y.fst) l := by
  haveI : IsTrans (Nat × Nat) (fun x y => x.fst < y.fst) := ⟨fun a b c => Nat.lt_trans⟩
  rw [sorted_keys_iff_chain, List.chain'_iff_pairwise]

theorem sorted_keys_take (l : List (Nat × Nat)) (m : Nat)
    (hs : sorted_keys l = true) : sorted_keys (l.take m) = true := by
  rw [sorted_keys_iff_pairwise] at hs ⊢
  exact hs.sublist (List.take_sublist m l)

theorem sorted_keys_drop (l : List (Nat × Nat)) (m : Nat)
    (hs : sorted_keys l = true) : sorted_keys (l.drop m) = true := by
  rw [sorted_keys_iff_pairwise] at hs ⊢
  exact hs.sublist (List.drop_sublist m l)

theorem getD_take {α : Type} (l : List α) (m j : Nat) (d : α) (hj : j < m) :
    (l.take m).getD j d = l.getD j d := by
  rcases Nat.lt_or_ge j l.length with hl | hl
  · have hjt : j < (l.take m).length := by simp [List.length_take]; omega
    rw [List.getD_eq_getElem _ _ hjt, List.getD_eq_getElem _ _ hl]
    simp [List.getElem_take]
  · have h1 : (l.take m).length ≤ j := by simp [List.length_take]; omega
    rw [List.getD_eq_default _ _ h1, List.getD_eq_default _ _ hl]

theorem getD_drop {α : Type} (l : List α) (m j : Nat) (d : α) :
    (l.drop m).getD j d = l.getD (m + j) d := by
  rcases Nat.lt_or_ge (m + j) l.length with hl | hl
  · have hjd : j < (l.drop m).length := by simp [List.length_drop]; omega
    rw [List.getD_eq_getElem _ _ hjd, List.getD_eq_getElem _ _ hl]
    simp [List.getElem_drop]
  · have h1 : (l.drop m).length ≤ j := by simp [List.length_drop]; omega
    rw [List.getD_eq_default _ _ h1, List.getD_eq_default _ _ hl]

theorem vec_resize_length (l : List Nat) (n : Nat) : (vec_resize l n).length = n := by
  simp [vec_resize, List.length_take, List.length_replicate]
  omega

theorem vec_resize_getD (l : List Nat) (n j : Nat) (hj : j < n) :
    (vec_resize l n).getD j 0 = l.getD j 0 := by
  rw [vec_resize]
  rcases Nat.lt_or_ge j l.length with hl | hl
  · have hjt : j < (l.take n).length := by simp [List.length_take]; omega
    rw [List.getD_append _ _ _ _ hjt]
    exact getD_take l n j 0 hj
  · have h2 : l.getD j 0 = 0 := List.getD_eq_default _ _ hl
    rw [h2]
    rcases Nat.lt_or_ge j (l.take n ++ List.replicate (n - l.length) 0).length with hin | hout
    · rw [List.getD_eq_getElem _ _ hin]
      rcases Nat.lt_or_ge j (l.take n).length with ha | hb
      · simp [List.length_take] at ha; omega
      · rw [List.getElem_append_right hb]
        simp
    · rw [List.getD_eq_default _ _ hout]

theorem mem_take_window (l : List (Nat × Nat)) (m : Nat) (x : Nat × Nat)
    (hx : x ∈ l.take m) :
    ∃ j, j < m ∧ j < l.length ∧ l.getD j (0, 0) = x := by
  rw [List.mem_iff_getElem] at hx
  obtain ⟨j, hj, hjx⟩ := hx
  have hjm : j < m := by
    have := hj
    simp [List.length_take] at this
    omega
  have hjl : j < l.length := by
    have := hj
    simp [List.length_take] at this
    omega
  refine ⟨j, hjm, hjl, ?_⟩
  rw [List.getD_eq_getElem _ _ hjl]
  rw [← hjx]
  simp [List.getElem_take]

theorem mem_drop_window (l : List (Nat × Nat)) (m : Nat) (x : Nat × Nat)
    (hx : x ∈ l.drop m) :
    ∃ j, m + j < l.length ∧ l.getD (m + j) (0, 0) = x := by
  rw [List.mem_iff_getElem] at hx
  obtain ⟨j, hj, hjx⟩ := hx
  have hjl : m + j < l.length := by
    have := hj
    simp [List.length_drop] at this
    omega
  refine ⟨j, hjl, ?_⟩
  rw [List.getD_eq_getElem _ _ hjl]
  rw [← hjx]
  simp [List.getElem_drop]

theorem insertIdx_perm {α : Type} (a : α) :
    ∀ (l : List α) (i : Nat), i ≤ l.length → (l.insertIdx i a).Perm (a :: l) := by
  intro l
  induction l with
  | nil =>
    intro i hi
    have hi0 : i = 0 := by simpa using hi
    subst hi0
    simp
  | cons b m ih =>
    intro i hi
    cases i with
    | zero => simp
    | succ i =>
      rw [List.insertIdx_succ_cons]
      exact ((ih i (by simpa using hi)).cons b).trans (List.Perm.swap a b m)

theorem getD_insertIdx {α : Type} (a d : α) :
    ∀ (l : List α) (i : Nat), i ≤ l.length → ∀ j,
      (l.insertIdx i a).getD j d =
        if j < i then l.getD j d else if j = i then a else l.getD (j - 1) d := by
  intro l
  induction l with
  | nil =>
    intro i hi j
    have hi0 : i = 0 := by simpa using hi
    subst hi0
    rw [List.insertIdx_zero]
    cases j with
    | zero => simp
    | succ j => simp
  | cons b m ih =>
    intro i hi j
    cases i with
    | zero =>
      rw [List.insertIdx_zero]
      cases j with
      | zero => simp
      | succ j => simp
    | succ i =>
      rw [List.insertIdx_succ_cons]
      cases j with
      | zero =>
        have : (0 : Nat) < i + 1 := by omega
        simp [this]
      | succ j =>
        rw [List.getD_cons_succ, ih i (by simpa using hi) j]
        by_cases h1 : j < i
        · rw [if_pos h1, if_pos (by omega : j + 1 < i + 1), List.getD_cons_succ]
        · rw [if_neg h1, if_neg (by omega : ¬ j + 1 < i + 1)]
          by_cases h2 : j = i
          · rw [if_pos h2, if_pos (by omega : j + 1 = i + 1)]
          · rw [if_neg h2, if_neg (by omega : ¬ j + 1 = i + 1)]
            obtain ⟨jj, rfl⟩ : ∃ jj, j = jj + 1 := ⟨j - 1, by omega⟩
            simp [List.getD_cons_succ]

/-! ## Inserting into a leaf -/

theorem sorted_insertIdx (keys : List (Nat × Nat)) (k v : Nat) (i : Nat)
    (hs : sorted_keys keys = true)
    (hi : i ≤ keys.length)
    (hlow : ∀ m, m < i → (keys.getD m (0, 0)).fst < k)
    (hhigh : i = keys.length ∨ k < (keys.getD i (0, 0)).fst) :
    sorted_keys (keys.insertIdx i (k, v)) = true := by
  rw [sorted_keys_iff_pairwise, List.pairwise_iff_getElem]
  intro a b ha hb hab
  have hlen : (keys.insertIdx i (k, v)).length = keys.length + 1 :=
    List.length_insertIdx i keys hi
  have hga : (keys.insertIdx i (k, v))[a] = (keys.insertIdx i (k, v)).getD a (0, 0) :=
    (List.getD_eq_getElem _ _ ha).symm
  have hgb : (keys.insertIdx i (k, v))[b] = (keys.insertIdx i (k, v)).getD b (0, 0) :=
    (List.getD_eq_getElem _ _ hb).symm
  rw [hga, hgb, getD_insertIdx _ _ _ _ hi a, getD_insertIdx _ _ _ _ hi b]
  have ha' : a < keys.length + 1 := by omega
  have hb' : b < keys.length + 1 := by omega
  by_cases h1 : a < i
  · rw [if_pos h1]
    by_cases h2 : b < i
    · rw [if_pos h2]
      exact sorted_getD_lt keys (0, 0) hs a b hab (by omega)
    · rw [if_neg h2]
      by_cases h3 : b = i
      · rw [if_pos h3]
        exact hlow a h1
      · rw [if_neg h3]
        have hb1 : b - 1 < keys.length := by omega
        rcases Nat.lt_or_ge a (b - 1) with hc | hc
        · exact sorted_getD_lt keys (0, 0) hs a (b - 1) hc hb1
        · have hae : a = b - 1 := by omega
          subst hae
          -- a = b - 1 ≥ i contradicts a < i unless b - 1 < i; here a < i ≤ b - 1
          omega
  · rw [if_neg h1]
    by_cases h3 : a = i
    · rw [if_pos h3]
      have hbne : ¬ b < i := by omega
      have hbne2 : ¬ b = i := by omega
      rw [if_neg hbne, if_neg hbne2]
      have hb1 : b - 1 < keys.length := by omega
      rcases hhigh with hh | hh
      · omega
      · rcases Nat.lt_or_ge i (b - 1) with hc | hc
        · exact lt_trans hh (sorted_getD_lt keys (0, 0) hs i (b - 1) hc hb1)
        · have : b - 1 = i := by omega
          rw [this]
          exact hh
    · rw [if_neg h3]
      have hbne : ¬ b < i := by omega
      have hbne2 : ¬ b = i := by omega
      rw [if_neg hbne, if_neg hbne2]
      have hb1 : b - 1 < keys.length := by omega
      exact sorted_getD_lt keys (0, 0) hs (a - 1) (b - 1) (by omega) hb1

/-- What the leaf write of `insert` does to the store: position, counters
and all other slots are untouched, and the leaf reads back as a sorted,
in-window, one-larger node holding `(k, v)` at the chosen index. -/
theorem insert_leaf_spec (t k v : Nat) (s : TreeState) (ℓ : Nat) (llo lhi : Option Nat)
    (hwf : WFsub t s 0 ℓ llo lhi = true)
    (hwin : in_window llo lhi k = true)
    (hfnd : (find_index k (disk_read t s ℓ)).snd = false) :
    ∀ s₁, s₁ = disk_write t s
      (Node.mk ((disk_read t s ℓ).size + 1) (disk_read t s ℓ).is_leaf
        (disk_read t s ℓ).position_in_disk
        ((disk_read t s ℓ).keys.insertIdx (find_index k (disk_read t s ℓ)).fst (k, v))
        (vec_resize (disk_read t s ℓ).pointers (maximum_keys_in_node t + 2))) →
    s₁.count_of_node = s.count_of_node ∧
    s₁.position_root = s.position_root ∧
    (∀ q, q ≠ ℓ → s₁.store q = s.store q) ∧
    WFsubM t s₁ 0 ℓ llo lhi (maximum_keys_in_node t + 1) = true ∧
    (disk_read t s₁ ℓ).size = (disk_read t s ℓ).size + 1 ∧
    ContainsPair t s₁ k v 0 ℓ := by
  intro s₁ hs₁
  have hwf' := hwf
  rw [WFsub, WFsubM_zero] at hwf'
  obtain ⟨hleaf, hpos, hcnt, hsz, hm, hwink, hsort⟩ := hwf'
  set n := disk_read t s ℓ with hn
  set idx := (find_index k n).fst with hidx
  have hidxle : idx ≤ n.keys.length := find_index_fst_le k n
  have hlow : ∀ m, m < idx → (n.keys.getD m (0, 0)).fst < k := fun m hm =>
    find_index_lt_of_lt k n m hm
  have hhigh : idx = n.keys.length ∨ k < (n.keys.getD idx (0, 0)).fst := by
    rcases Nat.lt_or_ge idx n.keys.length with hlt | hge
    · right
      have hle := find_index_le_at k n hlt
      rw [← hidx] at hle
      have hne : (n.keys.getD idx (0, 0)).fst ≠ k := by
        intro hcon
        have := (find_index_found_iff k n).mpr ⟨hlt, hcon⟩
        rw [this] at hfnd
        cases hfnd
      omega
    · left
      omega
  set node' : Node := Node.mk (n.size + 1) n.is_leaf n.position_in_disk
    (n.keys.insertIdx idx (k, v)) (vec_resize n.pointers (maximum_keys_in_node t + 2))
    with hnode'
  have hlen : (n.keys.insertIdx idx (k, v)).length = n.keys.length + 1 :=
    List.length_insertIdx idx n.keys hidxle
  have hszle : node'.size ≤ maximum_keys_in_node t + 1 := by
    simp only [hnode']
    omega
  have hszeq : node'.size = node'.keys.length := by
    simp only [hnode']
    rw [hlen]
    omega
  have hread : disk_read t s₁ ℓ =
      Node.mk node'.size node'.is_leaf ℓ node'.keys
        ((List.range (maximum_keys_in_node t + 2)).map (fun i => node'.pointers.getD i 0)) := by
    rw [hs₁]
    have hh := disk_read_write_same t s node' hszeq hszle
    rw [show node'.position_in_disk = ℓ from by simp only [hnode']; exact hpos] at hh
    exact hh
  have hcount : s₁.count_of_node = s.count_of_node := by rw [hs₁]; rfl
  have hroot : s₁.position_root = s.position_root := by rw [hs₁]; rfl
  have hother : ∀ q, q ≠ ℓ → s₁.store q = s.store q := by
    intro q hq
    rw [hs₁]
    apply disk_write_store_other
    simp only [hnode']
    rw [hpos]
    exact hq
  refine ⟨hcount, hroot, hother, ?_, ?_, ?_⟩
  · rw [WFsubM_zero, hread]
    refine ⟨by simp only [hnode']; exact hleaf, rfl, by omega, ?_, ?_, ?_, ?_⟩
    · simp only [hnode']
      rw [hlen]
      omega
    · exact le_trans (le_of_eq rfl) hszle
    · intro kv hkv
      simp only [hnode'] at hkv
      rcases (List.mem_insertIdx hidxle).mp hkv with heq | hmem
      · subst heq
        simpa using hwin
      · exact hwink kv hmem
    · simp only [hnode']
      exact sorted_insertIdx n.keys k v idx hsort hidxle hlow hhigh
  · rw [hread]
  · rw [ContainsPair, hread]
    refine ⟨idx, ?_, ?_⟩
    · simp only [hnode']
      rw [hlen]
      omega
    · simp only [hnode']
      rw [getD_insertIdx _ _ _ _ hidxle idx, if_neg (by omega), if_pos rfl]

/-! ## Footprint of a spine chain -/

theorem flatMap_range_extract {α : Type} (f : Nat → List α) (n idx : Nat)
    (h : idx < n) :
    ((List.range n).flatMap f).Perm
      (f idx ++ ((List.range n).filter (fun j => j ≠ idx)).flatMap f) := by
  have hmem : idx ∈ List.range n := List.mem_range.mpr h
  have hperm : (List.range n).Perm (idx :: (List.range n).erase idx) :=
    List.perm_cons_erase hmem
  have herase : (List.range n).erase idx = (List.range n).filter (fun j => j ≠ idx) := by
    rw [List.Nodup.erase_eq_filter (List.nodup_range n) idx]
    apply List.filter_congr
    intro x _
    by_cases hx : x = idx <;> simp [hx]
  have h2 := hperm.flatMap_right f
  rw [herase] at h2
  simpa [List.flatMap_cons] using h2

theorem mem_hole_positions_head (t : Nat) (s : TreeState) (P idx h : Nat)
    (rest : List (Nat × Nat)) :
    P ∈ hole_positions t s ((P, idx) :: rest) h := by
  simp [hole_positions]

theorem mem_hole_positions_sib (t : Nat) (s : TreeState) (P idx h j q : Nat)
    (rest : List (Nat × Nat))
    (hj : j ≤ (disk_read t s P).size) (hje : j ≠ idx)
    (hq : q ∈ positions t s h ((disk_read t s P).pointers.getD j 0)) :
    q ∈ hole_positions t s ((P, idx) :: rest) h := by
  simp only [hole_positions, List.mem_cons, List.mem_append, List.mem_flatMap]
  left; right
  exact ⟨j, List.mem_filter.mpr ⟨List.mem_range.mpr (by omega),
    by simpa using hje⟩, hq⟩

theorem mem_hole_positions_rest (t : Nat) (s : TreeState) (P idx h q : Nat)
    (rest : List (Nat × Nat))
    (hq : q ∈ hole_positions t s rest (h + 1)) :
    q ∈ hole_positions t s ((P, idx) :: rest) h := by
  simp only [hole_positions, List.mem_cons, List.mem_append]
  right
  exact hq

theorem hole_positions_congr (t : Nat) (s s' : TreeState) :
    ∀ (rest : List (Nat × Nat)) (h : Nat),
      (∀ q ∈ hole_positions t s rest h, s'.store q = s.store q) →
      hole_positions t s' rest h = hole_positions t s rest h := by
  intro rest
  induction rest with
  | nil => intro h _; rfl
  | cons frame rest ih =>
    intro h hag
    obtain ⟨P, idx⟩ := frame
    have hP : s'.store P = s.store P :=
      hag P (mem_hole_positions_head t s P idx h rest)
    have hrd : disk_read t s' P = disk_read t s P := disk_read_congr t s s' P hP
    simp only [hole_positions, hrd]
    congr 1
    congr 1
    · apply List.flatMap_congr
      intro j hj
      apply positions_congr
      intro q hq
      apply hag
      have hjr := List.mem_filter.mp hj
      exact mem_hole_positions_sib t s P idx h j q rest
        (by have := List.mem_range.mp hjr.1; omega)
        (by simpa using hjr.2) hq
    · apply ih
      intro q hq
      exact hag q (mem_hole_positions_rest t s P idx h q rest hq)

theorem SpineChain_congr (t k : Nat) (s s' : TreeState) (top htop : Nat)
    (tlo thi : Option Nat) (hc : s.count_of_node ≤ s'.count_of_node) :
    ∀ (rest : List (Nat × Nat)) (p h : Nat) (lo hi : Option Nat),
      (∀ q ∈ hole_positions t s rest h, s'.store q = s.store q) →
      SpineChain t k s top htop tlo thi rest p h lo hi →
      SpineChain t k s' top htop tlo thi rest p h lo hi := by
  intro rest
  induction rest with
  | nil =>
    intro p h lo hi _ hch
    exact hch
  | cons frame rest ih =>
    intro p h lo hi hag hch
    obtain ⟨P, idx⟩ := frame
    obtain ⟨LO, HI, f1, f2, f3, f4, f5, f6, f7, f8, f9, f10, f11, f12, f13, f14⟩ := hch
    have hP : s'.store P = s.store P :=
      hag P (mem_hole_positions_head t s P idx h rest)
    have hrd : disk_read t s' P = disk_read t s P := disk_read_congr t s s' P hP
    refine ⟨LO, HI, by rw [hrd]; exact f1, by rw [hrd]; exact f2, by omega,
      by rw [hrd]; exact f4, by rw [hrd]; exact f5, by rw [hrd]; exact f6,
      by rw [hrd]; exact f7, by rw [hrd]; exact f8, by rw [hrd]; exact f9,
      by rw [hrd]; exact f10, by rw [hrd]; exact f11, by rw [hrd]; exact f12,
      ?_, ?_⟩
    · intro j hj hje
      rw [hrd] at hj ⊢
      have hwf := f13 j hj hje
      rw [WFsub] at hwf ⊢
      apply WFsubM_congr t s s' hc
      · intro q hq
        exact hag q (mem_hole_positions_sib t s P idx h j q rest hj hje hq)
      · exact hwf
    · apply ih P (h + 1) LO HI _ f14
      intro q hq
      exact hag q (mem_hole_positions_rest t s P idx h q rest hq)

theorem spine_positions_perm (t k : Nat) (s : TreeState) (top htop : Nat)
    (tlo thi : Option Nat) :
    ∀ (rest : List (Nat × Nat)) (p h : Nat) (lo hi : Option Nat),
      SpineChain t k s top htop tlo thi rest p h lo hi →
      (positions t s htop top).Perm
        (positions t s h p ++ hole_positions t s rest h) := by
  intro rest
  induction rest with
  | nil =>
    intro p h lo hi hch
    obtain ⟨rfl, rfl, rfl, rfl⟩ := hch
    simp [hole_positions]
  | cons frame rest ih =>
    intro p h lo hi hch
    obtain ⟨P, idx⟩ := frame
    obtain ⟨LO, HI, f1, f2, f3, f4, f5, f6, f7, f8, f9, f10, f11, f12, f13, f14⟩ := hch
    have hidxlt : idx < (disk_read t s P).size + 1 := by
      have := find_index_fst_le k (disk_read t s P)
      rw [f9] at this
      simp only at this
      omega
    have h1 := flatMap_range_extract
      (fun i => positions t s h ((disk_read t s P).pointers.getD i 0))
      ((disk_read t s P).size + 1) idx hidxlt
    simp only at h1
    rw [f10] at h1
    have hmain := ih P (h + 1) LO HI f14
    have hPpos : positions t s (h + 1) P =
        P :: (List.range ((disk_read t s P).size + 1)).flatMap
          (fun i => positions t s h ((disk_read t s P).pointers.getD i 0)) := rfl
    rw [hPpos] at hmain
    simp only [List.cons_append] at hmain
    refine hmain.trans ?_
    have h3 := (h1.append_right (hole_positions t s rest (h + 1))).cons P
    rw [List.append_assoc] at h3
    refine h3.trans ?_
    simp only [hole_positions, List.cons_append]
    exact List.perm_middle.symm

/-! ## What `split_core` writes -/

theorem vec_resize_self (l : List Nat) (n : Nat) (h : l.length = n) :
    vec_resize l n = l := by
  rw [vec_resize]
  subst h
  simp

theorem positions_lt_count (t : Nat) (s : TreeState) :
    ∀ (h p : Nat) (lo hi : Option Nat) (m : Nat),
      WFsubM t s h p lo hi m = true →
      ∀ q ∈ positions t s h p, q < s.count_of_node := by
  intro h
  induction h with
  | zero =>
    intro p lo hi m hwf q hq
    rw [WFsubM_zero] at hwf
    simp only [positions, List.mem_singleton] at hq
    subst hq
    exact hwf.2.2.1
  | succ h ih =>
    intro p lo hi m hwf q hq
    rw [WFsubM_succ] at hwf
    simp only [positions, List.mem_cons, List.mem_flatMap] at hq
    rcases hq with rfl | ⟨i, hir, hq⟩
    · exact hwf.2.2.1
    · have hile : i ≤ (disk_read t s p).size := by
        have := List.mem_range.mp hir
        omega
      exact ih _ _ _ _ (hwf.2.2.2.2.2.2.2.2 i hile) q hq

theorem split_core_eq (t : Nat) (s : TreeState) (p : Nat) :
    split_core t s p =
      (disk_write t
        (disk_write t { s with count_of_node := s.count_of_node + 1 }
          (split_left t (disk_read t s p)))
        (split_right t (disk_read t s p) s.count_of_node),
       (disk_read t s p).keys.getD ((disk_read t s p).keys.length / 2) (0, 0),
       s.count_of_node) := by
  have hpad : vec_resize (disk_read t s p).pointers (maximum_keys_in_node t + 2) =
      (disk_read t s p).pointers :=
    vec_resize_self _ _ (disk_read_pointers_length t s p)
  simp only [split_core, split_left, split_right, hpad]

theorem getD_mem {α : Type} (l : List α) (j : Nat) (d : α) (hj : j < l.length) :
    l.getD j d ∈ l := by
  rw [List.getD_eq_getElem _ _ hj]
  exact List.getElem_mem hj

theorem take_half_window (keys : List (Nat × Nat)) (lo hi : Option Nat) (t : Nat)
    (hlen : keys.length = 2 * t)
    (hs : sorted_keys keys = true)
    (hwin : ∀ kv ∈ keys, in_window lo hi kv.fst = true) :
    ∀ kv ∈ keys.take t, in_window lo (some (keys.getD t (0, 0)).fst) kv.fst = true := by
  intro kv hkv
  obtain ⟨j, hjt, hjlen, hj⟩ := mem_take_window keys t kv hkv
  rw [in_window_split]
  constructor
  · have horig := hwin kv (by rw [← hj]; exact getD_mem keys j (0, 0) hjlen)
    exact ((in_window_split lo hi kv.fst).mp horig).1
  · have hlt := sorted_getD_lt keys (0, 0) hs j t hjt (by omega)
    rw [hj] at hlt
    simp only [window_hi, decide_eq_true_eq]
    exact hlt

theorem drop_half_window (keys : List (Nat × Nat)) (lo hi : Option Nat) (t : Nat)
    (hlen : keys.length = 2 * t)
    (hs : sorted_keys keys = true)
    (hwin : ∀ kv ∈ keys, in_window lo hi kv.fst = true) :
    ∀ kv ∈ keys.drop (t + 1),
      in_window (some (keys.getD t (0, 0)).fst) hi kv.fst = true := by
  intro kv hkv
  obtain ⟨j, hjlen, hj⟩ := mem_drop_window keys (t + 1) kv hkv
  rw [in_window_split]
  constructor
  · have hlt := sorted_getD_lt keys (0, 0) hs t (t + 1 + j) (by omega) hjlen
    rw [hj] at hlt
    simp only [window_lo, decide_eq_true_eq]
    exact hlt
  · have horig := hwin kv (by rw [← hj]; exact getD_mem keys (t + 1 + j) (0, 0) hjlen)
    exact ((in_window_split lo hi kv.fst).mp horig).2

theorem split_core_count (t : Nat) (s : TreeState) (p : Nat) :
    (split_core t s p).fst.count_of_node = s.count_of_node + 1 := rfl

theorem split_core_root (t : Nat) (s : TreeState) (p : Nat) :
    (split_core t s p).fst.position_root = s.position_root := rfl

theorem split_core_rightpos (t : Nat) (s : TreeState) (p : Nat) :
    (split_core t s p).snd.snd = s.count_of_node := rfl

theorem split_core_mid (t : Nat) (s : TreeState) (p : Nat)
    (hlen2 : (disk_read t s p).keys.length = 2 * t) :
    (split_core t s p).snd.fst = (disk_read t s p).keys.getD t (0, 0) := by
  rw [split_core_eq]
  dsimp only
  rw [hlen2]
  have h2 : 2 * t / 2 = t := by omega
  rw [h2]

theorem split_core_store_other (t : Nat) (s : TreeState) (p : Nat)
    (hpos : (disk_read t s p).position_in_disk = p)
    (q : Nat) (hq1 : q ≠ p) (hq2 : q ≠ s.count_of_node) :
    (split_core t s p).fst.store q = s.store q := by
  rw [split_core_eq]
  dsimp only
  have hA : q ≠ (split_right t (disk_read t s p) s.count_of_node).position_in_disk := hq2
  have hB : q ≠ (split_left t (disk_read t s p)).position_in_disk := by
    rw [show (split_left t (disk_read t s p)).position_in_disk = p from hpos]
    exact hq1
  rw [disk_write_store_other t _ _ q hA, disk_write_store_other t _ _ q hB]

theorem split_readL (t : Nat) (s : TreeState) (p : Nat)
    (hpos : (disk_read t s p).position_in_disk = p)
    (hplt : p < s.count_of_node)
    (hle : (split_left t (disk_read t s p)).size ≤ maximum_keys_in_node t + 1) :
    disk_read t (split_core t s p).fst p =
      Node.mk (split_left t (disk_read t s p)).size
        (disk_read t s p).is_leaf p (split_left t (disk_read t s p)).keys
        ((List.range (maximum_keys_in_node t + 2)).map
          (fun i => (split_left t (disk_read t s p)).pointers.getD i 0)) := by
  rw [split_core_eq]
  dsimp only
  have hne : p ≠ (split_right t (disk_read t s p) s.count_of_node).position_in_disk := by
    show p ≠ s.count_of_node
    omega
  rw [disk_read_of_write_other t _ _ p hne]
  have hLpos : (split_left t (disk_read t s p)).position_in_disk = p := hpos
  have h2 := disk_read_write_same t { s with count_of_node := s.count_of_node + 1 }
    (split_left t (disk_read t s p)) rfl hle
  rw [hLpos] at h2
  exact h2

theorem split_readR (t : Nat) (s : TreeState) (p : Nat)
    (hle : (split_right t (disk_read t s p) s.count_of_node).size ≤
      maximum_keys_in_node t + 1) :
    disk_read t (split_core t s p).fst s.count_of_node =
      Node.mk (split_right t (disk_read t s p) s.count_of_node).size
        (disk_read t s p).is_leaf s.count_of_node
        (split_right t (disk_read t s p) s.count_of_node).keys
        ((List.range (maximum_keys_in_node t + 2)).map
          (fun i => (split_right t (disk_read t s p) s.count_of_node).pointers.getD i 0)) := by
  rw [split_core_eq]
  dsimp only
  exact disk_read_write_same t _ (split_right t (disk_read t s p) s.count_of_node) rfl hle

theorem WFsubM_fields (t : Nat) (s : TreeState) (h p : Nat) (lo hi : Option Nat)
    (m : Nat) (hwf : WFsubM t s h p lo hi m = true) :
    (disk_read t s p).position_in_disk = p ∧ p < s.count_of_node ∧
    (disk_read t s p).size = (disk_read t s p).keys.length ∧
    (disk_read t s p).size ≤ m ∧
    (∀ kv ∈ (disk_read t s p).keys, in_window lo hi kv.fst = true) ∧
    sorted_keys (disk_read t s p).keys = true := by
  cases h with
  | zero =>
    rw [WFsubM_zero] at hwf
    tauto
  | succ h =>
    rw [WFsubM_succ] at hwf
    tauto

theorem split_left_size (t : Nat) (n : Node) (hlen2 : n.keys.length = 2 * t) :
    (split_left t n).size = t := by
  simp [split_left, hlen2]
  omega

theorem split_left_keys (t : Nat) (n : Node) (hlen2 : n.keys.length = 2 * t) :
    (split_left t n).keys = n.keys.take t := by
  have hm : n.keys.length / 2 = t := by omega
  simp [split_left, hm]

theorem split_right_size (t : Nat) (n : Node) (rp : Nat)
    (hlen2 : n.keys.length = 2 * t) :
    (split_right t n rp).size = t - 1 := by
  simp [split_right, hlen2]
  omega

theorem split_right_keys (t : Nat) (n : Node) (rp : Nat)
    (hlen2 : n.keys.length = 2 * t) :
    (split_right t n rp).keys = n.keys.drop (t + 1) := by
  have hm : n.keys.length / 2 = t := by omega
  simp [split_right, hm]

theorem split_left_ptr (t : Nat) (n : Node) (hlen2 : n.keys.length = 2 * t)
    (hleaf : n.is_leaf = false) (h1t : 1 ≤ t) (j : Nat) (hj : j < t + 1) :
    (split_left t n).pointers.getD j 0 = n.pointers.getD j 0 := by
  have hm : n.keys.length / 2 = t := by omega
  have hmax : maximum_keys_in_node t + 2 = 2 * t + 1 := by
    rw [maximum_keys_in_node]
    omega
  simp only [split_left, hleaf, Bool.not_false, if_true, hm]
  rw [vec_resize_getD _ _ _ (by omega), getD_take _ _ _ _ hj]

theorem split_right_ptr (t : Nat) (n : Node) (rp : Nat)
    (hlen2 : n.keys.length = 2 * t)
    (hleaf : n.is_leaf = false) (h1t : 1 ≤ t) (j : Nat) (hj : j < 2 * t) :
    (split_right t n rp).pointers.getD j 0 = n.pointers.getD (t + 1 + j) 0 := by
  have hm : n.keys.length / 2 = t := by omega
  have hmax : maximum_keys_in_node t + 2 = 2 * t + 1 := by
    rw [maximum_keys_in_node]
    omega
  simp only [split_right, hleaf, Bool.not_false, if_true, hm]
  rw [vec_resize_getD _ _ _ (by omega), getD_drop]

/-- After `split_core`, the retained node at `p` is a well-formed subtree of
the same height in the window cut off at the promoted median. -/
theorem split_wf_left (t : Nat) (s : TreeState) (h p : Nat) (lo hi : Option Nat)
    (h2t : 2 ≤ t)
    (hwf : WFsubM t s h p lo hi (maximum_keys_in_node t + 1) = true)
    (hfull : (disk_read t s p).size = maximum_keys_in_node t + 1)
    (hnd : (positions t s h p).Nodup) :
    WFsubM t (split_core t s p).fst h p lo
      (some ((disk_read t s p).keys.getD t (0, 0)).fst)
      (maximum_keys_in_node t) = true := by
  obtain ⟨hpos, hplt, hsz, hszle, hwin, hsort⟩ := WFsubM_fields t s h p lo hi _ hwf
  have hmax : maximum_keys_in_node t = 2 * t - 1 := rfl
  have hlen2 : (disk_read t s p).keys.length = 2 * t := by omega
  have hsz2 : (disk_read t s p).size = 2 * t := by omega
  have hLle : (split_left t (disk_read t s p)).size ≤ maximum_keys_in_node t + 1 := by
    rw [split_left_size t _ hlen2]
    omega
  have hreadL := split_readL t s p hpos hplt hLle
  have hf_keys : (disk_read t (split_core t s p).fst p).keys =
      (disk_read t s p).keys.take t := by
    rw [hreadL]
    exact split_left_keys t _ hlen2
  have hf_size : (disk_read t (split_core t s p).fst p).size = t := by
    rw [hreadL]
    exact split_left_size t _ hlen2
  have hf_leaf : (disk_read t (split_core t s p).fst p).is_leaf =
      (disk_read t s p).is_leaf := by
    rw [hreadL]
  have hf_pos : (disk_read t (split_core t s p).fst p).position_in_disk = p := by
    rw [hreadL]
  have hf_szk : (disk_read t (split_core t s p).fst p).size =
      (disk_read t (split_core t s p).fst p).keys.length := by
    rw [hf_size, hf_keys, List.length_take]
    omega
  have hf_win : ∀ kv ∈ (disk_read t (split_core t s p).fst p).keys,
      in_window lo (some ((disk_read t s p).keys.getD t (0, 0)).fst) kv.fst = true := by
    rw [hf_keys]
    exact take_half_window _ lo hi t hlen2 hsort hwin
  have hf_sort : sorted_keys (disk_read t (split_core t s p).fst p).keys = true := by
    rw [hf_keys]
    exact sorted_keys_take _ _ hsort
  have hcnt : p < (split_core t s p).fst.count_of_node := by
    rw [split_core_count]
    omega
  cases h with
  | zero =>
    rw [WFsubM_zero] at hwf ⊢
    refine ⟨?_, hf_pos, hcnt, hf_szk, ?_, hf_win, hf_sort⟩
    · rw [hf_leaf]
      exact hwf.1
    · rw [hf_size]
      omega
  | succ h =>
    rw [WFsubM_succ] at hwf ⊢
    obtain ⟨hleaf, _, _, _, _, _, _, _, hch⟩ := hwf
    have hf_ptr : ∀ j, j < maximum_keys_in_node t + 2 →
        (disk_read t (split_core t s p).fst p).pointers.getD j 0 =
          (split_left t (disk_read t s p)).pointers.getD j 0 := by
      intro j hj
      rw [hreadL]
      exact getD_range_map _ _ _ 0 hj
    have hchagree : ∀ j, j ≤ (disk_read t s p).size →
        ∀ q ∈ positions t s h ((disk_read t s p).pointers.getD j 0),
          (split_core t s p).fst.store q = s.store q := by
      intro j hj q hq
      apply split_core_store_other t s p hpos q
      · intro hqp
        have hmem : p ∈ (List.range ((disk_read t s p).size + 1)).flatMap
            (fun i => positions t s h ((disk_read t s p).pointers.getD i 0)) :=
          List.mem_flatMap.mpr ⟨j, List.mem_range.mpr (by omega), hqp ▸ hq⟩
        have hnd' := hnd
        simp only [positions] at hnd'
        rw [List.nodup_cons] at hnd'
        exact hnd'.1 hmem
      · intro hqc
        subst hqc
        have := positions_lt_count t s h _ _ _ _ (hch j hj) _ hq
        omega
    refine ⟨?_, hf_pos, hcnt, hf_szk, ?_, ?_, hf_win, hf_sort, ?_⟩
    · rw [hf_leaf]
      exact hleaf
    · rw [hf_size]
      omega
    · rw [hf_size]
      omega
    · intro j hj
      rw [hf_size] at hj
      have hjmax : j < maximum_keys_in_node t + 2 := by omega
      have hptr : (disk_read t (split_core t s p).fst p).pointers.getD j 0 =
          (disk_read t s p).pointers.getD j 0 := by
        rw [hf_ptr j hjmax]
        exact split_left_ptr t _ hlen2 hleaf (by omega) j (by omega)
      have hclo : child_lo (disk_read t (split_core t s p).fst p) lo j =
          child_lo (disk_read t s p) lo j := by
        rw [child_lo, child_lo]
        by_cases hj0 : j = 0
        · rw [if_pos hj0, if_pos hj0]
        · rw [if_neg hj0, if_neg hj0, hf_keys, getD_take _ _ _ _ (by omega)]
      have hchi : child_hi (disk_read t (split_core t s p).fst p)
            (some ((disk_read t s p).keys.getD t (0, 0)).fst) j =
          child_hi (disk_read t s p) hi j := by
        rw [child_hi, child_hi, hf_size]
        by_cases hjlt : j < t
        · rw [if_pos hjlt, if_pos (by omega), hf_keys, getD_take _ _ _ _ hjlt]
        · have hjeq : j = t := by omega
          subst hjeq
          rw [if_neg (by omega), if_pos (by omega)]
      rw [hptr, hclo, hchi]
      apply WFsubM_congr t s _ (by rw [split_core_count]; omega)
      · exact hchagree j (by omega)
      · exact hch j (by omega)

/-- After `split_core`, the right sibling is a well-formed subtree of the
same height in the window opening at the promoted median. -/
theorem split_wf_right (t : Nat) (s : TreeState) (h p : Nat) (lo hi : Option Nat)
    (h2t : 2 ≤ t)
    (hwf : WFsubM t s h p lo hi (maximum_keys_in_node t + 1) = true)
    (hfull : (disk_read t s p).size = maximum_keys_in_node t + 1)
    (hnd : (positions t s h p).Nodup) :
    WFsubM t (split_core t s p).fst h s.count_of_node
      (some ((disk_read t s p).keys.getD t (0, 0)).fst) hi
      (maximum_keys_in_node t) = true := by
  obtain ⟨hpos, hplt, hsz, hszle, hwin, hsort⟩ := WFsubM_fields t s h p lo hi _ hwf
  have hmax : maximum_keys_in_node t = 2 * t - 1 := rfl
  have hlen2 : (disk_read t s p).keys.length = 2 * t := by omega
  have hsz2 : (disk_read t s p).size = 2 * t := by omega
  have hRle : (split_right t (disk_read t s p) s.count_of_node).size ≤
      maximum_keys_in_node t + 1 := by
    rw [split_right_size t _ s.count_of_node hlen2]
    omega
  have hreadR := split_readR t s p hRle
  have hf_keys : (disk_read t (split_core t s p).fst s.count_of_node).keys =
      (disk_read t s p).keys.drop (t + 1) := by
    rw [hreadR]
    exact split_right_keys t _ s.count_of_node hlen2
  have hf_size : (disk_read t (split_core t s p).fst s.count_of_node).size = t - 1 := by
    rw [hreadR]
    exact split_right_size t _ s.count_of_node hlen2
  have hf_leaf : (disk_read t (split_core t s p).fst s.count_of_node).is_leaf =
      (disk_read t s p).is_leaf := by
    rw [hreadR]
  have hf_pos : (disk_read t (split_core t s p).fst s.count_of_node).position_in_disk =
      s.count_of_node := by
    rw [hreadR]
  have hf_szk : (disk_read t (split_core t s p).fst s.count_of_node).size =
      (disk_read t (split_core t s p).fst s.count_of_node).keys.length := by
    rw [hf_size, hf_keys, List.length_drop]
    omega
  have hf_win : ∀ kv ∈ (disk_read t (split_core t s p).fst s.count_of_node).keys,
      in_window (some ((disk_read t s p).keys.getD t (0, 0)).fst) hi kv.fst = true := by
    rw [hf_keys]
    exact drop_half_window _ lo hi t hlen2 hsort hwin
  have hf_sort : sorted_keys (disk_read t (split_core t s p).fst s.count_of_node).keys
      = true := by
    rw [hf_keys]
    exact sorted_keys_drop _ _ hsort
  have hcnt : s.count_of_node < (split_core t s p).fst.count_of_node := by
    rw [split_core_count]
    omega
  cases h with
  | zero =>
    rw [WFsubM_zero] at hwf ⊢
    refine ⟨?_, hf_pos, hcnt, hf_szk, ?_, hf_win, hf_sort⟩
    · rw [hf_leaf]
      exact hwf.1
    · rw [hf_size]
      omega
  | succ h =>
    rw [WFsubM_succ] at hwf ⊢
    obtain ⟨hleaf, _, _, _, _, _, _, _, hch⟩ := hwf
    have hf_ptr : ∀ j, j < maximum_keys_in_node t + 2 →
        (disk_read t (split_core t s p).fst s.count_of_node).pointers.getD j 0 =
          (split_right t (disk_read t s p) s.count_of_node).pointers.getD j 0 := by
      intro j hj
      rw [hreadR]
      exact getD_range_map _ _ _ 0 hj
    have hchagree : ∀ j, j ≤ (disk_read t s p).size →
        ∀ q ∈ positions t s h ((disk_read t s p).pointers.getD j 0),
          (split_core t s p).fst.store q = s.store q := by
      intro j hj q hq
      apply split_core_store_other t s p hpos q
      · intro hqp
        have hmem : p ∈ (List.range ((disk_read t s p).size + 1)).flatMap
            (fun i => positions t s h ((disk_read t s p).pointers.getD i 0)) :=
          List.mem_flatMap.mpr ⟨j, List.mem_range.mpr (by omega), hqp ▸ hq⟩
        have hnd' := hnd
        simp only [positions] at hnd'
        rw [List.nodup_cons] at hnd'
        exact hnd'.1 hmem
      · intro hqc
        subst hqc
        have := positions_lt_count t s h _ _ _ _ (hch j hj) _ hq
        omega
    refine ⟨?_, hf_pos, hcnt, hf_szk, ?_, ?_, hf_win, hf_sort, ?_⟩
    · rw [hf_leaf]
      exact hleaf
    · rw [hf_size]
      omega
    · rw [hf_size]
      omega
    · intro j hj
      rw [hf_size] at hj
      have hjmax : j < maximum_keys_in_node t + 2 := by omega
      have hptr : (disk_read t (split_core t s p).fst s.count_of_node).pointers.getD j 0 =
          (disk_read t s p).pointers.getD (t + 1 + j) 0 := by
        rw [hf_ptr j hjmax]
        exact split_right_ptr t _ _ hlen2 hleaf (by omega) j (by omega)
      have hclo : child_lo (disk_read t (split_core t s p).fst s.count_of_node)
            (some ((disk_read t s p).keys.getD t (0, 0)).fst) j =
          child_lo (disk_read t s p) lo (t + 1 + j) := by
        rw [child_lo, child_lo]
        by_cases hj0 : j = 0
        · subst hj0
          rw [if_pos rfl, if_neg (by omega)]
          have hidx : t + 1 + 0 - 1 = t := by omega
          rw [hidx]
        · rw [if_neg hj0, if_neg (by omega), hf_keys, getD_drop]
          have hidx : t + 1 + (j - 1) = t + 1 + j - 1 := by omega
          rw [hidx]
      have hchi : child_hi (disk_read t (split_core t s p).fst s.count_of_node) hi j =
          child_hi (disk_read t s p) hi (t + 1 + j) := by
        rw [child_hi, child_hi, hf_size]
        by_cases hjlt : j < t - 1
        · rw [if_pos hjlt, if_pos (by omega), hf_keys, getD_drop]
        · have hjeq : j = t - 1 := by omega
          subst hjeq
          rw [if_neg (by omega), if_neg (by omega)]
      rw [hptr, hclo, hchi]
      apply WFsubM_congr t s _ (by rw [split_core_count]; omega)
      · exact hchagree (t + 1 + j) (by omega)
      · exact hch (t + 1 + j) (by omega)

theorem split_mk_window (t : Nat) (s : TreeState) (h p : Nat) (lo hi : Option Nat)
    (h2t : 2 ≤ t)
    (hwf : WFsubM t s h p lo hi (maximum_keys_in_node t + 1) = true)
    (hfull : (disk_read t s p).size = maximum_keys_in_node t + 1) :
    in_window lo hi ((disk_read t s p).keys.getD t (0, 0)).fst = true := by
  obtain ⟨hpos, hplt, hsz, hszle, hwin, hsort⟩ := WFsubM_fields t s h p lo hi _ hwf
  have hmax : maximum_keys_in_node t = 2 * t - 1 := rfl
  have hlen2 : (disk_read t s p).keys.length = 2 * t := by omega
  exact hwin _ (getD_mem _ t _ (by omega))

theorem flatMap_map_eq {α β γ : Type} (f : α → β) (g : β → List γ) (l : List α) :
    (l.map f).flatMap g = l.flatMap (fun x => g (f x)) := by
  induction l with
  | nil => rfl
  | cons a l ih => simp [List.flatMap_cons, ih]

theorem split_at_node_tri (keys : List (Nat × Nat)) (t k v : Nat)
    (hlen : keys.length = 2 * t)
    (hs : sorted_keys keys = true)
    (i : Nat) (hi : i < keys.length) (hk : keys.getD i (0, 0) = (k, v)) :
    (k < (keys.getD t (0, 0)).fst ∧ ∃ j, j < (keys.take t).length ∧
      (keys.take t).getD j (0, 0) = (k, v)) ∨
    (k = (keys.getD t (0, 0)).fst ∧ v = (keys.getD t (0, 0)).snd) ∨
    ((keys.getD t (0, 0)).fst < k ∧ ∃ j, j < (keys.drop (t + 1)).length ∧
      (keys.drop (t + 1)).getD j (0, 0) = (k, v)) := by
  rcases Nat.lt_trichotomy i t with hit | hit | hit
  · left
    constructor
    · have hlt := sorted_getD_lt keys (0, 0) hs i t hit (by omega)
      rw [hk] at hlt
      exact hlt
    · refine ⟨i, ?_, ?_⟩
      · rw [List.length_take]
        omega
      · rw [getD_take _ _ _ _ hit]
        exact hk
  · right
    left
    subst hit
    rw [hk]
    exact ⟨rfl, rfl⟩
  · right
    right
    constructor
    · have hlt := sorted_getD_lt keys (0, 0) hs t i hit hi
      rw [hk] at hlt
      exact hlt
    · refine ⟨i - (t + 1), ?_, ?_⟩
      · rw [List.length_drop]
        omega
      · rw [getD_drop]
        have hidx : t + 1 + (i - (t + 1)) = i := by omega
        rw [hidx]
        exact hk

theorem split_child_agree (t : Nat) (s : TreeState) (h p : Nat) (lo hi : Option Nat)
    (m : Nat) (hwf : WFsubM t s (h + 1) p lo hi m = true)
    (hnd : (positions t s (h + 1) p).Nodup) :
    ∀ j, j ≤ (disk_read t s p).size →
      ∀ q ∈ positions t s h ((disk_read t s p).pointers.getD j 0),
        (split_core t s p).fst.store q = s.store q := by
  rw [WFsubM_succ] at hwf
  obtain ⟨_, hpos, _, _, _, _, _, _, hch⟩ := hwf
  intro j hj q hq
  apply split_core_store_other t s p hpos q
  · intro hqp
    have hmem : p ∈ (List.range ((disk_read t s p).size + 1)).flatMap
        (fun i => positions t s h ((disk_read t s p).pointers.getD i 0)) :=
      List.mem_flatMap.mpr ⟨j, List.mem_range.mpr (by omega), hqp ▸ hq⟩
    have hnd' := hnd
    simp only [positions] at hnd'
    rw [List.nodup_cons] at hnd'
    exact hnd'.1 hmem
  · intro hqc
    subst hqc
    have := positions_lt_count t s h _ _ _ _ (hch j hj) _ hq
    omega

/-- `split_core` replaces the footprint of the split subtree by the same
slots plus the freshly allocated right sibling. -/
theorem split_positions_perm (t : Nat) (s : TreeState) (h p : Nat)
    (lo hi : Option Nat)
    (h2t : 2 ≤ t)
    (hwf : WFsubM t s h p lo hi (maximum_keys_in_node t + 1) = true)
    (hfull : (disk_read t s p).size = maximum_keys_in_node t + 1)
    (hnd : (positions t s h p).Nodup) :
    (positions t (split_core t s p).fst h p ++
      positions t (split_core t s p).fst h s.count_of_node).Perm
      (s.count_of_node :: positions t s h p) := by
  obtain ⟨hpos, hplt, hsz, hszle, hwin, hsort⟩ := WFsubM_fields t s h p lo hi _ hwf
  have hmax : maximum_keys_in_node t = 2 * t - 1 := rfl
  have hlen2 : (disk_read t s p).keys.length = 2 * t := by omega
  have hsz2 : (disk_read t s p).size = 2 * t := by omega
  cases h with
  | zero =>
    simp only [positions, List.cons_append, List.nil_append]
    exact List.Perm.swap s.count_of_node p []
  | succ h =>
    have hwf' := hwf
    rw [WFsubM_succ] at hwf'
    obtain ⟨hleaf, _, _, _, _, _, _, _, hch⟩ := hwf'
    have hLle : (split_left t (disk_read t s p)).size ≤ maximum_keys_in_node t + 1 := by
      rw [split_left_size t _ hlen2]
      omega
    have hRle : (split_right t (disk_read t s p) s.count_of_node).size ≤
        maximum_keys_in_node t + 1 := by
      rw [split_right_size t _ s.count_of_node hlen2]
      omega
    have hreadL := split_readL t s p hpos hplt hLle
    have hreadR := split_readR t s p hRle
    have hf_sizeL : (disk_read t (split_core t s p).fst p).size = t := by
      rw [hreadL]
      exact split_left_size t _ hlen2
    have hf_sizeR : (disk_read t (split_core t s p).fst s.count_of_node).size = t - 1 := by
      rw [hreadR]
      exact split_right_size t _ s.count_of_node hlen2
    have hchagree := split_child_agree t s h p lo hi _ hwf hnd
    have hf_ptrL : ∀ j, j < t + 1 →
        (disk_read t (split_core t s p).fst p).pointers.getD j 0 =
          (disk_read t s p).pointers.getD j 0 := by
      intro j hj
      have h1 : (disk_read t (split_core t s p).fst p).pointers.getD j 0 =
          (split_left t (disk_read t s p)).pointers.getD j 0 := by
        rw [hreadL]
        exact getD_range_map _ _ _ 0 (by omega)
      rw [h1]
      exact split_left_ptr t _ hlen2 hleaf (by omega) j hj
    have hf_ptrR : ∀ j, j < t →
        (disk_read t (split_core t s p).fst s.count_of_node).pointers.getD j 0 =
          (disk_read t s p).pointers.getD (t + 1 + j) 0 := by
      intro j hj
      have h1 : (disk_read t (split_core t s p).fst s.count_of_node).pointers.getD j 0 =
          (split_right t (disk_read t s p) s.count_of_node).pointers.getD j 0 := by
        rw [hreadR]
        exact getD_range_map _ _ _ 0 (by omega)
      rw [h1]
      exact split_right_ptr t _ s.count_of_node hlen2 hleaf (by omega) j (by omega)
    have hposL : positions t (split_core t s p).fst (h + 1) p =
        p :: (List.range (t + 1)).flatMap
          (fun j => positions t s h ((disk_read t s p).pointers.getD j 0)) := by
      simp only [positions]
      rw [hf_sizeL]
      congr 1
      apply List.flatMap_congr
      intro j hjr
      have hj1 : j < t + 1 := List.mem_range.mp hjr
      rw [hf_ptrL j hj1]
      exact positions_congr t s _ h _ (hchagree j (by omega))
    have hposR : positions t (split_core t s p).fst (h + 1) s.count_of_node =
        s.count_of_node :: (List.range t).flatMap
          (fun j => positions t s h ((disk_read t s p).pointers.getD (t + 1 + j) 0)) := by
      simp only [positions]
      rw [hf_sizeR]
      have ht1 : t - 1 + 1 = t := by omega
      rw [ht1]
      congr 1
      apply List.flatMap_congr
      intro j hjr
      have hj1 : j < t := List.mem_range.mp hjr
      rw [hf_ptrR j hj1]
      exact positions_congr t s _ h _ (hchagree (t + 1 + j) (by omega))
    have hposS : positions t s (h + 1) p =
        p :: (List.range (2 * t + 1)).flatMap
          (fun j => positions t s h ((disk_read t s p).pointers.getD j 0)) := by
      simp only [positions]
      rw [hsz2]
    rw [hposL, hposR, hposS]
    have h21 : 2 * t + 1 = (t + 1) + t := by omega
    rw [h21]
    rw [show List.range (t + 1 + t) =
        List.range (t + 1) ++ (List.range t).map (fun x => t + 1 + x) from
      List.range_add (t + 1) t]
    rw [List.flatMap_append, flatMap_map_eq]
    simp only [List.cons_append]
    exact (List.perm_middle.cons p).trans (List.Perm.swap s.count_of_node p _)

/-- Where the searched pair lands after `split_core`: strictly below the
median it stays in the left node, at the median it is the promoted pair,
strictly above it moves to the right sibling. -/
theorem split_contains (t : Nat) (s : TreeState) (h p : Nat) (lo hi : Option Nat)
    (k v : Nat) (h2t : 2 ≤ t)
    (hwf : WFsubM t s h p lo hi (maximum_keys_in_node t + 1) = true)
    (hfull : (disk_read t s p).size = maximum_keys_in_node t + 1)
    (hnd : (positions t s h p).Nodup)
    (hcp : ContainsPair t s k v h p) :
    (k < ((disk_read t s p).keys.getD t (0, 0)).fst ∧
      ContainsPair t (split_core t s p).fst k v h p) ∨
    (k = ((disk_read t s p).keys.getD t (0, 0)).fst ∧
      v = ((disk_read t s p).keys.getD t (0, 0)).snd) ∨
    (((disk_read t s p).keys.getD t (0, 0)).fst < k ∧
      ContainsPair t (split_core t s p).fst k v h s.count_of_node) := by
  obtain ⟨hpos, hplt, hsz, hszle, hwin, hsort⟩ := WFsubM_fields t s h p lo hi _ hwf
  have hmax : maximum_keys_in_node t = 2 * t - 1 := rfl
  have hlen2 : (disk_read t s p).keys.length = 2 * t := by omega
  have hsz2 : (disk_read t s p).size = 2 * t := by omega
  have hLle : (split_left t (disk_read t s p)).size ≤ maximum_keys_in_node t + 1 := by
    rw [split_left_size t _ hlen2]
    omega
  have hRle : (split_right t (disk_read t s p) s.count_of_node).size ≤
      maximum_keys_in_node t + 1 := by
    rw [split_right_size t _ s.count_of_node hlen2]
    omega
  have hreadL := split_readL t s p hpos hplt hLle
  have hreadR := split_readR t s p hRle
  have hf_keysL : (disk_read t (split_core t s p).fst p).keys =
      (disk_read t s p).keys.take t := by
    rw [hreadL]
    exact split_left_keys t _ hlen2
  have hf_keysR : (disk_read t (split_core t s p).fst s.count_of_node).keys =
      (disk_read t s p).keys.drop (t + 1) := by
    rw [hreadR]
    exact split_right_keys t _ s.count_of_node hlen2
  cases h with
  | zero =>
    obtain ⟨i, hi, hk⟩ := hcp
    rcases split_at_node_tri _ t k v hlen2 hsort i hi hk with
      ⟨hlt, j, hjl, hjv⟩ | ⟨hkeq, hveq⟩ | ⟨hgt, j, hjl, hjv⟩
    · exact Or.inl ⟨hlt, ⟨j, by rw [hf_keysL]; exact hjl, by rw [hf_keysL]; exact hjv⟩⟩
    · exact Or.inr (Or.inl ⟨hkeq, hveq⟩)
    · exact Or.inr (Or.inr ⟨hgt,
        ⟨j, by rw [hf_keysR]; exact hjl, by rw [hf_keysR]; exact hjv⟩⟩)
  | succ h =>
    have hwf' := hwf
    rw [WFsubM_succ] at hwf'
    obtain ⟨hleaf, _, _, _, _, _, _, _, hch⟩ := hwf'
    have hchagree := split_child_agree t s h p lo hi _ hwf hnd
    have hf_sizeL : (disk_read t (split_core t s p).fst p).size = t := by
      rw [hreadL]
      exact split_left_size t _ hlen2
    have hf_sizeR : (disk_read t (split_core t s p).fst s.count_of_node).size
        = t - 1 := by
      rw [hreadR]
      exact split_right_size t _ s.count_of_node hlen2
    have hf_ptrL : ∀ j, j < t + 1 →
        (disk_read t (split_core t s p).fst p).pointers.getD j 0 =
          (disk_read t s p).pointers.getD j 0 := by
      intro j hj
      have h1 : (disk_read t (split_core t s p).fst p).pointers.getD j 0 =
          (split_left t (disk_read t s p)).pointers.getD j 0 := by
        rw [hreadL]
        exact getD_range_map _ _ _ 0 (by omega)
      rw [h1]
      exact split_left_ptr t _ hlen2 hleaf (by omega) j hj
    have hf_ptrR : ∀ j, j < t →
        (disk_read t (split_core t s p).fst s.count_of_node).pointers.getD j 0 =
          (disk_read t s p).pointers.getD (t + 1 + j) 0 := by
      intro j hj
      have h1 : (disk_read t (split_core t s p).fst s.count_of_node).pointers.getD j 0 =
          (split_right t (disk_read t s p) s.count_of_node).pointers.getD j 0 := by
        rw [hreadR]
        exact getD_range_map _ _ _ 0 (by omega)
      rw [h1]
      exact split_right_ptr t _ s.count_of_node hlen2 hleaf (by omega) j (by omega)
    rcases hcp with ⟨i, hi, hk⟩ | ⟨i, hile, hsub⟩
    · rcases split_at_node_tri _ t k v hlen2 hsort i hi hk with
        ⟨hlt, j, hjl, hjv⟩ | ⟨hkeq, hveq⟩ | ⟨hgt, j, hjl, hjv⟩
      · exact Or.inl ⟨hlt, Or.inl
          ⟨j, by rw [hf_keysL]; exact hjl, by rw [hf_keysL]; exact hjv⟩⟩
      · exact Or.inr (Or.inl ⟨hkeq, hveq⟩)
      · exact Or.inr (Or.inr ⟨hgt, Or.inl
          ⟨j, by rw [hf_keysR]; exact hjl, by rw [hf_keysR]; exact hjv⟩⟩)
    · have hkwin := contains_in_window t s k v h _ _ _ _ (hch i hile) hsub
      rw [in_window_split] at hkwin
      rcases Nat.lt_or_ge i (t + 1) with hile2 | hge
      · refine Or.inl ⟨?_, ?_⟩
        · have hkhi := hkwin.2
          rw [child_hi, if_pos (by omega)] at hkhi
          simp only [window_hi, decide_eq_true_eq] at hkhi
          rcases Nat.lt_or_ge i t with hit | hit
          · have hlt := sorted_getD_lt (disk_read t s p).keys (0, 0) hsort i t hit
              (by omega)
            omega
          · have hieq : i = t := by omega
            rw [hieq] at hkhi
            exact hkhi
        · refine Or.inr ⟨i, ?_, ?_⟩
          · rw [hf_sizeL]
            omega
          · rw [hf_ptrL i (by omega)]
            exact ContainsPair_congr t s _ k v h _ (hchagree i (by omega)) hsub
      · refine Or.inr (Or.inr ⟨?_, ?_⟩)
        · have hklo := hkwin.1
          rw [child_lo, if_neg (by omega)] at hklo
          simp only [window_lo, decide_eq_true_eq] at hklo
          rcases Nat.lt_or_ge t (i - 1) with hit | hit
          · have hlt := sorted_getD_lt (disk_read t s p).keys (0, 0) hsort t (i - 1)
              hit (by omega)
            omega
          · have hieq : i - 1 = t := by omega
            rw [hieq] at hklo
            exact hklo
        · refine Or.inr ⟨i - (t + 1), ?_, ?_⟩
          · rw [hf_sizeR]
            omega
          · rw [hf_ptrR (i - (t + 1)) (by omega)]
            have hidx : t + 1 + (i - (t + 1)) = i := by omega
            rw [hidx]
            exact ContainsPair_congr t s _ k v h _ (hchagree i hile) hsub

theorem getD_set {α : Type} (l : List α) (i j : Nat) (a d : α) (hi : i < l.length) :
    (l.set i a).getD j d = if j = i then a else l.getD j d := by
  rcases Nat.lt_or_ge j l.length with hj | hj
  · have hj' : j < (l.set i a).length := by simpa using hj
    rw [List.getD_eq_getElem _ _ hj', List.getElem_set]
    by_cases he : i = j
    · rw [if_pos he, if_pos he.symm]
    · rw [if_neg he, if_neg (fun hc => he hc.symm), List.getD_eq_getElem _ _ hj]
  · have hj' : (l.set i a).length ≤ j := by simpa using hj
    rw [List.getD_eq_default _ _ hj', List.getD_eq_default _ _ hj, if_neg (by omega)]

theorem WFsubM_tighten (t : Nat) (s : TreeState) (h p : Nat) (lo hi : Option Nat)
    (m1 m2 : Nat) (hwf : WFsubM t s h p lo hi m1 = true)
    (hsz : (disk_read t s p).size ≤ m2) :
    WFsubM t s h p lo hi m2 = true := by
  cases h with
  | zero =>
    rw [WFsubM_zero] at hwf ⊢
    tauto
  | succ h =>
    rw [WFsubM_succ] at hwf ⊢
    tauto

theorem hole_positions_lt_count (t k : Nat) (s : TreeState) (top htop : Nat)
    (tlo thi : Option Nat) :
    ∀ (rest : List (Nat × Nat)) (p h : Nat) (lo hi : Option Nat),
      SpineChain t k s top htop tlo thi rest p h lo hi →
      ∀ q ∈ hole_positions t s rest h, q < s.count_of_node := by
  intro rest
  induction rest with
  | nil =>
    intro p h lo hi _ q hq
    simp [hole_positions] at hq
  | cons frame rest ih =>
    intro p h lo hi hch q hq
    obtain ⟨P, idx⟩ := frame
    obtain ⟨LO, HI, f1, f2, f3, f4, f5, f6, f7, f8, f9, f10, f11, f12, f13, f14⟩ := hch
    simp only [hole_positions, List.mem_cons, List.mem_append, List.mem_flatMap] at hq
    rcases hq with (rfl | ⟨jj, hjj, hq⟩) | hq
    · exact f3
    · have hj := List.mem_filter.mp hjj
      have hjr : jj ≤ (disk_read t s P).size := by
        have := List.mem_range.mp hj.1
        omega
      have hjne : jj ≠ idx := by simpa using hj.2
      exact positions_lt_count t s h _ _ _ _ (f13 jj hjr hjne) q hq
    · exact ih P (h + 1) LO HI f14 q hq

theorem split_parent_insert_eq (t : Nat) (s : TreeState) (P idx : Nat)
    (mk : Nat × Nat) (rp : Nat) :
    split_parent_insert t s P idx mk rp =
      (disk_write t s (Node.mk ((disk_read t s P).size + 1) (disk_read t s P).is_leaf
          (disk_read t s P).position_in_disk
          ((disk_read t s P).keys.insertIdx idx mk)
          (vec_resize ((disk_read t s P).pointers.insertIdx (idx + 1) rp)
            (maximum_keys_in_node t + 2))),
       Node.mk ((disk_read t s P).size + 1) (disk_read t s P).is_leaf
          (disk_read t s P).position_in_disk
          ((disk_read t s P).keys.insertIdx idx mk)
          (vec_resize ((disk_read t s P).pointers.insertIdx (idx + 1) rp)
            (maximum_keys_in_node t + 2))) := rfl

theorem split_root_case_eq (t : Nat) (s : TreeState) (cp rp : Nat) (mk : Nat × Nat) :
    split_root_case t s cp rp mk =
      print_root_position (disk_write t
        { s with count_of_node := s.count_of_node + 1,
                 position_root := s.count_of_node }
        (Node.mk 1 false s.count_of_node [mk]
          (vec_resize
            (((List.replicate (maximum_keys_in_node t + 2) 0).set 0 cp).set 1 rp)
            (maximum_keys_in_node t + 2)))) := rfl

/-- A found search along a live spine returns the stored value through
`at`. -/
theorem at_op_of_spine (t k v : Nat) (s : TreeState) (htop : Nat)
    (rest : List (Nat × Nat)) (P h : Nat) (LO HI : Option Nat)
    (hroot : s.position_root ≠ NONE_POSITION)
    (hch : SpineChain t k s s.position_root htop none none rest P h LO HI)
    (hwf : WFsubM t s h P LO HI (maximum_keys_in_node t) = true)
    (hcp : ContainsPair t s k v h P)
    (hfuel : htop + 1 ≤ s.count_of_node + 1) :
    at_op t s k = some v := by
  obtain ⟨path, q, i, hfp, hval⟩ := spine_search t k v s s.position_root htop rest P h
    LO HI (s.count_of_node + 1) [] hch hwf hcp hfuel
  unfold at_op find_path
  rw [if_neg hroot, hfp]
  show some ((disk_read t s q).keys.getD i (0, 0)).snd = some v
  rw [hval]

theorem split_parent_insert_count (t : Nat) (σ : TreeState) (P idx : Nat)
    (mk : Nat × Nat) (rp : Nat) :
    (split_parent_insert t σ P idx mk rp).fst.count_of_node = σ.count_of_node := rfl

theorem split_parent_insert_root (t : Nat) (σ : TreeState) (P idx : Nat)
    (mk : Nat × Nat) (rp : Nat) :
    (split_parent_insert t σ P idx mk rp).fst.position_root = σ.position_root := rfl

theorem split_parent_insert_snd_size (t : Nat) (σ : TreeState) (P idx : Nat)
    (mk : Nat × Nat) (rp : Nat) :
    (split_parent_insert t σ P idx mk rp).snd.size = (disk_read t σ P).size + 1 := rfl

theorem split_parent_insert_store_other (t : Nat) (σ : TreeState) (P idx : Nat)
    (mk : Nat × Nat) (rp : Nat) (q : Nat)
    (hpos : (disk_read t σ P).position_in_disk = P) (hq : q ≠ P) :
    (split_parent_insert t σ P idx mk rp).fst.store q = σ.store q := by
  rw [split_parent_insert_eq]
  dsimp only
  apply disk_write_store_other
  show q ≠ (disk_read t σ P).position_in_disk
  rw [hpos]
  exact hq

/-- Inserting the promoted median and the right sibling into the parent
keeps the parent a well-formed subtree one level up, with at most one key
of overflow. -/
theorem parent_insert_wf (t : Nat) (σ : TreeState) (P idx h : Nat)
    (LO HI : Option Nat) (mk : Nat × Nat) (rp : Nat)
    (hleaf : (disk_read t σ P).is_leaf = false)
    (hpos : (disk_read t σ P).position_in_disk = P)
    (hPc : P < σ.count_of_node)
    (hsz : (disk_read t σ P).size = (disk_read t σ P).keys.length)
    (hszle : (disk_read t σ P).size ≤ maximum_keys_in_node t)
    (hsort : sorted_keys (disk_read t σ P).keys = true)
    (hwinP : ∀ kv ∈ (disk_read t σ P).keys, in_window LO HI kv.fst = true)
    (hidx : idx ≤ (disk_read t σ P).size)
    (hmkw : in_window (child_lo (disk_read t σ P) LO idx)
      (child_hi (disk_read t σ P) HI idx) mk.fst = true)
    (hwfL : WFsubM t σ h ((disk_read t σ P).pointers.getD idx 0)
      (child_lo (disk_read t σ P) LO idx) (some mk.fst)
      (maximum_keys_in_node t) = true)
    (hwfR : WFsubM t σ h rp (some mk.fst) (child_hi (disk_read t σ P) HI idx)
      (maximum_keys_in_node t) = true)
    (hsib : ∀ j, j ≤ (disk_read t σ P).size → j ≠ idx →
      WFsubM t σ h ((disk_read t σ P).pointers.getD j 0)
        (child_lo (disk_read t σ P) LO j) (child_hi (disk_read t σ P) HI j)
        (maximum_keys_in_node t) = true)
    (hagP : ∀ j, j ≤ (disk_read t σ P).size →
      ∀ q ∈ positions t σ h ((disk_read t σ P).pointers.getD j 0), q ≠ P)
    (hagrp : ∀ q ∈ positions t σ h rp, q ≠ P) :
    WFsubM t (split_parent_insert t σ P idx mk rp).fst (h + 1) P LO HI
      (maximum_keys_in_node t + 1) = true := by
  set n := disk_read t σ P with hn
  have hidxk : idx ≤ n.keys.length := by omega
  have hptr_len : n.pointers.length = maximum_keys_in_node t + 2 :=
    disk_read_pointers_length t σ P
  have hread : disk_read t (split_parent_insert t σ P idx mk rp).fst P =
      Node.mk (n.size + 1) n.is_leaf P (n.keys.insertIdx idx mk)
        ((List.range (maximum_keys_in_node t + 2)).map
          (fun i => (vec_resize (n.pointers.insertIdx (idx + 1) rp)
            (maximum_keys_in_node t + 2)).getD i 0)) := by
    rw [split_parent_insert_eq]
    dsimp only
    set N : Node := Node.mk (n.size + 1) n.is_leaf n.position_in_disk
      (n.keys.insertIdx idx mk)
      (vec_resize (n.pointers.insertIdx (idx + 1) rp) (maximum_keys_in_node t + 2))
      with hN
    have hszeq : N.size = N.keys.length := by
      rw [hN]
      dsimp only
      rw [List.length_insertIdx idx n.keys hidxk]
      omega
    have hle2 : N.size ≤ maximum_keys_in_node t + 1 := by
      rw [hN]
      dsimp only
      omega
    have h2 := disk_read_write_same t σ N hszeq hle2
    have hNpos : N.position_in_disk = P := by
      rw [hN]
      exact hpos
    rw [hNpos] at h2
    rw [h2, hN]
  have hf_keys : (disk_read t (split_parent_insert t σ P idx mk rp).fst P).keys =
      n.keys.insertIdx idx mk := by
    rw [hread]
  have hf_size : (disk_read t (split_parent_insert t σ P idx mk rp).fst P).size =
      n.size + 1 := by
    rw [hread]
  have hf_leaf : (disk_read t (split_parent_insert t σ P idx mk rp).fst P).is_leaf =
      n.is_leaf := by
    rw [hread]
  have hf_pos : (disk_read t (split_parent_insert t σ P idx mk rp).fst
      P).position_in_disk = P := by
    rw [hread]
  have hf_getk : ∀ j, (disk_read t (split_parent_insert t σ P idx mk rp).fst
        P).keys.getD j (0, 0) =
      if j < idx then n.keys.getD j (0, 0) else if j = idx then mk
      else n.keys.getD (j - 1) (0, 0) := by
    intro j
    rw [hf_keys]
    exact getD_insertIdx mk (0, 0) n.keys idx hidxk j
  have hf_getp : ∀ j, j < maximum_keys_in_node t + 2 →
      (disk_read t (split_parent_insert t σ P idx mk rp).fst P).pointers.getD j 0 =
        (if j < idx + 1 then n.pointers.getD j 0 else if j = idx + 1 then rp
         else n.pointers.getD (j - 1) 0) := by
    intro j hj
    have h1 : (disk_read t (split_parent_insert t σ P idx mk rp).fst
        P).pointers.getD j 0 =
        (vec_resize (n.pointers.insertIdx (idx + 1) rp)
          (maximum_keys_in_node t + 2)).getD j 0 := by
      rw [hread]
      exact getD_range_map _ _ _ 0 hj
    rw [h1, vec_resize_getD _ _ _ hj,
      getD_insertIdx rp 0 n.pointers (idx + 1) (by omega) j]
  have hmk_lo : ∀ m1, m1 < idx → (n.keys.getD m1 (0, 0)).fst < mk.fst := by
    intro m1 hm1
    have hidx0 : idx ≠ 0 := by omega
    have hlow := ((in_window_split _ _ _).mp hmkw).1
    rw [child_lo, if_neg hidx0] at hlow
    simp only [window_lo, decide_eq_true_eq] at hlow
    rcases Nat.lt_or_ge m1 (idx - 1) with hm | hm
    · have hlt := sorted_getD_lt n.keys (0, 0) hsort m1 (idx - 1) hm (by omega)
      omega
    · have hme : m1 = idx - 1 := by omega
      rw [hme]
      exact hlow
  have hmk_hi : idx = n.keys.length ∨ mk.fst < (n.keys.getD idx (0, 0)).fst := by
    have hhigh := ((in_window_split _ _ _).mp hmkw).2
    rw [child_hi] at hhigh
    by_cases hlt : idx < n.size
    · right
      rw [if_pos hlt] at hhigh
      simpa [window_hi] using hhigh
    · left
      omega
  have hsortN := sorted_insertIdx n.keys mk.fst mk.snd idx hsort hidxk hmk_lo hmk_hi
  rw [Prod.mk.eta] at hsortN
  have hwinN : ∀ kv ∈ n.keys.insertIdx idx mk, in_window LO HI kv.fst = true := by
    intro kv hkv
    rcases (List.mem_insertIdx hidxk).mp hkv with heq | hmem
    · rw [heq]
      exact in_window_of_child n LO HI idx mk.fst hsz hwinP hidx hmkw
    · exact hwinP kv hmem
  have htrans : ∀ c (clo chi : Option Nat),
      (∀ q ∈ positions t σ h c, q ≠ P) →
      WFsubM t σ h c clo chi (maximum_keys_in_node t) = true →
      WFsubM t (split_parent_insert t σ P idx mk rp).fst h c clo chi
        (maximum_keys_in_node t) = true := by
    intro c clo chi hne hw
    apply WFsubM_congr t σ _
      (le_of_eq (split_parent_insert_count t σ P idx mk rp).symm)
    · intro q hq
      exact split_parent_insert_store_other t σ P idx mk rp q hpos (hne q hq)
    · exact hw
  rw [WFsubM_succ]
  refine ⟨?_, hf_pos, ?_, ?_, ?_, ?_, ?_, ?_, ?_⟩
  · rw [hf_leaf]
    exact hleaf
  · rw [split_parent_insert_count]
    exact hPc
  · rw [hf_size, hf_keys, List.length_insertIdx idx n.keys hidxk]
    omega
  · rw [hf_size]
    omega
  · rw [hf_size]
    omega
  · rw [hf_keys]
    exact hwinN
  · rw [hf_keys]
    exact hsortN
  · intro j hj
    rw [hf_size] at hj
    have hjmax : j < maximum_keys_in_node t + 2 := by omega
    rcases Nat.lt_trichotomy j (idx + 1) with hjc | hjc | hjc
    · have hptr : (disk_read t (split_parent_insert t σ P idx mk rp).fst
          P).pointers.getD j 0 = n.pointers.getD j 0 := by
        rw [hf_getp j hjmax, if_pos hjc]
      have hclo : child_lo (disk_read t (split_parent_insert t σ P idx mk rp).fst P)
            LO j = child_lo n LO j := by
        rw [child_lo, child_lo]
        by_cases hj0 : j = 0
        · rw [if_pos hj0, if_pos hj0]
        · rw [if_neg hj0, if_neg hj0, hf_getk (j - 1), if_pos (by omega)]
      by_cases hje : j = idx
      · have hchi : child_hi (disk_read t (split_parent_insert t σ P idx mk rp).fst P)
            HI j = some mk.fst := by
          rw [child_hi, hf_size, if_pos (by omega), hf_getk j, if_neg (by omega),
            if_pos hje]
        rw [hptr, hclo, hchi, hje]
        exact htrans _ _ _ (hagP idx hidx) hwfL
      · have hchi : child_hi (disk_read t (split_parent_insert t σ P idx mk rp).fst P)
            HI j = child_hi n HI j := by
          rw [child_hi, child_hi, hf_size, if_pos (by omega), if_pos (by omega),
            hf_getk j, if_pos (by omega)]
        rw [hptr, hclo, hchi]
        exact htrans _ _ _ (hagP j (by omega)) (hsib j (by omega) hje)
    · have hptr : (disk_read t (split_parent_insert t σ P idx mk rp).fst
          P).pointers.getD j 0 = rp := by
        rw [hf_getp j hjmax, if_neg (by omega), if_pos hjc]
      have hclo : child_lo (disk_read t (split_parent_insert t σ P idx mk rp).fst P)
            LO j = some mk.fst := by
        rw [child_lo, if_neg (by omega), hjc, hf_getk (idx + 1 - 1)]
        rw [show idx + 1 - 1 = idx from Nat.add_sub_cancel idx 1]
        rw [if_neg (by omega), if_pos rfl]
      have hchi : child_hi (disk_read t (split_parent_insert t σ P idx mk rp).fst P)
            HI j = child_hi n HI idx := by
        rw [child_hi, child_hi, hf_size, hjc]
        by_cases hlt : idx < n.size
        · rw [if_pos (by omega), if_pos hlt, hf_getk (idx + 1), if_neg (by omega),
            if_neg (by omega)]
          rw [show idx + 1 - 1 = idx from Nat.add_sub_cancel idx 1]
        · rw [if_neg (by omega), if_neg hlt]
      rw [hptr, hclo, hchi]
      exact htrans _ _ _ hagrp hwfR
    · have hptr : (disk_read t (split_parent_insert t σ P idx mk rp).fst
          P).pointers.getD j 0 = n.pointers.getD (j - 1) 0 := by
        rw [hf_getp j hjmax, if_neg (by omega), if_neg (by omega)]
      have hclo : child_lo (disk_read t (split_parent_insert t σ P idx mk rp).fst P)
            LO j = child_lo n LO (j - 1) := by
        rw [child_lo, child_lo, if_neg (by omega), if_neg (by omega),
          hf_getk (j - 1), if_neg (by omega), if_neg (by omega)]
      have hchi : child_hi (disk_read t (split_parent_insert t σ P idx mk rp).fst P)
            HI j = child_hi n HI (j - 1) := by
        rw [child_hi, child_hi, hf_size]
        by_cases hlt : j < n.size + 1
        · rw [if_pos hlt, if_pos (by omega), hf_getk j, if_neg (by omega),
            if_neg (by omega)]
        · rw [if_neg hlt, if_neg (by omega)]
      rw [hptr, hclo, hchi]
      exact htrans _ _ _ (hagP (j - 1) (by omega)) (hsib (j - 1) (by omega) (by omega))

theorem split_parent_insert_read (t : Nat) (σ : TreeState) (P idx : Nat)
    (mk : Nat × Nat) (rp : Nat)
    (hpos : (disk_read t σ P).position_in_disk = P)
    (hidxk : idx ≤ (disk_read t σ P).keys.length)
    (hle : (disk_read t σ P).size + 1 ≤ maximum_keys_in_node t + 1)
    (hszeq : (disk_read t σ P).size = (disk_read t σ P).keys.length) :
    disk_read t (split_parent_insert t σ P idx mk rp).fst P =
      Node.mk ((disk_read t σ P).size + 1) (disk_read t σ P).is_leaf P
        ((disk_read t σ P).keys.insertIdx idx mk)
        ((List.range (maximum_keys_in_node t + 2)).map
          (fun i => (vec_resize ((disk_read t σ P).pointers.insertIdx (idx + 1) rp)
            (maximum_keys_in_node t + 2)).getD i 0)) := by
  set n := disk_read t σ P with hn
  rw [split_parent_insert_eq]
  dsimp only
  set N : Node := Node.mk (n.size + 1) n.is_leaf n.position_in_disk
    (n.keys.insertIdx idx mk)
    (vec_resize (n.pointers.insertIdx (idx + 1) rp) (maximum_keys_in_node t + 2))
    with hN
  have hszeq2 : N.size = N.keys.length := by
    rw [hN]
    dsimp only
    rw [List.length_insertIdx idx n.keys hidxk]
    omega
  have hle2 : N.size ≤ maximum_keys_in_node t + 1 := by
    rw [hN]
    dsimp only
    omega
  have h2 := disk_read_write_same t σ N hszeq2 hle2
  have hNpos : N.position_in_disk = P := by
    rw [hN]
    exact hpos
  rw [hNpos] at h2
  rw [h2, hN]

/-- After the parent insertion, the parent still holds the searched pair:
it is either the promoted median itself or sits in the adjusted child. -/
theorem parent_insert_contains (t : Nat) (σ : TreeState) (P idx h : Nat)
    (mk : Nat × Nat) (rp : Nat) (k v : Nat)
    (hpos : (disk_read t σ P).position_in_disk = P)
    (hsz : (disk_read t σ P).size = (disk_read t σ P).keys.length)
    (hszle : (disk_read t σ P).size ≤ maximum_keys_in_node t)
    (hidx : idx ≤ (disk_read t σ P).size)
    (htri : (k < mk.fst ∧ ContainsPair t σ k v h
        ((disk_read t σ P).pointers.getD idx 0)) ∨
      (k = mk.fst ∧ v = mk.snd) ∨
      (mk.fst < k ∧ ContainsPair t σ k v h rp))
    (hagP : ∀ q ∈ positions t σ h ((disk_read t σ P).pointers.getD idx 0), q ≠ P)
    (hagrp : ∀ q ∈ positions t σ h rp, q ≠ P) :
    ContainsPair t (split_parent_insert t σ P idx mk rp).fst k v (h + 1) P := by
  set n := disk_read t σ P with hn
  have hidxk : idx ≤ n.keys.length := by omega
  have hread := split_parent_insert_read t σ P idx mk rp hpos hidxk
    (by rw [← hn]; omega) hsz
  have hf_keys : (disk_read t (split_parent_insert t σ P idx mk rp).fst P).keys =
      n.keys.insertIdx idx mk := by
    rw [hread]
  have hf_size : (disk_read t (split_parent_insert t σ P idx mk rp).fst P).size =
      n.size + 1 := by
    rw [hread]
  have hf_getk : ∀ j, (disk_read t (split_parent_insert t σ P idx mk rp).fst
        P).keys.getD j (0, 0) =
      if j < idx then n.keys.getD j (0, 0) else if j = idx then mk
      else n.keys.getD (j - 1) (0, 0) := by
    intro j
    rw [hf_keys]
    exact getD_insertIdx mk (0, 0) n.keys idx hidxk j
  have hf_getp : ∀ j, j < maximum_keys_in_node t + 2 →
      (disk_read t (split_parent_insert t σ P idx mk rp).fst P).pointers.getD j 0 =
        (if j < idx + 1 then n.pointers.getD j 0 else if j = idx + 1 then rp
         else n.pointers.getD (j - 1) 0) := by
    intro j hj
    have hptr_len : n.pointers.length = maximum_keys_in_node t + 2 :=
      disk_read_pointers_length t σ P
    have h1 : (disk_read t (split_parent_insert t σ P idx mk rp).fst
        P).pointers.getD j 0 =
        (vec_resize (n.pointers.insertIdx (idx + 1) rp)
          (maximum_keys_in_node t + 2)).getD j 0 := by
      rw [hread]
      exact getD_range_map _ _ _ 0 hj
    rw [h1, vec_resize_getD _ _ _ hj,
      getD_insertIdx rp 0 n.pointers (idx + 1) (by omega) j]
  rcases htri with ⟨hlt, hcp⟩ | ⟨hkeq, hveq⟩ | ⟨hgt, hcp⟩
  · refine Or.inr ⟨idx, ?_, ?_⟩
    · rw [hf_size]
      omega
    · rw [hf_getp idx (by omega), if_pos (by omega)]
      exact ContainsPair_congr t σ _ k v h _
        (fun q hq => split_parent_insert_store_other t σ P idx mk rp q hpos
          (hagP q hq)) hcp
  · refine Or.inl ⟨idx, ?_, ?_⟩
    · rw [hf_keys, List.length_insertIdx idx n.keys hidxk]
      omega
    · rw [hf_getk idx, if_neg (by omega), if_pos rfl, hkeq, hveq]
  · refine Or.inr ⟨idx + 1, ?_, ?_⟩
    · rw [hf_size]
      omega
    · rw [hf_getp (idx + 1) (by omega), if_neg (by omega), if_pos rfl]
      exact ContainsPair_congr t σ _ k v h rp
        (fun q hq => split_parent_insert_store_other t σ P idx mk rp q hpos
          (hagrp q hq)) hcp

/-- The parent write inserts the right sibling's subtree into the parent's
footprint and leaves everything else in place. -/
theorem parent_insert_positions (t : Nat) (σ : TreeState) (P idx h : Nat)
    (mk : Nat × Nat) (rp : Nat)
    (hpos : (disk_read t σ P).position_in_disk = P)
    (hsz : (disk_read t σ P).size = (disk_read t σ P).keys.length)
    (hszle : (disk_read t σ P).size ≤ maximum_keys_in_node t)
    (hidx : idx ≤ (disk_read t σ P).size)
    (hagP : ∀ j, j ≤ (disk_read t σ P).size →
      ∀ q ∈ positions t σ h ((disk_read t σ P).pointers.getD j 0), q ≠ P)
    (hagrp : ∀ q ∈ positions t σ h rp, q ≠ P) :
    (positions t (split_parent_insert t σ P idx mk rp).fst (h + 1) P).Perm
      (positions t σ h rp ++ positions t σ (h + 1) P) := by
  set n := disk_read t σ P with hn
  have hidxk : idx ≤ n.keys.length := by omega
  have hread := split_parent_insert_read t σ P idx mk rp hpos hidxk
    (by rw [← hn]; omega) hsz
  have hf_size : (disk_read t (split_parent_insert t σ P idx mk rp).fst P).size =
      n.size + 1 := by
    rw [hread]
  have hf_getp : ∀ j, j < maximum_keys_in_node t + 2 →
      (disk_read t (split_parent_insert t σ P idx mk rp).fst P).pointers.getD j 0 =
        (if j < idx + 1 then n.pointers.getD j 0 else if j = idx + 1 then rp
         else n.pointers.getD (j - 1) 0) := by
    intro j hj
    have hptr_len : n.pointers.length = maximum_keys_in_node t + 2 :=
      disk_read_pointers_length t σ P
    have h1 : (disk_read t (split_parent_insert t σ P idx mk rp).fst
        P).pointers.getD j 0 =
        (vec_resize (n.pointers.insertIdx (idx + 1) rp)
          (maximum_keys_in_node t + 2)).getD j 0 := by
      rw [hread]
      exact getD_range_map _ _ _ 0 hj
    rw [h1, vec_resize_getD _ _ _ hj,
      getD_insertIdx rp 0 n.pointers (idx + 1) (by omega) j]
  have hstore : ∀ q, q ≠ P →
      (split_parent_insert t σ P idx mk rp).fst.store q = σ.store q :=
    fun q hq => split_parent_insert_store_other t σ P idx mk rp q hpos hq
  have hlist : (List.range (n.size + 1 + 1)).map
      (fun i => (disk_read t (split_parent_insert t σ P idx mk rp).fst
        P).pointers.getD i 0) =
      ((List.range (n.size + 1)).map (fun i => n.pointers.getD i 0)).insertIdx
        (idx + 1) rp := by
    have hlc : ((List.range (n.size + 1)).map
        (fun i => n.pointers.getD i 0)).length = n.size + 1 := by
      rw [List.length_map, List.length_range]
    apply List.ext_getElem
    · rw [List.length_map, List.length_range,
        List.length_insertIdx (idx + 1) _ (by omega), hlc]
    · intro i h1 h2
      have hi2 : i < n.size + 1 + 1 := by
        rw [List.length_map, List.length_range] at h1
        exact h1
      rw [show (((List.range (n.size + 1 + 1)).map
          (fun i => (disk_read t (split_parent_insert t σ P idx mk rp).fst
            P).pointers.getD i 0))[i]) =
          ((List.range (n.size + 1 + 1)).map
          (fun i => (disk_read t (split_parent_insert t σ P idx mk rp).fst
            P).pointers.getD i 0)).getD i 0 from
        (List.getD_eq_getElem _ _ h1).symm]
      rw [show ((((List.range (n.size + 1)).map
          (fun i => n.pointers.getD i 0)).insertIdx (idx + 1) rp)[i]) =
          (((List.range (n.size + 1)).map
          (fun i => n.pointers.getD i 0)).insertIdx (idx + 1) rp).getD i 0 from
        (List.getD_eq_getElem _ _ h2).symm]
      rw [getD_range_map _ _ _ 0 hi2,
        getD_insertIdx rp 0 _ (idx + 1) (by omega) i]
      rw [hf_getp i (by omega)]
      by_cases h3 : i < idx + 1
      · rw [if_pos h3, if_pos h3, getD_range_map _ _ _ 0 (by omega)]
      · rw [if_neg h3, if_neg h3]
        by_cases h4 : i = idx + 1
        · rw [if_pos h4, if_pos h4]
        · rw [if_neg h4, if_neg h4, getD_range_map _ _ _ 0 (by omega)]
  have hP1 : positions t (split_parent_insert t σ P idx mk rp).fst (h + 1) P =
      P :: (List.range (n.size + 1 + 1)).flatMap
        (fun i => positions t (split_parent_insert t σ P idx mk rp).fst h
          ((disk_read t (split_parent_insert t σ P idx mk rp).fst
            P).pointers.getD i 0)) := by
    simp only [positions]
    rw [hf_size]
  rw [hP1]
  rw [show (List.range (n.size + 1 + 1)).flatMap
      (fun i => positions t (split_parent_insert t σ P idx mk rp).fst h
        ((disk_read t (split_parent_insert t σ P idx mk rp).fst
          P).pointers.getD i 0)) =
    ((List.range (n.size + 1 + 1)).map
      (fun i => (disk_read t (split_parent_insert t σ P idx mk rp).fst
        P).pointers.getD i 0)).flatMap
      (fun c => positions t (split_parent_insert t σ P idx mk rp).fst h c) from
    (flatMap_map_eq _ _ _).symm]
  rw [hlist]
  have hperm1 := (insertIdx_perm rp ((List.range (n.size + 1)).map
      (fun i => n.pointers.getD i 0)) (idx + 1) (by
        rw [List.length_map, List.length_range]
        omega)).flatMap_right
    (fun c => positions t (split_parent_insert t σ P idx mk rp).fst h c)
  refine ((hperm1.cons P).trans ?_)
  rw [List.flatMap_cons]
  have hrpeq : positions t (split_parent_insert t σ P idx mk rp).fst h rp =
      positions t σ h rp :=
    positions_congr t σ _ h rp (fun q hq => hstore q (hagrp q hq))
  have hrest : ((List.range (n.size + 1)).map
      (fun i => n.pointers.getD i 0)).flatMap
      (fun c => positions t (split_parent_insert t σ P idx mk rp).fst h c) =
      (List.range (n.size + 1)).flatMap
        (fun i => positions t σ h (n.pointers.getD i 0)) := by
    rw [flatMap_map_eq]
    apply List.flatMap_congr
    intro j hjr
    have hj1 : j < n.size + 1 := List.mem_range.mp hjr
    exact positions_congr t σ _ h _
      (fun q hq => hstore q (hagP j (by omega) q hq))
  rw [hrpeq, hrest]
  have hP0 : positions t σ (h + 1) P =
      P :: (List.range (n.size + 1)).flatMap
        (fun i => positions t σ h (n.pointers.getD i 0)) := by
    simp only [positions]
  rw [hP0]
  exact List.perm_middle.symm

theorem print_root_store (s : TreeState) :
    (print_root_position s).store = s.store := rfl

theorem disk_read_print_root (t : Nat) (s : TreeState) (q : Nat) :
    disk_read t (print_root_position s) q = disk_read t s q := rfl

/-- Growing a new root over the two halves: the new root is well formed
over the whole key space and still holds the searched pair. -/
theorem split_root_wf (t : Nat) (σ : TreeState) (cp rp h : Nat) (mk : Nat × Nat)
    (k v : Nat) (h2t : 2 ≤ t)
    (hwfL : WFsubM t σ h cp none (some mk.fst) (maximum_keys_in_node t) = true)
    (hwfR : WFsubM t σ h rp (some mk.fst) none (maximum_keys_in_node t) = true)
    (htri : (k < mk.fst ∧ ContainsPair t σ k v h cp) ∨
      (k = mk.fst ∧ v = mk.snd) ∨ (mk.fst < k ∧ ContainsPair t σ k v h rp)) :
    (split_root_case t σ cp rp mk).position_root = σ.count_of_node ∧
    (split_root_case t σ cp rp mk).count_of_node = σ.count_of_node + 1 ∧
    WFsubM t (split_root_case t σ cp rp mk) (h + 1) σ.count_of_node none none
      (maximum_keys_in_node t) = true ∧
    ContainsPair t (split_root_case t σ cp rp mk) k v (h + 1) σ.count_of_node := by
  have hmaxeq : maximum_keys_in_node t = 2 * t - 1 := rfl
  have hstore : ∀ q, q ≠ σ.count_of_node →
      (split_root_case t σ cp rp mk).store q = σ.store q := by
    intro q hq
    rw [split_root_case_eq, print_root_store,
      disk_write_store_other t _ _ q (by show q ≠ σ.count_of_node; exact hq)]
  have hread : disk_read t (split_root_case t σ cp rp mk) σ.count_of_node =
      Node.mk 1 false σ.count_of_node [mk]
        ((List.range (maximum_keys_in_node t + 2)).map
          (fun i => (vec_resize
            (((List.replicate (maximum_keys_in_node t + 2) 0).set 0 cp).set 1 rp)
            (maximum_keys_in_node t + 2)).getD i 0)) := by
    rw [split_root_case_eq, disk_read_print_root]
    exact disk_read_write_same t _ _ rfl
      (by show (1 : Nat) ≤ maximum_keys_in_node t + 1; omega)
  have hptr0 : (vec_resize
      (((List.replicate (maximum_keys_in_node t + 2) 0).set 0 cp).set 1 rp)
      (maximum_keys_in_node t + 2)).getD 0 0 = cp := by
    rw [vec_resize_getD _ _ _ (by omega),
      getD_set _ 1 0 rp 0 (by rw [List.length_set, List.length_replicate]; omega),
      if_neg (by omega),
      getD_set _ 0 0 cp 0 (by rw [List.length_replicate]; omega), if_pos rfl]
  have hptr1 : (vec_resize
      (((List.replicate (maximum_keys_in_node t + 2) 0).set 0 cp).set 1 rp)
      (maximum_keys_in_node t + 2)).getD 1 0 = rp := by
    rw [vec_resize_getD _ _ _ (by omega),
      getD_set _ 1 1 rp 0 (by rw [List.length_set, List.length_replicate]; omega),
      if_pos rfl]
  have hf_ptr : ∀ j, j < maximum_keys_in_node t + 2 →
      (disk_read t (split_root_case t σ cp rp mk) σ.count_of_node).pointers.getD j 0 =
        (vec_resize
          (((List.replicate (maximum_keys_in_node t + 2) 0).set 0 cp).set 1 rp)
          (maximum_keys_in_node t + 2)).getD j 0 := by
    intro j hj
    rw [hread]
    exact getD_range_map _ _ _ 0 hj
  have hcnt' : (split_root_case t σ cp rp mk).count_of_node =
      σ.count_of_node + 1 := rfl
  have htransfer : ∀ c (clo chi : Option Nat),
      WFsubM t σ h c clo chi (maximum_keys_in_node t) = true →
      WFsubM t (split_root_case t σ cp rp mk) h c clo chi
        (maximum_keys_in_node t) = true := by
    intro c clo chi hw
    apply WFsubM_congr t σ _ (by rw [hcnt']; omega)
    · intro q hq
      apply hstore
      have := positions_lt_count t σ h c clo chi _ hw q hq
      omega
    · exact hw
  refine ⟨rfl, rfl, ?_, ?_⟩
  · rw [WFsubM_succ]
    refine ⟨?_, ?_, ?_, ?_, ?_, ?_, ?_, ?_, ?_⟩
    · rw [hread]
    · rw [hread]
    · rw [hcnt']
      omega
    · rw [hread]
      rfl
    · rw [hread]
    · rw [hread]
      show (1 : Nat) ≤ maximum_keys_in_node t
      omega
    · rw [hread]
      intro kv _
      rfl
    · rw [hread]
      rfl
    · intro j hj
      rw [hread] at hj
      by_cases hj0 : j = 0
      · subst hj0
        have hclo : child_lo (disk_read t (split_root_case t σ cp rp mk)
            σ.count_of_node) none 0 = none := by
          rw [child_lo, if_pos rfl]
        have hchi : child_hi (disk_read t (split_root_case t σ cp rp mk)
            σ.count_of_node) none 0 = some mk.fst := by
          rw [child_hi, hread]
          rfl
        rw [hf_ptr 0 (by omega), hptr0, hclo, hchi]
        exact htransfer cp none (some mk.fst) hwfL
      · have hj1 : j = 1 := by
          have hj' : j ≤ 1 := hj
          omega
        subst hj1
        have hclo : child_lo (disk_read t (split_root_case t σ cp rp mk)
            σ.count_of_node) none 1 = some mk.fst := by
          rw [child_lo, if_neg (by omega), hread]
          rfl
        have hchi : child_hi (disk_read t (split_root_case t σ cp rp mk)
            σ.count_of_node) none 1 = none := by
          rw [child_hi, hread]
          rfl
        rw [hf_ptr 1 (by omega), hptr1, hclo, hchi]
        exact htransfer rp (some mk.fst) none hwfR
  · have htr2 : ∀ c, WFsubM t σ h c none (some mk.fst) (maximum_keys_in_node t)
          = true ∨
        WFsubM t σ h c (some mk.fst) none (maximum_keys_in_node t) = true →
        ContainsPair t σ k v h c →
        ContainsPair t (split_root_case t σ cp rp mk) k v h c := by
      intro c hw hc
      apply ContainsPair_congr t σ _ k v h c
      · intro q hq
        apply hstore
        rcases hw with hw | hw
        · have := positions_lt_count t σ h c none (some mk.fst) _ hw q hq
          omega
        · have := positions_lt_count t σ h c (some mk.fst) none _ hw q hq
          omega
      · exact hc
    rcases htri with ⟨hlt, hcp⟩ | ⟨hkeq, hveq⟩ | ⟨hgt, hcp⟩
    · refine Or.inr ⟨0, Nat.zero_le _, ?_⟩
      rw [hf_ptr 0 (by omega), hptr0]
      exact htr2 cp (Or.inl hwfL) hcp
    · refine Or.inl ⟨0, ?_, ?_⟩
      · rw [hread]
        exact Nat.one_pos
      · rw [hread]
        show mk = (k, v)
        rw [hkeq, hveq]
    · refine Or.inr ⟨1, ?_, ?_⟩
      · rw [hread]
      · rw [hf_ptr 1 (by omega), hptr1]
        exact htr2 rp (Or.inr hwfR) hcp

/-- The split cascade of `insert`: starting from an overflowing node that
holds the searched pair, with a live spine above it, `split_node` produces a
state in which `at` finds the pair. -/
theorem split_node_finds (t k v : Nat) (h2t : 2 ≤ t) :
    ∀ (rest : List (Nat × Nat)) (s : TreeState) (p j h : Nat) (lo hi : Option Nat),
      WFsubM t s h p lo hi (maximum_keys_in_node t + 1) = true →
      (disk_read t s p).size = maximum_keys_in_node t + 1 →
      ContainsPair t s k v h p →
      SpineChain t k s s.position_root (h + rest.length) none none rest p h lo hi →
      (positions t s h p ++ hole_positions t s rest h).Nodup →
      s.position_root ≠ NONE_POSITION →
      h + rest.length + 1 ≤ s.count_of_node →
      s.count_of_node + 2 * (rest.length + 1) < NONE_POSITION →
      at_op t (split_node t s ((p, j) :: rest)) k = some v := by
  intro rest
  induction rest with
  | nil =>
    intro s p j h lo hi hwf hfull hcp hch hnd hroot hhc hNONE
    obtain ⟨hp, hh0, hlo, hhi⟩ := hch
    subst hlo
    subst hhi
    have h0len : ([] : List (Nat × Nat)).length = 0 := rfl
    have hnd' : (positions t s h p).Nodup := by
      simpa [hole_positions] using hnd
    obtain ⟨hpos, hplt, hsz, hszle, hwin, hsort⟩ := WFsubM_fields t s h p none none _ hwf
    have hmaxeq : maximum_keys_in_node t = 2 * t - 1 := rfl
    have hlen2 : (disk_read t s p).keys.length = 2 * t := by omega
    have hmid := split_core_mid t s p hlen2
    have hrp := split_core_rightpos t s p
    have hs2cnt := split_core_count t s p
    have hwfL := split_wf_left t s h p none none h2t hwf hfull hnd'
    have hwfR := split_wf_right t s h p none none h2t hwf hfull hnd'
    have htri := split_contains t s h p none none k v h2t hwf hfull hnd' hcp
    have hstep : split_node t s [(p, j)] =
        split_root_case t (split_core t s p).fst p (split_core t s p).snd.snd
          (split_core t s p).snd.fst := rfl
    rw [hstep, hmid, hrp]
    obtain ⟨hroot5, hcnt5, hwf5, hcp5⟩ := split_root_wf t (split_core t s p).fst p
      s.count_of_node h ((disk_read t s p).keys.getD t (0, 0)) k v h2t hwfL hwfR htri
    rw [← hroot5] at hwf5 hcp5
    apply at_op_of_spine t k v _ (h + 1) []
      ((split_root_case t (split_core t s p).fst p s.count_of_node
        ((disk_read t s p).keys.getD t (0, 0))).position_root)
      (h + 1) none none
    · rw [hroot5, hs2cnt]
      intro hcon
      omega
    · exact SpineChain_base t k _ _ (h + 1) none none
    · exact hwf5
    · exact hcp5
    · rw [hcnt5, hs2cnt]
      omega
  | cons frame rest ih =>
    intro s p j h lo hi hwf hfull hcp hch hnd hroot hhc hNONE
    obtain ⟨P, idx⟩ := frame
    have hchfull : SpineChain t k s s.position_root (h + ((P, idx) :: rest).length)
        none none ((P, idx) :: rest) p h lo hi := hch
    obtain ⟨LO, HI, f1, f2, f3, f4, f5, f6, f7, f8, f9, f10, f11, f12, f13, f14⟩ := hch
    have hconslen : ((P, idx) :: rest).length = rest.length + 1 := rfl
    obtain ⟨hpos, hplt, hsz, hszle, hwin, hsort⟩ := WFsubM_fields t s h p lo hi _ hwf
    have hmaxeq : maximum_keys_in_node t = 2 * t - 1 := rfl
    have hlen2 : (disk_read t s p).keys.length = 2 * t := by omega
    have hndp : (positions t s h p).Nodup := (List.nodup_append.mp hnd).1
    have hndh : (hole_positions t s ((P, idx) :: rest) h).Nodup :=
      (List.nodup_append.mp hnd).2.1
    have hdisj : ∀ q, q ∈ positions t s h p →
        q ∈ hole_positions t s ((P, idx) :: rest) h → False := by
      intro q h1 h2
      exact (List.nodup_append.mp hnd).2.2 h1 h2
    have hidxle : idx ≤ (disk_read t s P).size := by
      have hle := find_index_fst_le k (disk_read t s P)
      rw [f9] at hle
      simp only at hle
      omega
    have hPmemhole : P ∈ hole_positions t s ((P, idx) :: rest) h :=
      mem_hole_positions_head t s P idx h rest
    have hmid := split_core_mid t s p hlen2
    have hrp := split_core_rightpos t s p
    have hs2cnt := split_core_count t s p
    have hs2root := split_core_root t s p
    have hwfL := split_wf_left t s h p lo hi h2t hwf hfull hndp
    have hwfR := split_wf_right t s h p lo hi h2t hwf hfull hndp
    have htri := split_contains t s h p lo hi k v h2t hwf hfull hndp hcp
    have hperm := split_positions_perm t s h p lo hi h2t hwf hfull hndp
    have hmkw := split_mk_window t s h p lo hi h2t hwf hfull
    have hs2store := split_core_store_other t s p hpos
    have hhole_lt : ∀ q ∈ hole_positions t s ((P, idx) :: rest) h,
        q < s.count_of_node :=
      hole_positions_lt_count t k s s.position_root _ none none
        ((P, idx) :: rest) p h lo hi hchfull
    have hhole_ag : ∀ q ∈ hole_positions t s ((P, idx) :: rest) h,
        (split_core t s p).fst.store q = s.store q := by
      intro q hq
      apply hs2store
      · intro he
        exact hdisj p (mem_positions_self t s h p) (he ▸ hq)
      · intro he
        have := hhole_lt q hq
        omega
    have hs2P : disk_read t (split_core t s p).fst P = disk_read t s P :=
      disk_read_congr t s _ P (hhole_ag P hPmemhole)
    have hrest_ag : ∀ q ∈ hole_positions t s rest (h + 1),
        (split_core t s p).fst.store q = s.store q :=
      fun q hq => hhole_ag q (mem_hole_positions_rest t s P idx h q rest hq)
    have hP_not_rest : P ∉ hole_positions t s rest (h + 1) := by
      intro hmem
      have hndh' := hndh
      simp only [hole_positions] at hndh'
      exact (List.nodup_append.mp hndh').2.2 (List.mem_cons_self P _) hmem
    have hP_not_flat : ∀ q ∈ ((List.range ((disk_read t s P).size + 1)).filter
        (fun j2 => j2 ≠ idx)).flatMap
        (fun j2 => positions t s h ((disk_read t s P).pointers.getD j2 0)),
        q ≠ P := by
      intro q hq he
      have hndh' := hndh
      simp only [hole_positions] at hndh'
      have h1 := (List.nodup_append.mp hndh').1
      rw [List.nodup_cons] at h1
      exact h1.1 (he ▸ hq)
    have f1' : (disk_read t (split_core t s p).fst P).is_leaf = false := by
      rw [hs2P]
      exact f1
    have f2' : (disk_read t (split_core t s p).fst P).position_in_disk = P := by
      rw [hs2P]
      exact f2
    have hPc' : P < (split_core t s p).fst.count_of_node := by
      rw [hs2cnt]
      omega
    have f4' : (disk_read t (split_core t s p).fst P).size =
        (disk_read t (split_core t s p).fst P).keys.length := by
      rw [hs2P]
      exact f4
    have f6' : (disk_read t (split_core t s p).fst P).size ≤
        maximum_keys_in_node t := by
      rw [hs2P]
      exact f6
    have f7' : sorted_keys (disk_read t (split_core t s p).fst P).keys = true := by
      rw [hs2P]
      exact f7
    have f8' : ∀ kv ∈ (disk_read t (split_core t s p).fst P).keys,
        in_window LO HI kv.fst = true := by
      rw [hs2P]
      exact f8
    have hidx2 : idx ≤ (disk_read t (split_core t s p).fst P).size := by
      rw [hs2P]
      exact hidxle
    have hmkw' : in_window (child_lo (disk_read t (split_core t s p).fst P) LO idx)
        (child_hi (disk_read t (split_core t s p).fst P) HI idx)
        ((disk_read t s p).keys.getD t (0, 0)).fst = true := by
      rw [hs2P, ← f11, ← f12]
      exact hmkw
    have hwfL2 : WFsubM t (split_core t s p).fst h
        ((disk_read t (split_core t s p).fst P).pointers.getD idx 0)
        (child_lo (disk_read t (split_core t s p).fst P) LO idx)
        (some ((disk_read t s p).keys.getD t (0, 0)).fst)
        (maximum_keys_in_node t) = true := by
      rw [hs2P, f10, ← f11]
      exact hwfL
    have hwfR2 : WFsubM t (split_core t s p).fst h s.count_of_node
        (some ((disk_read t s p).keys.getD t (0, 0)).fst)
        (child_hi (disk_read t (split_core t s p).fst P) HI idx)
        (maximum_keys_in_node t) = true := by
      rw [hs2P, ← f12]
      exact hwfR
    have hsib' : ∀ j2, j2 ≤ (disk_read t (split_core t s p).fst P).size → j2 ≠ idx →
        WFsubM t (split_core t s p).fst h
          ((disk_read t (split_core t s p).fst P).pointers.getD j2 0)
          (child_lo (disk_read t (split_core t s p).fst P) LO j2)
          (child_hi (disk_read t (split_core t s p).fst P) HI j2)
          (maximum_keys_in_node t) = true := by
      intro j2 hj2 hjne
      rw [hs2P] at hj2 ⊢
      have hf := f13 j2 hj2 hjne
      rw [WFsub] at hf
      apply WFsubM_congr t s _ (by rw [hs2cnt]; omega)
      · intro q hq
        exact hhole_ag q (mem_hole_positions_sib t s P idx h j2 q rest hj2 hjne hq)
      · exact hf
    have hLR : ∀ q, q ∈ positions t (split_core t s p).fst h p ∨
        q ∈ positions t (split_core t s p).fst h s.count_of_node →
        q = s.count_of_node ∨ q ∈ positions t s h p := by
      intro q hq
      have hm := hperm.subset (List.mem_append.mpr hq)
      simpa using hm
    have hagP' : ∀ j2, j2 ≤ (disk_read t (split_core t s p).fst P).size →
        ∀ q ∈ positions t (split_core t s p).fst h
          ((disk_read t (split_core t s p).fst P).pointers.getD j2 0), q ≠ P := by
      intro j2 hj2 q hq
      rw [hs2P] at hj2 hq
      by_cases hje : j2 = idx
      · subst hje
        rw [f10] at hq
        rcases hLR q (Or.inl hq) with rfl | hq2
        · omega
        · intro he
          exact hdisj P (he ▸ hq2) hPmemhole
      · rw [positions_congr t s (split_core t s p).fst h _ (fun q2 hq2 =>
          hhole_ag q2 (mem_hole_positions_sib t s P idx h j2 q2 rest hj2 hje hq2))]
          at hq
        exact hP_not_flat q (List.mem_flatMap.mpr
          ⟨j2, List.mem_filter.mpr ⟨List.mem_range.mpr (by omega), by simpa using hje⟩,
            hq⟩)
    have hagrp' : ∀ q ∈ positions t (split_core t s p).fst h s.count_of_node,
        q ≠ P := by
      intro q hq
      rcases hLR q (Or.inr hq) with rfl | hq2
      · omega
      · intro he
        exact hdisj P (he ▸ hq2) hPmemhole
    have hwfP := parent_insert_wf t (split_core t s p).fst P idx h LO HI
      ((disk_read t s p).keys.getD t (0, 0)) s.count_of_node
      f1' f2' hPc' f4' f6' f7' f8' hidx2 hmkw' hwfL2 hwfR2 hsib' hagP' hagrp'
    have htri2 : (k < ((disk_read t s p).keys.getD t (0, 0)).fst ∧
        ContainsPair t (split_core t s p).fst k v h
          ((disk_read t (split_core t s p).fst P).pointers.getD idx 0)) ∨
        (k = ((disk_read t s p).keys.getD t (0, 0)).fst ∧
          v = ((disk_read t s p).keys.getD t (0, 0)).snd) ∨
        (((disk_read t s p).keys.getD t (0, 0)).fst < k ∧
          ContainsPair t (split_core t s p).fst k v h s.count_of_node) := by
      rw [hs2P, f10]
      exact htri
    have hcpP := parent_insert_contains t (split_core t s p).fst P idx h
      ((disk_read t s p).keys.getD t (0, 0)) s.count_of_node k v
      f2' f4' f6' hidx2 htri2 (fun q hq => hagP' idx hidx2 q hq) hagrp'
    have hpermP := parent_insert_positions t (split_core t s p).fst P idx h
      ((disk_read t s p).keys.getD t (0, 0)) s.count_of_node
      f2' f4' f6' hidx2 hagP' hagrp'
    have hposS : positions t s (h + 1) P =
        P :: (List.range ((disk_read t s P).size + 1)).flatMap
          (fun j2 => positions t s h ((disk_read t s P).pointers.getD j2 0)) := by
      simp only [positions]
    have hx1 := flatMap_range_extract
      (fun j2 => positions t s h ((disk_read t s P).pointers.getD j2 0))
      ((disk_read t s P).size + 1) idx (by omega)
    simp only at hx1
    rw [f10] at hx1
    have hPperm : (positions t s (h + 1) P).Perm
        (P :: (positions t s h p ++
          ((List.range ((disk_read t s P).size + 1)).filter
            (fun j2 => j2 ≠ idx)).flatMap
            (fun j2 => positions t s h ((disk_read t s P).pointers.getD j2 0)))) := by
      rw [hposS]
      exact hx1.cons P
    have hposS2 : positions t (split_core t s p).fst (h + 1) P =
        P :: (List.range ((disk_read t s P).size + 1)).flatMap
          (fun j2 => positions t (split_core t s p).fst h
            ((disk_read t s P).pointers.getD j2 0)) := by
      simp only [positions, hs2P]
    have hx2 := flatMap_range_extract
      (fun j2 => positions t (split_core t s p).fst h
        ((disk_read t s P).pointers.getD j2 0))
      ((disk_read t s P).size + 1) idx (by omega)
    simp only at hx2
    rw [f10] at hx2
    have hfilter2 : ((List.range ((disk_read t s P).size + 1)).filter
        (fun j2 => j2 ≠ idx)).flatMap
        (fun j2 => positions t (split_core t s p).fst h
          ((disk_read t s P).pointers.getD j2 0)) =
        ((List.range ((disk_read t s P).size + 1)).filter
          (fun j2 => j2 ≠ idx)).flatMap
          (fun j2 => positions t s h ((disk_read t s P).pointers.getD j2 0)) := by
      apply List.flatMap_congr
      intro j2 hj2
      have hj2' := List.mem_filter.mp hj2
      have hj2r : j2 ≤ (disk_read t s P).size := by
        have := List.mem_range.mp hj2'.1
        omega
      have hj2ne : j2 ≠ idx := by simpa using hj2'.2
      exact positions_congr t s _ h _ (fun q hq =>
        hhole_ag q (mem_hole_positions_sib t s P idx h j2 q rest hj2r hj2ne hq))
    rw [hfilter2] at hx2
    have hs3perm : (positions t (split_parent_insert t (split_core t s p).fst P idx
        ((disk_read t s p).keys.getD t (0, 0)) s.count_of_node).fst (h + 1) P).Perm
        (s.count_of_node :: positions t s (h + 1) P) := by
      have hA := hpermP
      rw [hposS2] at hA
      have hB : (positions t (split_core t s p).fst h s.count_of_node ++
          (P :: (List.range ((disk_read t s P).size + 1)).flatMap
            (fun j2 => positions t (split_core t s p).fst h
              ((disk_read t s P).pointers.getD j2 0)))).Perm
          (P :: (positions t (split_core t s p).fst h s.count_of_node ++
            (List.range ((disk_read t s P).size + 1)).flatMap
              (fun j2 => positions t (split_core t s p).fst h
                ((disk_read t s P).pointers.getD j2 0)))) := List.perm_middle
      have hC := (hx2.append_left
        (positions t (split_core t s p).fst h s.count_of_node)).cons P
      have hD : (positions t (split_core t s p).fst h s.count_of_node ++
          (positions t (split_core t s p).fst h p ++
            ((List.range ((disk_read t s P).size + 1)).filter
              (fun j2 => j2 ≠ idx)).flatMap
              (fun j2 => positions t s h
                ((disk_read t s P).pointers.getD j2 0)))).Perm
          ((s.count_of_node :: positions t s h p) ++
            ((List.range ((disk_read t s P).size + 1)).filter
              (fun j2 => j2 ≠ idx)).flatMap
              (fun j2 => positions t s h ((disk_read t s P).pointers.getD j2 0))) := by
        rw [← List.append_assoc]
        exact ((List.perm_append_comm).append_right _).trans (hperm.append_right _)
      have hE := hD.cons P
      have hswap : (P :: s.count_of_node :: (positions t s h p ++
          ((List.range ((disk_read t s P).size + 1)).filter
            (fun j2 => j2 ≠ idx)).flatMap
            (fun j2 => positions t s h
              ((disk_read t s P).pointers.getD j2 0)))).Perm
          (s.count_of_node :: P :: (positions t s h p ++
            ((List.range ((disk_read t s P).size + 1)).filter
              (fun j2 => j2 ≠ idx)).flatMap
              (fun j2 => positions t s h
                ((disk_read t s P).pointers.getD j2 0)))) :=
        List.Perm.swap s.count_of_node P _
      have hlast := (hPperm.symm).cons s.count_of_node
      exact hA.trans (hB.trans (hC.trans (hE.trans (hswap.trans hlast))))
    have hall_lt : ∀ q ∈ positions t s (h + 1) P, q < s.count_of_node := by
      intro q hq
      have hq2 := hPperm.subset hq
      rcases List.mem_cons.mp hq2 with rfl | hq3
      · exact f3
      · rcases List.mem_append.mp hq3 with hq4 | hq4
        · exact positions_lt_count t s h p lo hi _ hwf q hq4
        · obtain ⟨j2, hj2, hq5⟩ := List.mem_flatMap.mp hq4
          have hj2' := List.mem_filter.mp hj2
          exact positions_lt_count t s h _ _ _ _
            (f13 j2 (by have := List.mem_range.mp hj2'.1; omega)
              (by simpa using hj2'.2)) q hq5
    have hcomb_perm : (positions t s (h + 1) P ++
        hole_positions t s rest (h + 1)).Perm
        (positions t s h p ++ hole_positions t s ((P, idx) :: rest) h) := by
      refine (hPperm.append_right _).trans ?_
      simp only [hole_positions, List.cons_append]
      rw [List.append_assoc]
      exact List.perm_middle.symm
    have hnd_new : (positions t s (h + 1) P ++
        hole_positions t s rest (h + 1)).Nodup :=
      (hcomb_perm.nodup_iff).mpr hnd
    have hhole3_ag : ∀ q ∈ hole_positions t s rest (h + 1),
        (split_parent_insert t (split_core t s p).fst P idx
          ((disk_read t s p).keys.getD t (0, 0)) s.count_of_node).fst.store q =
          s.store q := by
      intro q hq
      have h1 : (split_parent_insert t (split_core t s p).fst P idx
          ((disk_read t s p).keys.getD t (0, 0)) s.count_of_node).fst.store q =
          (split_core t s p).fst.store q := by
        apply split_parent_insert_store_other t (split_core t s p).fst P idx _ _ q f2'
        intro he
        exact hP_not_rest (he ▸ hq)
      rw [h1]
      exact hrest_ag q hq
    have hhole3 : hole_positions t (split_parent_insert t (split_core t s p).fst P idx
        ((disk_read t s p).keys.getD t (0, 0)) s.count_of_node).fst rest (h + 1) =
        hole_positions t s rest (h + 1) :=
      hole_positions_congr t s _ rest (h + 1) hhole3_ag
    have hnd3 : (positions t (split_parent_insert t (split_core t s p).fst P idx
        ((disk_read t s p).keys.getD t (0, 0)) s.count_of_node).fst (h + 1) P ++
        hole_positions t (split_parent_insert t (split_core t s p).fst P idx
          ((disk_read t s p).keys.getD t (0, 0)) s.count_of_node).fst rest
          (h + 1)).Nodup := by
      rw [hhole3]
      refine ((hs3perm.append_right _).nodup_iff).mpr ?_
      simp only [List.cons_append]
      rw [List.nodup_cons]
      constructor
      · intro hmem
        rcases List.mem_append.mp hmem with h1 | h1
        · have := hall_lt _ h1
          omega
        · have := hhole_lt _ (mem_hole_positions_rest t s P idx h _ rest h1)
          omega
      · exact hnd_new
    have hcnt3 : (split_parent_insert t (split_core t s p).fst P idx
        ((disk_read t s p).keys.getD t (0, 0)) s.count_of_node).fst.count_of_node =
        s.count_of_node + 1 := by
      rw [split_parent_insert_count, hs2cnt]
    have hroot3 : (split_parent_insert t (split_core t s p).fst P idx
        ((disk_read t s p).keys.getD t (0, 0)) s.count_of_node).fst.position_root =
        s.position_root := by
      rw [split_parent_insert_root, hs2root]
    have hch3 : SpineChain t k (split_parent_insert t (split_core t s p).fst P idx
        ((disk_read t s p).keys.getD t (0, 0)) s.count_of_node).fst
        s.position_root (h + 1 + rest.length) none none rest P (h + 1) LO HI := by
      have hlencons : h + ((P, idx) :: rest).length = h + 1 + rest.length := by
        rw [hconslen]
        omega
      rw [hlencons] at f14
      exact SpineChain_congr t k s _ s.position_root _ none none
        (by rw [hcnt3]; omega) rest P (h + 1) LO HI hhole3_ag f14
    have hsndsz : (split_parent_insert t (split_core t s p).fst P idx
        ((disk_read t s p).keys.getD t (0, 0)) s.count_of_node).snd.size =
        (disk_read t s P).size + 1 := by
      rw [split_parent_insert_snd_size, hs2P]
    have hfull3 : (disk_read t (split_parent_insert t (split_core t s p).fst P idx
        ((disk_read t s p).keys.getD t (0, 0)) s.count_of_node).fst P).size =
        (disk_read t s P).size + 1 := by
      have hr := split_parent_insert_read t (split_core t s p).fst P idx
        ((disk_read t s p).keys.getD t (0, 0)) s.count_of_node f2'
        (by rw [hs2P, ← f4]; exact hidxle) (by rw [hs2P]; omega) f4'
      rw [hr]
      show (disk_read t (split_core t s p).fst P).size + 1 = (disk_read t s P).size + 1
      rw [hs2P]
    have hstep : split_node t s ((p, j) :: (P, idx) :: rest) =
        (if (split_parent_insert t (split_core t s p).fst P idx
              (split_core t s p).snd.fst (split_core t s p).snd.snd).snd.size >
            maximum_keys_in_node t then
          split_node t (split_parent_insert t (split_core t s p).fst P idx
            (split_core t s p).snd.fst (split_core t s p).snd.snd).fst
            ((P, idx) :: rest)
        else (split_parent_insert t (split_core t s p).fst P idx
          (split_core t s p).snd.fst (split_core t s p).snd.snd).fst) := rfl
    rw [hstep, hmid, hrp]
    by_cases hover : maximum_keys_in_node t < (disk_read t s P).size + 1
    · rw [if_pos (by rw [hsndsz]; exact hover)]
      apply ih _ P idx (h + 1) LO HI hwfP
        (by rw [hfull3]; omega) hcpP (by rw [← hroot3] at hch3; exact hch3) hnd3
        (by rw [hroot3]; exact hroot)
        (by rw [hcnt3]; rw [hconslen] at hhc; omega)
        (by rw [hcnt3]; rw [hconslen] at hNONE; omega)
    · rw [if_neg (by rw [hsndsz]; exact hover)]
      rw [← hroot3] at hch3
      apply at_op_of_spine t k v _ (h + 1 + rest.length) rest P (h + 1) LO HI
        (by rw [hroot3]; exact hroot) hch3
      · apply WFsubM_tighten t _ (h + 1) P LO HI (maximum_keys_in_node t + 1) _ hwfP
        rw [hfull3]
        omega
      · exact hcpP
      · rw [hcnt3]
        rw [hconslen] at hhc
        omega

theorem SpineChain_length (t k : Nat) (s : TreeState) (top htop : Nat)
    (tlo thi : Option Nat) :
    ∀ (rest : List (Nat × Nat)) (p h : Nat) (lo hi : Option Nat),
      SpineChain t k s top htop tlo thi rest p h lo hi →
      htop = h + rest.length := by
  intro rest
  induction rest with
  | nil =>
    intro p h lo hi hch
    obtain ⟨_, hh, _, _⟩ := hch
    simpa using hh.symm
  | cons frame rest ih =>
    intro p h lo hi hch
    obtain ⟨P, idx⟩ := frame
    obtain ⟨LO, HI, _, _, _, _, _, _, _, _, _, _, _, _, _, f14⟩ := hch
    have hih := ih P (h + 1) LO HI f14
    simp only [List.length_cons]
    omega

/-- C4: on a well-formed non-empty tree, `insert` of an absent key writes
the leaf (splitting as needed), reports success, and a subsequent `at`
returns the inserted value. -/
theorem C4_insert_then_at (t : Nat) (s : TreeState) (h k v : Nat)
    (hwf : WF t s h = true)
    (habs : at_op t s k = none) :
    ∃ s', insert t s (k, v) = some (s', true) ∧ at_op t s' k = some v := by
  rw [WF, Bool.and_eq_true, Bool.and_eq_true, Bool.and_eq_true, Bool.and_eq_true,
    Bool.and_eq_true, decide_eq_true_eq, decide_eq_true_eq, decide_eq_true_eq,
    decide_eq_true_eq, decide_eq_true_eq] at hwf
  obtain ⟨⟨⟨⟨⟨h2t, hroot⟩, hwfsub⟩, hnd⟩, hhc⟩, hN⟩ := hwf
  rcases find_path_spine t k s h s.position_root none none (s.count_of_node + 1) []
      hwfsub rfl (by omega) with
    ⟨path, q, i, hfp⟩ | ⟨ℓ, i, restS, llo, lhi, hfp, hleafb, hwfleaf, hwinl, hfi, hchain⟩
  · exfalso
    unfold at_op find_path at habs
    rw [if_neg hroot, hfp] at habs
    simp at habs
  · have hfp2 : find_path t s k = some ((ℓ, i) :: restS, i, false) := by
      rw [find_path, if_neg hroot]
      simpa using hfp
    have hwfleaf' := hwfleaf
    rw [WFsub, WFsubM_zero] at hwfleaf'
    obtain ⟨hl_leaf, hl_pos, hl_cnt, hl_sz, hl_le, hl_win, hl_sort⟩ := hwfleaf'
    set NODE : Node := Node.mk ((disk_read t s ℓ).size + 1) (disk_read t s ℓ).is_leaf
      (disk_read t s ℓ).position_in_disk
      ((disk_read t s ℓ).keys.insertIdx i (k, v))
      (vec_resize (disk_read t s ℓ).pointers (maximum_keys_in_node t + 2)) with hNODE
    have hins : insert t s (k, v) =
        (if NODE.size > maximum_keys_in_node t then
          some (split_node t (disk_write t s NODE) ((ℓ, i) :: restS), true)
        else some (disk_write t s NODE, true)) := by
      unfold insert
      rw [hfp2]
      rfl
    have hidx_eq : (find_index k (disk_read t s ℓ)).fst = i := by
      rw [hfi]
    have hfnd : (find_index k (disk_read t s ℓ)).snd = false := by
      rw [hfi]
    obtain ⟨hcount1, hroot1, hother1, hwf1, hsz1, hcp1⟩ :=
      insert_leaf_spec t k v s ℓ llo lhi hwfleaf hwinl hfnd
        (disk_write t s NODE) (by rw [hidx_eq, hNODE])
    have hspp := spine_positions_perm t k s s.position_root h none none restS ℓ 0
      llo lhi hchain
    have hnd2 : (positions t s 0 ℓ ++ hole_positions t s restS 0).Nodup :=
      (hspp.nodup_iff).mp hnd
    have hℓ_not : ℓ ∉ hole_positions t s restS 0 := by
      intro hmem
      exact (List.nodup_append.mp hnd2).2.2 (by simp [positions]) hmem
    have hhole_ag1 : ∀ q ∈ hole_positions t s restS 0,
        (disk_write t s NODE).store q = s.store q := by
      intro q hq
      apply hother1 q
      intro he
      exact hℓ_not (he ▸ hq)
    have hchain1 : SpineChain t k (disk_write t s NODE) s.position_root h none none
        restS ℓ 0 llo lhi :=
      SpineChain_congr t k s (disk_write t s NODE) s.position_root h none none
        (le_of_eq hcount1.symm) restS ℓ 0 llo lhi hhole_ag1 hchain
    have hlenrest : h = restS.length := by
      have := SpineChain_length t k s s.position_root h none none restS ℓ 0 llo lhi
        hchain
      simpa using this
    rw [← hroot1] at hchain1
    rw [hins]
    have hNsz : NODE.size = (disk_read t s ℓ).size + 1 := by
      rw [hNODE]
    by_cases hover : maximum_keys_in_node t < NODE.size
    · rw [if_pos hover]
      refine ⟨_, rfl, ?_⟩
      rw [hNsz] at hover
      have hchain2 : SpineChain t k (disk_write t s NODE)
          (disk_write t s NODE).position_root (0 + restS.length) none none
          restS ℓ 0 llo lhi := by
        rw [show (0 : Nat) + restS.length = h from by omega]
        exact hchain1
      apply split_node_finds t k v h2t restS (disk_write t s NODE) ℓ i 0 llo lhi
        hwf1 (by rw [hsz1]; omega) hcp1 hchain2
      · have hhole1eq : hole_positions t (disk_write t s NODE) restS 0 =
            hole_positions t s restS 0 :=
          hole_positions_congr t s (disk_write t s NODE) restS 0 hhole_ag1
        rw [hhole1eq]
        exact hnd2
      · rw [hroot1]
        exact hroot
      · rw [hcount1]
        omega
      · rw [hcount1]
        omega
    · rw [if_neg hover]
      refine ⟨_, rfl, ?_⟩
      rw [hNsz] at hover
      apply at_op_of_spine t k v (disk_write t s NODE) h restS ℓ 0 llo lhi
        (by rw [hroot1]; exact hroot) hchain1
      · apply WFsubM_tighten t (disk_write t s NODE) 0 ℓ llo lhi
          (maximum_keys_in_node t + 1) _ hwf1
        rw [hsz1]
        omega
      · exact hcp1
      · rw [hcount1]
        omega

/-- Witness for C4: inserting key 5 into the fresh degree-2 tree and
reading it back. -/
theorem C4_witness : ∃ s', insert 2 (B_tree_disk_new 2) (5, 7) = some (s', true) ∧
    at_op 2 s' 5 = some 7 :=
  C4_insert_then_at 2 (B_tree_disk_new 2) 0 5 7 (by decide) (by decide)

/-! ## Supporting lemmas for the claims -/

theorem find_path_from_path_ne_nil (t : Nat) (s : TreeState) (key : Nat) :
    ∀ (fuel pos : Nat) (acc : List (Nat × Nat)) (res : List (Nat × Nat) × Nat × Bool),
      find_path_from t s key fuel pos acc = some res → res.fst ≠ [] := by
  intro fuel
  induction fuel with
  | zero => intro pos acc res h; cases h
  | succ fuel ih =>
    intro pos acc res h
    unfold find_path_from at h
    dsimp only at h
    split at h
    · cases h; simp
    · split at h
      · cases h; simp
      · exact ih _ _ _ h

/-! ## The claims -/

/-- C1: the spec says forward iteration from `begin()` visits exactly the
stored keys in ascending order and that the ascent "pops frames and
continues upward until a frame with an unconsumed key is found or the stack
empties (yielding end())".  On the depth-3 tree obtained by inserting keys
1..13 (`scenario13`), the 13 increments do visit keys 1..13, but the 13th
increment leaves the stack at `[(7, 1)]` — the root frame with its index
equal to its key count — instead of emptying it: `operator++`'s ascent
returns immediately after popping a single exhausted frame (its deeper
ascent steps 4.2/4.3 are dead code), so the iterator never compares equal
to `end()` and dereferencing it reads `keys[1]` out of bounds. -/
theorem C1_iteration_misses_end :
    begin 2 scenario13 = some [(0, 0), (2, 0), (7, 0)] ∧
    iter_collect 2 scenario13 20 13 [(0, 0), (2, 0), (7, 0)] =
      some ((List.range 13).map (fun i => some (i + 1, (i + 1) * 10)), [(7, 1)]) ∧
    [(7, 1)] ≠ end_iter ∧
    iter_deref 2 scenario13 [(7, 1)] = none ∧
    (disk_read 2 scenario13 7).keys.length = 1 := by
  refine ⟨by decide, by decide, by decide, by decide, by decide⟩

/-- C2: the claim says the upper iterator of
`find_range(lower, upper, include_lower, include_upper)` is advanced by one
exactly when `upper` was found AND `include_upper` is true.  The source
advances it when `upper_found && !include_upper` — the opposite condition.
On the leaf `{1, 2, 3}` (`scenario3`): with `include_upper = true` the
returned upper iterator still points AT key 3 (so 3 is excluded from the
iteration), and with `include_upper = false` it has been advanced past 3 to
`end()` (so 3 is included).  The lower-bound half of the claim
(`lower_found && !include_lower`) does match the source. -/
theorem C2_upper_advance_condition_inverted :
    find_range 2 scenario3 1 3 true true = some ([(0, 0)], [(0, 2)]) ∧
    iter_deref 2 scenario3 [(0, 2)] = some (3, 30) ∧
    find_range 2 scenario3 1 3 true false = some ([(0, 0)], end_iter) ∧
    find_range 2 scenario3 1 3 false true = some ([(0, 1)], [(0, 2)]) := by
  refine ⟨by decide, by decide, by decide, by decide⟩

/-- C3: the claim says `deserialize` truncates the in-memory children
sequence to `size + 1` so that `check_tree`'s children-count check passes.
In the source, `deserialize` resizes `pointers` to the full fixed width
`maximum_keys_in_node + 2` and never truncates, so every internal node read
from disk has `pointers.size() == maximum_keys_in_node + 2 ≠ size + 1`
(since `size ≤ maximum_keys_in_node`), and `check_tree` throws
"Pointers count mismatch" on every internal node — here on the internal
root of the tree built by inserting keys 1..4 (`scenario4`). -/
theorem C3_children_not_truncated_check_tree_fails :
    (∀ (t' : Nat) (sl : Slot),
        (deserialize t' sl).pointers.length = maximum_keys_in_node t' + 2) ∧
    (disk_read 2 scenario4 scenario4.position_root).is_leaf = false ∧
    (disk_read 2 scenario4 scenario4.position_root).size = 1 ∧
    (disk_read 2 scenario4 scenario4.position_root).pointers.length = 5 ∧
    check_tree 2 scenario4 10 scenario4.position_root 0 = false := by
  refine ⟨fun t' sl => by simp [deserialize], by decide, by decide, by decide, by decide⟩

/-- C6: erase case B.3 on `scenarioA` (root 7 `[(9,90)]`, both children
internal with exactly `minimum_keys_in_node` keys: node 2 `[(6,60)]` with
children `[0, 3]` and node 6 `[(12,120)]` with children `[4, 5]`).  Erasing
9 merges as claimed for the keys (`L.keys = [(6,60), (12,120)]`, the
separator is not appended) and for N (key and child removed, root moved to
L), but L's stored children table is still `[0, 3, 0, 0, 0]`: the source
appends R's children after L's fixed-width padding and `serialize` writes
only the first `maximum_keys_in_node + 2` entries, so R's children 4 and 5
are lost instead of following L's old children. -/
theorem C6_merge_drops_right_children :
    (disk_read 2 scenarioA scenarioA.position_root).keys = [(9, 90)] ∧
    (disk_read 2 scenarioA scenarioA.position_root).pointers.take 2 = [2, 6] ∧
    (disk_read 2 scenarioA 2).is_leaf = false ∧
    (disk_read 2 scenarioA 2).size = minimum_keys_in_node 2 ∧
    (disk_read 2 scenarioA 2).keys = [(6, 60)] ∧
    (disk_read 2 scenarioA 2).pointers = [0, 3, 0, 0, 0] ∧
    (disk_read 2 scenarioA 6).is_leaf = false ∧
    (disk_read 2 scenarioA 6).size = minimum_keys_in_node 2 ∧
    (disk_read 2 scenarioA 6).keys = [(12, 120)] ∧
    (disk_read 2 scenarioA 6).pointers = [4, 5, 0, 0, 0] ∧
    (erase 2 scenarioA 9).map (fun r =>
        (r.snd, (disk_read 2 r.fst 2).keys, (disk_read 2 r.fst 2).pointers,
          r.fst.position_root))
      = some (true, [(6, 60), (12, 120)], [0, 3, 0, 0, 0], 2) := by
  refine ⟨by decide, by decide, by decide, by decide, by decide, by decide, by decide,
    by decide, by decide, by decide, by decide⟩

/-- C7 counterexample: the claim says construction from a base path where
exactly one of the two files exists is rejected as a construction error.
The constructor computes `files_exist = exists(tree) && exists(data)` and
takes the fresh-creation branch (which truncates both files) whenever that
conjunction is false — mixed existence included; no branch reports an
error. -/
theorem C7_mixed_existence_not_rejected :
    constructorOutcome true false = ConstructorOutcome.freshInit ∧
    constructorOutcome false true = ConstructorOutcome.freshInit ∧
    ∀ (te de : Bool), constructorOutcome te de ≠ ConstructorOutcome.constructionError := by
  decide

/-- C7 (amended): when not both files exist — including when exactly one
does — the constructor creates/truncates both files and initializes a fresh
tree (slot 0 an empty leaf root, `node_count = 1`, `root_pos = 0`); mixed
existence is not rejected. -/
theorem C7_mixed_existence_truncates_to_fresh (te de : Bool)
    (h : ¬(te = true ∧ de = true)) :
    constructorOutcome te de = ConstructorOutcome.freshInit ∧
    (B_tree_disk_new 2).position_root = 0 ∧
    (B_tree_disk_new 2).count_of_node = 1 ∧
    (B_tree_disk_new 2).header_count = 1 ∧
    (B_tree_disk_new 2).header_root = 0 ∧
    (disk_read 2 (B_tree_disk_new 2) 0).is_leaf = true ∧
    (disk_read 2 (B_tree_disk_new 2) 0).keys = [] := by
  refine ⟨?_, by decide, by decide, by decide, by decide, by decide, by decide⟩
  cases te <;> cases de <;> simp_all [constructorOutcome]

theorem C7_witness :
    ¬(true = true ∧ false = true) ∧
    constructorOutcome true false = ConstructorOutcome.freshInit :=
  ⟨by decide, (C7_mixed_existence_truncates_to_fresh true false (by decide)).1⟩

/-- C8: inserting a key that is already present (observable via `at`)
returns false and leaves the state literally unchanged, so iteration and
`get` results are unchanged as well: `insert` returns `(s, false)` straight
from the `found` test before any write. -/
theorem C8_insert_present_key_is_noop (t : Nat) (s : TreeState) (k w v : Nat)
    (hpresent : at_op t s k = some w) :
    insert t s (k, v) = some (s, false) := by
  cases hfp : find_path t s k with
  | none => unfold at_op at hpresent; rw [hfp] at hpresent; cases hpresent
  | some res =>
    obtain ⟨path, index, found⟩ := res
    unfold at_op at hpresent
    rw [hfp] at hpresent
    cases found with
    | false => simp at hpresent
    | true =>
      unfold insert
      dsimp only
      rw [hfp]
      rfl

theorem C8_witness :
    at_op 2 scenario3 2 = some 20 ∧ insert 2 scenario3 (2, 99) = some (scenario3, false) :=
  ⟨by decide, C8_insert_present_key_is_noop 2 scenario3 2 20 99 (by decide)⟩

/-- C9: after creation, the only header write is `print_root_position`,
which stores `_position_root` into the word at byte offset `sizeof(size_t)`
(`header_root`) and leaves the `node_count` word at offset 0
(`header_count`), the node slots and the in-memory counter untouched; no
successful `insert`/`update`/`erase` changes `header_count`; and the
constructor writes `header_count = _count_of_node` once at creation. -/
theorem C9_node_count_header_written_once (t : Nat) :
    (∀ s : TreeState,
        (print_root_position s).header_count = s.header_count ∧
        (print_root_position s).header_root = s.position_root ∧
        (print_root_position s).store = s.store ∧
        (print_root_position s).count_of_node = s.count_of_node) ∧
    (∀ (s : TreeState) (d : Nat × Nat) (r : TreeState × Bool),
        insert t s d = some r → r.fst.header_count = s.header_count) ∧
    (∀ (s : TreeState) (d : Nat × Nat) (r : TreeState × Bool),
        update t s d = some r → r.fst.header_count = s.header_count) ∧
    (∀ (s : TreeState) (k : Nat) (r : TreeState × Bool),
        erase t s k = some r → r.fst.header_count = s.header_count) ∧
    (B_tree_disk_new t).header_count = (B_tree_disk_new t).count_of_node :=
  ⟨fun _ => ⟨rfl, rfl, rfl, rfl⟩, insert_header_count t, update_header_count t,
    erase_header_count t, rfl⟩

theorem C9_witness :
    ((erase 2 scenario3 2).getD (fresh2, false)).fst.header_count = scenario3.header_count :=
  (C9_node_count_header_written_once 2).2.2.2.1 scenario3 2 _ (by rfl)

/-- C10: `insert` has the implicit precondition `_position_root ≠ NONE`.
When `_position_root` is the `NONE` sentinel (reachable by erasing every
key), `find_path` returns an empty stack and `insert` performs `top()` on
it — undefined behaviour, modelled as `none`; when the root is present,
every stack `find_path` returns is non-empty (the root frame is pushed
before any return), so the `top()` access is in bounds. -/
theorem C10_insert_needs_nonempty_root (t : Nat) :
    (∀ (s : TreeState) (k : Nat), s.position_root = NONE_POSITION →
        find_path t s k = some ([], 0, false) ∧ ∀ v, insert t s (k, v) = none) ∧
    (∀ (s : TreeState) (k : Nat) (path : List (Nat × Nat)) (ib : Nat × Bool),
        s.position_root ≠ NONE_POSITION → find_path t s k = some (path, ib) →
        path ≠ []) := by
  constructor
  · intro s k h
    have hfp : find_path t s k = some ([], 0, false) := by
      unfold find_path
      rw [if_pos h]
    refine ⟨hfp, fun v => ?_⟩
    unfold insert
    dsimp only
    rw [hfp]
    rfl
  · intro s k path ib h hfp
    unfold find_path at hfp
    rw [if_neg h] at hfp
    exact find_path_from_path_ne_nil t s k _ _ _ _ hfp

theorem C10_witness :
    scenarioE.position_root = NONE_POSITION ∧
    find_path 2 scenarioE 7 = some ([], 0, false) ∧
    insert 2 scenarioE (7, 70) = none ∧
    scenario3.position_root ≠ NONE_POSITION ∧
    find_path 2 scenario3 2 = some ([(0, 1)], 1, true) ∧
    ([(0, 1)] : List (Nat × Nat)) ≠ [] :=
  ⟨by decide,
    ((C10_insert_needs_nonempty_root 2).1 scenarioE 7 (by decide)).1,
    ((C10_insert_needs_nonempty_root 2).1 scenarioE 7 (by decide)).2 70,
    by decide, by decide,
    (C10_insert_needs_nonempty_root 2).2 scenario3 2 [(0, 1)] (1, true)
      (by decide) (by decide)⟩

end BTreeDisk
